import Mathlib

/-!
A shallow embedding of the `sinter_ui` fine-grained reactive runtime
(`src/sinter_ui/src/reactivity.rs`, `src/sinter_ui/src/reactivity/runtime.rs`,
`src/sinter_ui/src/error.rs`, `src/sinter_ui/src/flow/for_loop.rs`).

Modelling conventions:
* `slotmap::SlotMap<NodeId, Node>` is modelled as an association list
  `List (Nat × Node)` with a monotonically increasing `nextId` counter;
  keys are never reused, which matches the generational-key guarantee
  that a disposed identifier never aliases a later node.
* Type-erased values `Box<dyn Any>` are modelled as a pair
  `(typeTag, payload) : Nat × Nat`; `downcast` succeeds iff the stored
  type tag equals the expected one.
* Effect computations (`Rc<dyn Fn()>`) are deep-embedded as the command
  language `Cmd`, covering the operations the repository's closures
  perform against the runtime: tracked reads, writes, creating
  signals/effects/scopes, branching on previously read data, and the
  memo body produced by `create_memo`.
* Cleanup callbacks (`Box<dyn FnOnce()>`) are modelled as opaque tokens:
  in the repository they only touch state outside the reactive graph
  (the `alive` cell of a resource, DOM resources), never the runtime,
  so running one is modelled as logging a `cleanupRun` event.
* `console` logging performed by the `error!` macro is outside the
  runtime state and is not modelled; the Rust early-`return` error paths
  simply leave the state unchanged.
* Recursion through the arena (effect cascades, recursive disposal) is
  made total with an explicit fuel argument; exhausted fuel leaves the
  state unchanged, mirroring nothing in the source (the source recursion
  is unbounded) but irrelevant to the claims, which are stated either
  for all fuels or with enough fuel.
* The runtime additionally carries an event log `log : List Ev` used
  only to state theorems about what happened during an operation
  (dependency registrations, flush snapshots, cleanup executions);
  the Rust code has no such log, and no operation reads it.
-/

namespace Sinter

/-- `NodeType` from `runtime.rs`. -/
inductive NodeType where
  | signal
  | effect
  | scope
deriving DecidableEq

/-- Deep embedding of the effect bodies (`Rc<dyn Fn()>`) used by the
repository: sequencing, tracked signal reads (`ReadSignal::get`),
writes (`WriteSignal::update` / `set`), nested `create_signal` /
`create_effect` / `create_scope`, branching on a signal's current
payload (dynamic dependencies), and the body `create_memo` installs. -/
inductive Cmd where
  | skip
  | seq (a b : Cmd)
  | read (sig : Nat)
  | write (sig ty : Nat) (g : Nat → Nat)
  | newSignal (ty v : Nat)
  | newEffect (body : Cmd)
  | newScope (body : Cmd)
  | iteS (sig v : Nat) (t e : Cmd)
  | memoStep (srcs : List (Nat × Nat)) (g : List (Option Nat) → Nat) (ty backing : Nat)

/-- `Node` from `runtime.rs`: one arena slot. `value` is the type-erased
signal value, `computation` the effect body, `cleanups` the list of
pending cleanup-callback tokens, `context` the type-keyed context map. -/
structure Node where
  kind : NodeType
  value : Option (Nat × Nat) := none
  computation : Option Cmd := none
  subscribers : List Nat := []
  dependencies : List Nat := []
  children : List Nat := []
  parent : Option Nat := none
  cleanups : List Nat := []
  context : List (Nat × Nat) := []

/-- Events recorded while the runtime operates (for specification only):
`track e s` = `track_dependency` registered the edge effect `e` → signal
`s`; `clean n` = node `n`'s children/cleanups/dependencies were taken
(`clean_node` / start of `run_effect`); `runEv e` = effect `e`'s stored
computation was invoked; `notify s l` = a write to signal `s` snapshotted
subscriber list `l` (`get_dependents`) and will call `run_effect` on each
element of `l` in order; `cleanupRun t` = cleanup callback `t` executed;
`hookReport` = `handle_error` delivered an error to an installed
`ErrorContext` hook. -/
inductive Ev where
  | track (eff sig : Nat)
  | clean (node : Nat)
  | runEv (eff : Nat)
  | notify (sig : Nat) (subs : List Nat)
  | cleanupRun (tok : Nat)
  | hookReport
deriving DecidableEq

/-- `Runtime` from `runtime.rs` (plus the specification-only log). -/
structure St where
  nodes : List (Nat × Node)
  nextId : Nat
  currentOwner : Option Nat
  log : List Ev

/-- Lookup of a key in an association list (first match), the model of
`SlotMap::get` / `HashMap::get`. -/
def assocFind {β : Type} : List (Nat × β) → Nat → Option β
  | [], _ => none
  | p :: ps, i => if p.1 = i then some p.2 else assocFind ps i

def getNode (st : St) (i : Nat) : Option Node :=
  assocFind st.nodes i

/-- In-place update of one arena slot (`SlotMap::get_mut`); a no-op when
the key is absent, matching the guarded `if let Some(node) = get_mut`. -/
def updNode (st : St) (i : Nat) (g : Node → Node) : St :=
  { st with nodes := st.nodes.map (fun p => if p.1 = i then (p.1, g p.2) else p) }

/-- `SlotMap::remove` (the slot is never reused: `nextId` is monotone). -/
def removeNode (st : St) (i : Nat) : St :=
  { st with nodes := st.nodes.filter (fun p => p.1 ≠ i) }

def pushLog (e : Ev) (st : St) : St :=
  { st with log := st.log ++ [e] }

def subsOf (st : St) (i : Nat) : List Nat :=
  ((getNode st i).map Node.subscribers).getD []

def depsOf (st : St) (i : Nat) : List Nat :=
  ((getNode st i).map Node.dependencies).getD []

def childrenOf (st : St) (i : Nat) : List Nat :=
  ((getNode st i).map Node.children).getD []

def cleanupsOf (st : St) (i : Nat) : List Nat :=
  ((getNode st i).map Node.cleanups).getD []

def valueOf (st : St) (i : Nat) : Option (Nat × Nat) :=
  (getNode st i).bind Node.value

/-- The value a `ReadSignal<T>::get_untracked` recovers: present iff the
node exists, holds a value, and the stored type tag matches. -/
def getTyped (st : St) (i ty : Nat) : Option Nat :=
  match valueOf st i with
  | some (t, v) => if t = ty then some v else none
  | none => none

/-- Index of the first occurrence (`Iterator::position`). -/
def findIdx : List Nat → Nat → Option Nat
  | [], _ => none
  | y :: ys, x => if y = x then some 0 else (findIdx ys x).map (· + 1)

/-- `Vec::swap_remove i`: the last element is moved into slot `i` and the
vector shrinks by one.  This does not preserve order. -/
def swapRemove (l : List Nat) (i : Nat) : List Nat :=
  match l.getLast? with
  | none => l
  | some lst => (l.set i lst).dropLast

/-- `if let Some(idx) = v.iter().position(|x| x == a) { v.swap_remove(idx) }`. -/
def removeFirst (x : Nat) (l : List Nat) : List Nat :=
  match findIdx l x with
  | none => l
  | some i => swapRemove l i

/-- `Runtime::register_node_internal`: insert a fresh node whose parent is
the current owner and push it onto the parent's child list. -/
def registerNode (st : St) (kind : NodeType) : Nat × St :=
  let id := st.nextId
  let parent := st.currentOwner
  let node : Node := { kind := kind, parent := parent }
  let st1 : St := { st with nodes := st.nodes ++ [(id, node)], nextId := id + 1 }
  match parent with
  | some p => (id, updNode st1 p (fun n => { n with children := n.children ++ [id] }))
  | none => (id, st1)

/-- `Runtime::register_signal`. -/
def registerSignal (st : St) (ty v : Nat) : Nat × St :=
  let (id, st1) := registerNode st NodeType.signal
  (id, updNode st1 id (fun n => { n with value := some (ty, v) }))

/-- Registration part of `create_effect` (before the initial run). -/
def registerEffect (st : St) (body : Cmd) : Nat × St :=
  let (id, st1) := registerNode st NodeType.effect
  (id, updNode st1 id (fun n => { n with computation := some body }))

/-- `Runtime::track_dependency`: when a signal is read with a current
owner that is an `Effect` node (and distinct from the signal, both alive),
add the signal to the owner's dependency list and the owner to the
signal's subscriber list, each guarded against duplicates. -/
def trackDependency (sig : Nat) (st : St) : St :=
  match st.currentOwner with
  | none => st
  | some o =>
    if o = sig then st
    else
      match getNode st o, getNode st sig with
      | some ow, some _ =>
        if ow.kind = NodeType.effect then
          let st1 := updNode st o (fun n =>
            if sig ∈ n.dependencies then n
            else { n with dependencies := n.dependencies ++ [sig] })
          let st2 := updNode st1 sig (fun n =>
            if o ∈ n.subscribers then n
            else { n with subscribers := n.subscribers ++ [o] })
          pushLog (Ev.track o sig) st2
        else st
      | _, _ => st

/-- `Runtime::get_dependents`: clone of the subscriber list. -/
def getDependents (st : St) (sig : Nat) : List Nat :=
  match getNode st sig with
  | some n => n.subscribers
  | none => []

/-- The `mem::take` at the start of `clean_node` / `run_effect`: read and
clear a node's children, cleanups and dependencies (logging `clean`). -/
def takeNode (st : St) (i : Nat) : Option ((List Nat × List Nat × List Nat) × St) :=
  match getNode st i with
  | none => none
  | some n =>
    some ((n.children, n.cleanups, n.dependencies),
      pushLog (Ev.clean i)
        (updNode st i (fun m => { m with children := [], cleanups := [], dependencies := [] })))

/-- Step 2 of `run_cleanups`: run (here: log) the cleanup callbacks. -/
def runCleanupTokens (cl : List Nat) (st : St) : St :=
  cl.foldl (fun s t => pushLog (Ev.cleanupRun t) s) st

/-- Step 3 of `run_cleanups`: remove `selfId` from the subscriber list of
every signal in the taken dependency list (via `swap_remove`). -/
def unsubscribeSelf (selfId : Nat) (deps : List Nat) (st : St) : St :=
  deps.foldl
    (fun s sig => updNode s sig (fun n =>
      { n with subscribers := removeFirst selfId n.subscribers })) st

/-- `Runtime::dispose_node` (with `clean_node` / `run_cleanups` inlined):
recursively dispose children, run cleanups, unsubscribe from dependency
signals, optionally remove the node from its parent's child list, and
remove the node from the arena.  Cleanup callbacks are opaque tokens, so
subtree disposal does not re-enter `Cmd` execution. -/
def disposeNode : Nat → Nat → Bool → St → St
  | 0, _, _, st => st
  | fuel + 1, x, rmParent, st =>
    match takeNode st x with
    | none => removeNode st x
    | some ((ch, cl, dp), st1) =>
      let st2 := ch.foldl (fun s c => disposeNode fuel c false s) st1
      let st3 := runCleanupTokens cl st2
      let st4 := unsubscribeSelf x dp st3
      let st5 :=
        if rmParent then
          match (getNode st4 x).bind Node.parent with
          | some p => updNode st4 p (fun n => { n with children := removeFirst x n.children })
          | none => st4
        else st4
      removeNode st5 x

/-- The actions the fueled interpreter can perform: execute an effect
body, `run_effect`, or `WriteSignal::update`. -/
inductive Act where
  | cmd (c : Cmd)
  | runEff (e : Nat)
  | write (sig ty : Nat) (g : Nat → Nat)

/-- The interpreter.  `step fuel (Act.runEff e)` is `run_effect(e)`:
take the computation together with children/cleanups/dependencies,
dispose the children, run the cleanups, unsubscribe from the old
dependencies, then run the body with `current_owner` set to `e` (saved
and restored).  `step fuel (Act.write sig ty g)` is
`WriteSignal::update`: type-checked in-place mutation, then snapshot the
subscriber list (`get_dependents`, recorded as `Ev.notify`) and call
`run_effect` on each captured subscriber in order; the three error paths
(missing node, missing value, type mismatch) return with the state
unchanged.  `step fuel (Act.cmd c)` executes an effect body. -/
def step : Nat → Act → St → St
  | 0, _, st => st
  | fuel + 1, act, st =>
    match act with
    | Act.cmd Cmd.skip => st
    | Act.cmd (Cmd.seq a b) => step fuel (Act.cmd b) (step fuel (Act.cmd a) st)
    | Act.cmd (Cmd.read sig) => trackDependency sig st
    | Act.cmd (Cmd.write sig ty g) => step fuel (Act.write sig ty g) st
    | Act.cmd (Cmd.newSignal ty v) => (registerSignal st ty v).2
    | Act.cmd (Cmd.newEffect body) =>
      let (id, st1) := registerEffect st body
      step fuel (Act.runEff id) st1
    | Act.cmd (Cmd.newScope body) =>
      let (id, st1) := registerNode st NodeType.scope
      let prev := st1.currentOwner
      let st2 := step fuel (Act.cmd body) { st1 with currentOwner := some id }
      { st2 with currentOwner := prev }
    | Act.cmd (Cmd.iteS sig v t e) =>
      if (valueOf st sig).map Prod.snd = some v then step fuel (Act.cmd t) st
      else step fuel (Act.cmd e) st
    | Act.cmd (Cmd.memoStep srcs g ty backing) =>
      let st1 := srcs.foldl (fun s p => trackDependency p.1 s) st
      let vals := srcs.map (fun p => getTyped st1 p.1 p.2)
      let nv := g vals
      match getTyped st1 backing ty with
      | some old => if nv = old then st1 else step fuel (Act.write backing ty (fun _ => nv)) st1
      | none => st1
    | Act.runEff e =>
      match takeNode st e with
      | none => st
      | some ((ch, cl, dp), st1) =>
        let comp := ((getNode st e).map Node.computation).getD none
        let st2 := ch.foldl (fun s c => disposeNode fuel c false s) st1
        let st3 := runCleanupTokens cl st2
        let st4 := unsubscribeSelf e dp st3
        match comp with
        | none => st4
        | some body =>
          let prev := st4.currentOwner
          let st5 := pushLog (Ev.runEv e) { st4 with currentOwner := some e }
          let st6 := step fuel (Act.cmd body) st5
          { st6 with currentOwner := prev }
    | Act.write sig ty g =>
      match getNode st sig with
      | none => st
      | some n =>
        match n.value with
        | none => st
        | some (ty', v) =>
          if ty' = ty then
            let st1 := updNode st sig (fun m => { m with value := some (ty, g v) })
            let effs := getDependents st1 sig
            let st2 := pushLog (Ev.notify sig effs) st1
            effs.foldl (fun s e => step fuel (Act.runEff e) s) st2
          else st

/-- `WriteSignal::update` (and `set`, which is `update (fun _ => v)`). -/
def writeOp (fuel sig ty : Nat) (g : Nat → Nat) (st : St) : St :=
  step fuel (Act.write sig ty g) st

/-- `create_signal` (public API): register a signal, return its id. -/
def createSignalOp (st : St) (ty v : Nat) : Nat × St :=
  registerSignal st ty v

/-- `create_effect` (public API): register an effect node with the given
body and immediately run it once for dependency collection. -/
def createEffectOp (fuel : Nat) (body : Cmd) (st : St) : Nat × St :=
  let (id, st1) := registerEffect st body
  (id, step fuel (Act.runEff id) st1)

/-- `create_scope` (public API): register a scope node, run the body with
the scope as current owner, restore the previous owner. -/
def createScopeOp (fuel : Nat) (body : Cmd) (st : St) : Nat × St :=
  let (id, st1) := registerNode st NodeType.scope
  let prev := st1.currentOwner
  let st2 := step fuel (Act.cmd body) { st1 with currentOwner := some id }
  (id, { st2 with currentOwner := prev })

/-- `dispose` (public API): `dispose_node(id, true)`.  The fuel
`st.nextId` always suffices because child identifiers strictly exceed
their parent's and every identifier is below `nextId`. -/
def disposeOp (st : St) (x : Nat) : St :=
  disposeNode st.nextId x true st

/-- `on_cleanup`: attach a cleanup token to the current owner; silently
dropped when there is no owner. -/
def onCleanup (tok : Nat) (st : St) : St :=
  match st.currentOwner with
  | none => st
  | some o => updNode st o (fun n => { n with cleanups := n.cleanups ++ [tok] })

/-- Result of `provide_context` (`SinterResult<()>`): `ok` models
`Ok(())`, the other two model the `Err(SinterError::Reactivity(..))`
branches (no owner scope / owner not found in the arena). -/
inductive PCRes where
  | ok
  | missingOwner
  | ownerNotFound
deriving DecidableEq

/-- `HashMap::insert` on the context map (overwrites the key). -/
def ctxInsert (ty v : Nat) (l : List (Nat × Nat)) : List (Nat × Nat) :=
  (ty, v) :: l.filter (fun p => p.1 ≠ ty)

/-- `provide_context`: store the value keyed by type in the current
owner's context map; with no current owner it returns the
`Reactivity("provide_context 被调用时没有 owner 作用域")` error without
touching the runtime, and it never invokes the `handle_error` hook. -/
def provideContext (ty v : Nat) (st : St) : St × PCRes :=
  match st.currentOwner with
  | some o =>
    match getNode st o with
    | some _ => (updNode st o (fun n => { n with context := ctxInsert ty v n.context }), PCRes.ok)
    | none => (st, PCRes.ownerNotFound)
  | none => (st, PCRes.missingOwner)

/-- `use_context`: walk parent links from the current owner until a
context map contains the type key.  Fueled against malformed parent
cycles; `nextId + 1` dominates every acyclic chain. -/
def useContextAux : Nat → Option Nat → Nat → St → Option Nat
  | 0, _, _, _ => none
  | fuel + 1, cur?, ty, st =>
    match cur? with
    | none => none
    | some cur =>
      match getNode st cur with
      | none => none
      | some n =>
        match assocFind n.context ty with
        | some v => some v
        | none => useContextAux fuel n.parent ty st

def useContext (ty : Nat) (st : St) : Option Nat :=
  useContextAux (st.nextId + 1) st.currentOwner ty st

/-- The context type key of `error::ErrorContext`. -/
def errorCtxTy : Nat := 0

/-- `error::handle_error`: deliver the error to an installed
`ErrorContext` hook (logged as `hookReport`), otherwise fall back to
console logging (outside the modelled state). -/
def handleError (st : St) : St :=
  match useContext errorCtxTy st with
  | some _ => pushLog Ev.hookReport st
  | none => st

/-- Type tags for the three signals a `Resource` creates. -/
def tyResData : Nat := 100
def tyResLoading : Nat := 101
def tyResTrigger : Nat := 102

/-- `create_resource` (graph-side part): create the `data`, `loading` and
`trigger` signals, register the liveness `on_cleanup` (silently dropped
when there is no current owner), and create the driving effect, whose
synchronous body runs `source()` (here `srcBody`), tracks the trigger
and sets `loading` to true.  The async fetch handed to
`wasm_bindgen_futures::spawn_local` (and the suspense-counter
increment/decrement around it) happens outside the synchronous runtime
fragment the claims are about and is not modelled.  The function returns
`Ok(Resource { .. })` unconditionally: the `Bool` component is the
`is_ok` of the returned `SinterResult` and is always `true`. -/
def createResource (fuel : Nat) (srcBody : Cmd) (tok : Nat) (st : St) : St × Bool :=
  let (_dataId, st1) := registerSignal st tyResData 0
  let (_loadId, st2) := registerSignal st1 tyResLoading 0
  let (trigId, st3) := registerSignal st2 tyResTrigger 0
  let st4 := onCleanup tok st3
  let body : Cmd :=
    Cmd.seq srcBody (Cmd.seq (Cmd.read trigId) (Cmd.write _loadId tyResLoading (fun _ => 1)))
  let (_, st5) := createEffectOp fuel body st4
  (st5, true)

/-- `create_memo`: evaluate the compute once untracked for the initial
value, create a backing signal, and create an effect whose body is
`Cmd.memoStep`: recompute, compare with the backing signal's current
value via `get_untracked`, and write only when different. -/
def createMemo (fuel : Nat) (srcs : List (Nat × Nat)) (g : List (Option Nat) → Nat)
    (ty : Nat) (st : St) : Nat × St :=
  let initial := g (srcs.map (fun p => getTyped st p.1 p.2))
  let (backing, st1) := registerSignal st ty initial
  let (_, st2) := createEffectOp fuel (Cmd.memoStep srcs g ty backing) st1
  (backing, st2)

/-!  The keyed list reconciler of `flow/for_loop.rs` (`For::mount`).
The DOM pieces (the wrapper `div` elements and the cursor-based
reordering of host nodes) are outside the reactive-graph fragment; the
model keeps, per key, the row scope identifier created by `create_scope`
(the `(Element, ScopeId)` pair minus the DOM element, whose identity
follows the scope: a wrapper element is built exactly when a fresh scope
is built). -/

/-- The `active_rows` map of `For::mount` plus the scope-id source. -/
structure ForSt where
  rowsMap : List (Nat × Nat)
  nextScope : Nat

/-- Phase 1 of the driving effect: walk the new items in order; reuse the
`(subtree, scope)` pair for a known key, otherwise create a fresh row
scope.  Returns `(new_rows_order, created scopes, next fresh scope)`.
Lookups hit the map as it was before this run (inserts happen in
phase 3, as in the source). -/
def forCollect (m : List (Nat × Nat)) (nextScope : Nat) :
    List Nat → List (Nat × Nat) × List Nat × Nat
  | [] => ([], [], nextScope)
  | k :: ks =>
    match assocFind m k with
    | some sc =>
      let (rest, created, ns) := forCollect m nextScope ks
      ((k, sc) :: rest, created, ns)
    | none =>
      let sc := nextScope
      let (rest, created, ns) := forCollect m (nextScope + 1) ks
      ((k, sc) :: rest, sc :: created, ns)

/-- Phase 2: `rows_map.retain(..)` — drop (and dispose) every entry whose
key is absent from the new key set; returns the kept map and the list of
disposed row scopes. -/
def forRetain (m : List (Nat × Nat)) (newKeys : List Nat) :
    List (Nat × Nat) × List Nat :=
  (m.filter (fun p => p.1 ∈ newKeys),
   (m.filter (fun p => p.1 ∉ newKeys)).map Prod.snd)

/-- Phase 3: re-insert every `(key, scope)` of the new order into the
retained map (`rows_map.insert` inside the cursor loop). -/
def forInsert (m : List (Nat × Nat)) : List (Nat × Nat) → List (Nat × Nat)
  | [] => m
  | (k, sc) :: rest => forInsert ((k, sc) :: m.filter (fun p => p.1 ≠ k)) rest

/-- One re-run of the keyed list's driving effect over the new key
sequence: returns the new state, the scopes created and the scopes
disposed during this run. -/
def forStepRun (fs : ForSt) (newKeys : List Nat) : ForSt × List Nat × List Nat :=
  let (order, created, ns) := forCollect fs.rowsMap fs.nextScope newKeys
  let (kept, disposed) := forRetain fs.rowsMap newKeys
  (⟨forInsert kept order, ns⟩, created, disposed)

/-! ### Basic lemmas about the list helpers -/

theorem assocFind_append {β : Type} (l₁ l₂ : List (Nat × β)) (j : Nat) :
    assocFind (l₁ ++ l₂) j =
      match assocFind l₁ j with
      | some v => some v
      | none => assocFind l₂ j := by
  induction l₁ with
  | nil => simp [assocFind]
  | cons p ps ih =>
    by_cases h : p.1 = j <;> simp [assocFind, h, ih]

theorem assocFind_eq_none {β : Type} (l : List (Nat × β)) (j : Nat)
    (h : j ∉ l.map Prod.fst) : assocFind l j = none := by
  induction l with
  | nil => rfl
  | cons p ps ih =>
    simp only [List.map_cons, List.mem_cons] at h
    push_neg at h
    simp [assocFind, Ne.symm h.1, ih h.2]

theorem assocFind_mem {β : Type} {l : List (Nat × β)} {j : Nat} {v : β}
    (h : assocFind l j = some v) : (j, v) ∈ l := by
  induction l with
  | nil => simp [assocFind] at h
  | cons p ps ih =>
    by_cases hp : p.1 = j
    · rw [show assocFind (p :: ps) j = some p.2 by simp [assocFind, hp]] at h
      have hv : p.2 = v := Option.some.inj h
      have : p = (j, v) := by
        cases p
        simp_all
      exact this ▸ List.mem_cons_self _ _
    · simp only [assocFind, hp, if_neg, if_false] at h
      exact List.mem_cons_of_mem _ (ih h)

theorem assocFind_isSome_of_mem {β : Type} {l : List (Nat × β)} {j : Nat} {v : β}
    (h : (j, v) ∈ l) : (assocFind l j).isSome := by
  induction l with
  | nil => simp at h
  | cons p ps ih =>
    rcases List.mem_cons.mp h with h | h
    · subst h; simp [assocFind]
    · by_cases hp : p.1 = j <;> simp [assocFind, hp, ih h]

theorem assocFind_of_mem_nodup {β : Type} {l : List (Nat × β)} {j : Nat} {v : β}
    (hn : (l.map Prod.fst).Nodup) (h : (j, v) ∈ l) : assocFind l j = some v := by
  induction l with
  | nil => simp at h
  | cons p ps ih =>
    simp only [List.map_cons, List.nodup_cons] at hn
    rcases List.mem_cons.mp h with h | h
    · subst h; simp [assocFind]
    · have hp : p.1 ≠ j := by
        intro he
        exact hn.1 (he ▸ List.mem_map_of_mem Prod.fst h)
      simp [assocFind, hp, ih hn.2 h]

theorem findIdx_lt_length {l : List Nat} {x i : Nat} (h : findIdx l x = some i) :
    i < l.length := by
  induction l generalizing i with
  | nil => simp [findIdx] at h
  | cons y ys ih =>
    by_cases hy : y = x
    · have : i = 0 := by simpa [findIdx, hy] using h.symm
      subst this
      simp
    · simp only [findIdx, hy, if_false, if_neg] at h
      rcases Option.map_eq_some'.mp h with ⟨j, hj, rfl⟩
      have := ih hj
      simp only [List.length_cons]
      omega

theorem swapRemove_perm_eraseIdx (l : List Nat) (i : Nat) (hi : i < l.length) :
    (swapRemove l i).Perm (l.eraseIdx i) := by
  rcases l.eq_nil_or_concat with h | ⟨front, lst, h⟩
  · subst h; simp at hi
  · rw [List.concat_eq_append] at h
    subst h
    have hlast : (front ++ [lst]).getLast? = some lst := List.getLast?_concat _
    have hlen : (front ++ [lst]).length = front.length + 1 := by simp
    unfold swapRemove
    rw [hlast]
    show (((front ++ [lst]).set i lst).dropLast).Perm ((front ++ [lst]).eraseIdx i)
    rw [List.set_eq_take_cons_drop lst hi, List.eraseIdx_eq_take_drop_succ]
    by_cases hcase : i + 1 ≤ front.length
    · rw [List.drop_append_of_le_length hcase]
      rw [show List.take i (front ++ [lst]) ++ lst :: (List.drop (i+1) front ++ [lst])
            = (List.take i (front ++ [lst]) ++ lst :: List.drop (i+1) front) ++ [lst] by
          simp]
      rw [List.dropLast_concat]
      exact List.Perm.append_left _ (List.perm_append_singleton lst _).symm
    · have hieq : i = front.length := by omega
      subst hieq
      rw [List.drop_eq_nil_of_le (by simp)]
      rw [List.take_append_of_le_length (le_refl _), List.take_length, List.dropLast_concat]
      simp [List.take_left]

theorem eraseIdx_mem_iff {l : List Nat} {i : Nat} (hn : l.Nodup) (hi : i < l.length) :
    ∀ x, x ∈ l.eraseIdx i ↔ (x ∈ l ∧ x ≠ l.get ⟨i, hi⟩) := by
  induction l generalizing i with
  | nil => simp at hi
  | cons y ys ih =>
    intro x
    cases i with
    | zero =>
      simp only [List.eraseIdx, List.get, List.mem_cons]
      simp only [List.nodup_cons] at hn
      constructor
      · intro hx
        refine ⟨Or.inr hx, ?_⟩
        intro he
        exact hn.1 (he ▸ hx)
      · rintro ⟨rfl | hx, hne⟩
        · exact absurd rfl hne
        · exact hx
    | succ j =>
      have hj : j < ys.length := by simpa using hi
      simp only [List.eraseIdx, List.mem_cons, List.get]
      simp only [List.nodup_cons] at hn
      rw [ih hn.2 hj x]
      constructor
      · rintro (rfl | ⟨hx, hne⟩)
        · refine ⟨Or.inl rfl, ?_⟩
          intro he
          exact hn.1 (he ▸ ys.get_mem j hj)
        · exact ⟨Or.inr hx, hne⟩
      · rintro ⟨rfl | hx, hne⟩
        · exact Or.inl rfl
        · exact Or.inr ⟨hx, hne⟩

theorem findIdx_get {l : List Nat} {x i : Nat} (h : findIdx l x = some i) :
    ∃ hi : i < l.length, l.get ⟨i, hi⟩ = x := by
  induction l generalizing i with
  | nil => simp [findIdx] at h
  | cons y ys ih =>
    by_cases hy : y = x
    · simp [findIdx, hy] at h
      subst h
      exact ⟨by simp, hy⟩
    · simp only [findIdx, hy, if_false, if_neg] at h
      rcases Option.map_eq_some'.mp h with ⟨j, hj, rfl⟩
      rcases ih hj with ⟨hjl, hget⟩
      exact ⟨by simpa using Nat.succ_lt_succ hjl, hget⟩

theorem findIdx_eq_none {l : List Nat} {x : Nat} (h : x ∉ l) : findIdx l x = none := by
  induction l with
  | nil => rfl
  | cons y ys ih =>
    simp only [List.mem_cons] at h
    push_neg at h
    simp [findIdx, Ne.symm h.1, ih h.2]

theorem removeFirst_subset {x : Nat} {l : List Nat} : removeFirst x l ⊆ l := by
  unfold removeFirst
  cases hf : findIdx l x with
  | none => exact fun _ h => h
  | some i =>
    intro y hy
    have hi := findIdx_lt_length hf
    have := (swapRemove_perm_eraseIdx l i hi).mem_iff.mp hy
    exact List.mem_of_mem_eraseIdx this

theorem removeFirst_nodup {x : Nat} {l : List Nat} (h : l.Nodup) :
    (removeFirst x l).Nodup := by
  unfold removeFirst
  cases hf : findIdx l x with
  | none => exact h
  | some i =>
    have hi := findIdx_lt_length hf
    exact ((swapRemove_perm_eraseIdx l i hi).nodup_iff).mpr (h.eraseIdx i)

theorem findIdx_none_not_mem {l : List Nat} {x : Nat} (hf : findIdx l x = none) :
    x ∉ l := by
  induction l with
  | nil => simp
  | cons z zs ih =>
    by_cases hz : z = x
    · simp [findIdx, hz] at hf
    · simp only [findIdx, hz, if_false, if_neg] at hf
      intro hx
      rcases List.mem_cons.mp hx with h | h
      · exact hz h.symm
      · exact ih (by simpa using hf) h

theorem removeFirst_mem_iff {x : Nat} {l : List Nat} (h : l.Nodup) :
    ∀ y, y ∈ removeFirst x l ↔ (y ∈ l ∧ y ≠ x) := by
  intro y
  unfold removeFirst
  cases hf : findIdx l x with
  | none =>
    have hx : x ∉ l := findIdx_none_not_mem hf
    constructor
    · intro hy
      exact ⟨hy, fun he => hx (he ▸ hy)⟩
    · exact fun ⟨hy, _⟩ => hy
  | some i =>
    rcases findIdx_get hf with ⟨hi, hget⟩
    rw [(swapRemove_perm_eraseIdx l i hi).mem_iff, eraseIdx_mem_iff h hi y, hget]

theorem removeFirst_of_not_mem {x : Nat} {l : List Nat} (h : x ∉ l) :
    removeFirst x l = l := by
  unfold removeFirst
  rw [findIdx_eq_none h]

/-- The list of live identifiers (arena keys). -/
def keysOf (st : St) : List Nat := st.nodes.map Prod.fst

/-! ### Projection lemmas for the primitive state operations -/

@[simp] theorem updNode_nextId (st : St) (i : Nat) (g : Node → Node) :
    (updNode st i g).nextId = st.nextId := rfl

@[simp] theorem updNode_owner (st : St) (i : Nat) (g : Node → Node) :
    (updNode st i g).currentOwner = st.currentOwner := rfl

@[simp] theorem updNode_log (st : St) (i : Nat) (g : Node → Node) :
    (updNode st i g).log = st.log := rfl

@[simp] theorem removeNode_nextId (st : St) (i : Nat) :
    (removeNode st i).nextId = st.nextId := rfl

@[simp] theorem removeNode_owner (st : St) (i : Nat) :
    (removeNode st i).currentOwner = st.currentOwner := rfl

@[simp] theorem removeNode_log (st : St) (i : Nat) :
    (removeNode st i).log = st.log := rfl

@[simp] theorem pushLog_nodes (e : Ev) (st : St) : (pushLog e st).nodes = st.nodes := rfl

@[simp] theorem pushLog_nextId (e : Ev) (st : St) : (pushLog e st).nextId = st.nextId := rfl

@[simp] theorem pushLog_owner (e : Ev) (st : St) :
    (pushLog e st).currentOwner = st.currentOwner := rfl

@[simp] theorem pushLog_log (e : Ev) (st : St) : (pushLog e st).log = st.log ++ [e] := rfl

@[simp] theorem getNode_pushLog (e : Ev) (st : St) (j : Nat) :
    getNode (pushLog e st) j = getNode st j := rfl

theorem assocFind_map_upd (l : List (Nat × Node)) (i : Nat) (g : Node → Node) (j : Nat) :
    assocFind (l.map (fun p => if p.1 = i then (p.1, g p.2) else p)) j
      = if j = i then (assocFind l i).map g else assocFind l j := by
  induction l with
  | nil => by_cases h : j = i <;> simp [assocFind, h]
  | cons p ps ih =>
    simp only [List.map_cons]
    by_cases hp : p.1 = i
    · rw [if_pos hp]
      by_cases hpj : p.1 = j
      · have hji : j = i := by omega
        simp [assocFind, hpj, hji, hp]
      · have hji : ¬ j = i := by omega
        simp [assocFind, hpj, hji, ih]
    · rw [if_neg hp]
      by_cases hpj : p.1 = j
      · have hji : ¬ j = i := by omega
        simp [assocFind, hpj, hji]
      · simp [assocFind, hpj, ih, hp]

@[simp] theorem getNode_updNode (st : St) (i : Nat) (g : Node → Node) (j : Nat) :
    getNode (updNode st i g) j = if j = i then (getNode st i).map g else getNode st j := by
  unfold getNode updNode
  exact assocFind_map_upd st.nodes i g j

theorem assocFind_filter_ne (l : List (Nat × Node)) (i : Nat) (j : Nat) :
    assocFind (l.filter (fun p => p.1 ≠ i)) j
      = if j = i then none else assocFind l j := by
  induction l with
  | nil => by_cases h : j = i <;> simp [assocFind, h]
  | cons p ps ih =>
    by_cases hp : p.1 = i
    · rw [List.filter_cons_of_neg (by simp [hp])]
      rw [ih]
      by_cases hj : j = i
      · simp [hj]
      · simp only [if_neg hj, assocFind]
        rw [if_neg (by omega : ¬ p.1 = j)]
    · rw [List.filter_cons_of_pos (by simp [hp])]
      by_cases hpj : p.1 = j
      · have hj : ¬ j = i := by omega
        simp [assocFind, hpj, hj]
      · simp only [assocFind, if_neg hpj]
        exact ih

@[simp] theorem getNode_removeNode (st : St) (i : Nat) (j : Nat) :
    getNode (removeNode st i) j = if j = i then none else getNode st j := by
  unfold getNode removeNode
  exact assocFind_filter_ne st.nodes i j

theorem getNode_eq_of_mem {st : St} {p : Nat × Node}
    (hn : (keysOf st).Nodup) (h : p ∈ st.nodes) : getNode st p.1 = some p.2 :=
  assocFind_of_mem_nodup hn h

theorem mem_of_getNode {st : St} {i : Nat} {n : Node}
    (h : getNode st i = some n) : (i, n) ∈ st.nodes :=
  assocFind_mem h

theorem keysOf_updNode (st : St) (i : Nat) (g : Node → Node) :
    keysOf (updNode st i g) = keysOf st := by
  unfold keysOf updNode
  simp only [List.map_map]
  apply List.map_congr_left
  intro p _
  by_cases h : p.1 = i <;> simp [h]

theorem keysOf_removeNode_sublist (st : St) (i : Nat) :
    (keysOf (removeNode st i)).Sublist (keysOf st) := by
  unfold keysOf removeNode
  exact (List.filter_sublist _).map Prod.fst

theorem mem_keysOf_removeNode {st : St} {i j : Nat} :
    j ∈ keysOf (removeNode st i) ↔ (j ∈ keysOf st ∧ j ≠ i) := by
  unfold keysOf removeNode
  constructor
  · intro h
    rcases List.mem_map.mp h with ⟨p, hp, rfl⟩
    have := List.of_mem_filter hp
    refine ⟨List.mem_map_of_mem _ (List.mem_of_mem_filter hp), by simpa using this⟩
  · rintro ⟨h, hne⟩
    rcases List.mem_map.mp h with ⟨p, hp, rfl⟩
    exact List.mem_map_of_mem _ (List.mem_filter_of_mem hp (by simpa using hne))

theorem mem_keysOf_iff {st : St} {j : Nat} :
    j ∈ keysOf st ↔ (getNode st j).isSome := by
  constructor
  · intro h
    rcases List.mem_map.mp h with ⟨p, hp, rfl⟩
    exact assocFind_isSome_of_mem hp
  · intro h
    rcases Option.isSome_iff_exists.mp h with ⟨n, hn⟩
    exact List.mem_map_of_mem _ (mem_of_getNode hn)

/-! ### The graph invariant

`InvL st exs`: the shape invariant of the arena, with a stack `exs` of
"exception" rows for nodes that are mid-disposal / mid-`run_effect`: an
exceptional node's dependency list has been `mem::take`-n (so it is
empty), and for an exceptional node `x` with taken dependency list `dp`,
`x` still sits in the subscriber list of exactly the signals in `dp`.
With `exs = []` this is the quiescent-state invariant `Inv`:
* arena keys are distinct and below `nextId`, as are all recorded ids,
* dependency/subscriber edges are symmetric,
* subscriber and dependency lists are duplicate-free (set semantics),
* every child id strictly exceeds its parent's id, and no id appears in
  two child lists (the ownership tree is a forest),
* subscriber lists only reference live nodes. -/
def InvL (st : St) (exs : List (Nat × List Nat)) : Prop :=
  (keysOf st).Nodup
  ∧ (∀ p ∈ st.nodes, p.1 < st.nextId
       ∧ (∀ x ∈ p.2.subscribers, x < st.nextId)
       ∧ (∀ x ∈ p.2.dependencies, x < st.nextId)
       ∧ (∀ x ∈ p.2.children, x < st.nextId))
  ∧ (match st.currentOwner with
     | none => True
     | some o => o < st.nextId)
  ∧ (∀ p ∈ st.nodes, ∀ q ∈ st.nodes,
       (q.1 ∈ p.2.subscribers ↔ p.1 ∈ ((assocFind exs q.1).getD q.2.dependencies)))
  ∧ (∀ p ∈ st.nodes, p.2.subscribers.Nodup ∧ p.2.dependencies.Nodup)
  ∧ (∀ p ∈ st.nodes, ∀ c ∈ p.2.children, p.1 < c)
  ∧ (∀ p ∈ st.nodes, ∀ q ∈ st.nodes, ∀ c, c ∈ p.2.children → c ∈ q.2.children → p.1 = q.1)
  ∧ (∀ p ∈ st.nodes, ∀ e ∈ p.2.subscribers, e ∈ keysOf st)
  ∧ (∀ pe ∈ exs, depsOf st pe.1 = [] ∧ childrenOf st pe.1 = [] ∧ pe.2.Nodup)

/-- The quiescent-state invariant (claim C2's symmetry plus the shape
facts needed to maintain it). -/
def Inv (st : St) : Prop := InvL st []

instance instDecidableInvL (st : St) (exs : List (Nat × List Nat)) :
    Decidable (InvL st exs) := by
  unfold InvL
  cases st.currentOwner <;> exact inferInstance

instance instDecidableInv (st : St) : Decidable (Inv st) := by
  unfold Inv
  infer_instance

/-- `InvL` restated through `getNode` (equivalent by `invl_iff_invG`);
this form is convenient for preservation proofs. -/
def InvG (st : St) (exs : List (Nat × List Nat)) : Prop :=
  (keysOf st).Nodup
  ∧ (∀ i n, getNode st i = some n → i < st.nextId
       ∧ (∀ x ∈ n.subscribers, x < st.nextId)
       ∧ (∀ x ∈ n.dependencies, x < st.nextId)
       ∧ (∀ x ∈ n.children, x < st.nextId))
  ∧ (match st.currentOwner with
     | none => True
     | some o => o < st.nextId)
  ∧ (∀ i n j m, getNode st i = some n → getNode st j = some m →
       (j ∈ n.subscribers ↔ i ∈ ((assocFind exs j).getD m.dependencies)))
  ∧ (∀ i n, getNode st i = some n → n.subscribers.Nodup ∧ n.dependencies.Nodup)
  ∧ (∀ i n, getNode st i = some n → ∀ c ∈ n.children, i < c)
  ∧ (∀ i n j m, getNode st i = some n → getNode st j = some m →
       ∀ c, c ∈ n.children → c ∈ m.children → i = j)
  ∧ (∀ i n, getNode st i = some n → ∀ e ∈ n.subscribers, (getNode st e).isSome)
  ∧ (∀ pe ∈ exs, depsOf st pe.1 = [] ∧ childrenOf st pe.1 = [] ∧ pe.2.Nodup)

theorem invl_iff_invG (st : St) (exs : List (Nat × List Nat)) :
    InvL st exs ↔ InvG st exs := by
  constructor
  · rintro ⟨hK, hB, hO, hS, hN, hG, hU, hL, hE⟩
    refine ⟨hK, ?_, hO, ?_, ?_, ?_, ?_, ?_, hE⟩
    · intro i n hget
      exact hB (i, n) (mem_of_getNode hget)
    · intro i n j m hi hj
      exact hS (i, n) (mem_of_getNode hi) (j, m) (mem_of_getNode hj)
    · intro i n hget
      exact hN (i, n) (mem_of_getNode hget)
    · intro i n hget
      exact hG (i, n) (mem_of_getNode hget)
    · intro i n j m hi hj
      exact hU (i, n) (mem_of_getNode hi) (j, m) (mem_of_getNode hj)
    · intro i n hget e he
      exact mem_keysOf_iff.mp (hL (i, n) (mem_of_getNode hget) e he)
  · rintro ⟨hK, hB, hO, hS, hN, hG, hU, hL, hE⟩
    refine ⟨hK, ?_, hO, ?_, ?_, ?_, ?_, ?_, hE⟩
    · intro p hp
      exact hB p.1 p.2 (getNode_eq_of_mem hK hp)
    · intro p hp q hq
      exact hS p.1 p.2 q.1 q.2 (getNode_eq_of_mem hK hp) (getNode_eq_of_mem hK hq)
    · intro p hp
      exact hN p.1 p.2 (getNode_eq_of_mem hK hp)
    · intro p hp
      exact hG p.1 p.2 (getNode_eq_of_mem hK hp)
    · intro p hp q hq
      exact hU p.1 p.2 q.1 q.2 (getNode_eq_of_mem hK hp) (getNode_eq_of_mem hK hq)
    · intro p hp e he
      exact mem_keysOf_iff.mpr (hL p.1 p.2 (getNode_eq_of_mem hK hp) e he)

/-- `InvL` only depends on the arena, `nextId` and the current owner. -/
theorem invl_congr {st st' : St} {exs : List (Nat × List Nat)}
    (hn : st'.nodes = st.nodes) (hi : st'.nextId = st.nextId)
    (ho : st'.currentOwner = st.currentOwner) (h : InvL st exs) : InvL st' exs := by
  cases st with
  | mk n x o l =>
    cases st' with
    | mk n' x' o' l' =>
      simp only at hn hi ho
      subst hn
      subst hi
      subst ho
      exact h

theorem invl_pushLog {st : St} {exs : List (Nat × List Nat)} (e : Ev)
    (h : InvL st exs) : InvL (pushLog e st) exs :=
  invl_congr rfl rfl rfl h

theorem invl_runCleanupTokens {st : St} {exs : List (Nat × List Nat)} (cl : List Nat)
    (h : InvL st exs) : InvL (runCleanupTokens cl st) exs := by
  induction cl generalizing st with
  | nil => exact h
  | cons t ts ih => exact ih (invl_pushLog _ h)

/-- Updating a node in a way that keeps its subscriber and dependency
lists and shrinks (or keeps) its child list preserves `InvL`. -/
theorem invl_updNode_mono {st : St} {exs : List (Nat × List Nat)} {i : Nat}
    {g : Node → Node}
    (hsub : ∀ n, (g n).subscribers = n.subscribers)
    (hdep : ∀ n, (g n).dependencies = n.dependencies)
    (hch : ∀ n, (g n).children ⊆ n.children)
    (h : InvL st exs) : InvL (updNode st i g) exs := by
  rw [invl_iff_invG] at h ⊢
  obtain ⟨hK, hB, hO, hS, hN, hG, hU, hL, hE⟩ := h
  have hget : ∀ j m, getNode (updNode st i g) j = some m →
      ∃ m₀, getNode st j = some m₀ ∧ m.subscribers = m₀.subscribers ∧
        m.dependencies = m₀.dependencies ∧ m.children ⊆ m₀.children := by
    intro j m hm
    rw [getNode_updNode] at hm
    by_cases hj : j = i
    · rw [if_pos hj] at hm
      rcases Option.map_eq_some'.mp hm with ⟨m₀, hm₀, rfl⟩
      exact ⟨m₀, hj ▸ hm₀, hsub m₀, hdep m₀, hch m₀⟩
    · rw [if_neg hj] at hm
      exact ⟨m, hm, rfl, rfl, fun _ hx => hx⟩
  refine ⟨by rw [keysOf_updNode]; exact hK, ?_, ?_, ?_, ?_, ?_, ?_, ?_, ?_⟩
  · intro j m hm
    rcases hget j m hm with ⟨m₀, h₀, hs, hd, hc⟩
    rcases hB j m₀ h₀ with ⟨b1, b2, b3, b4⟩
    exact ⟨b1, hs ▸ b2, hd ▸ b3, fun x hx => b4 x (hc hx)⟩
  · simpa using hO
  · intro a n b m ha hb
    rcases hget a n ha with ⟨n₀, ha₀, hs, hd, _⟩
    rcases hget b m hb with ⟨m₀, hb₀, _, hd', _⟩
    rw [hs, hd']
    exact hS a n₀ b m₀ ha₀ hb₀
  · intro a n ha
    rcases hget a n ha with ⟨n₀, ha₀, hs, hd, _⟩
    rw [hs, hd]
    exact hN a n₀ ha₀
  · intro a n ha c hc
    rcases hget a n ha with ⟨n₀, ha₀, _, _, hcs⟩
    exact hG a n₀ ha₀ c (hcs hc)
  · intro a n b m ha hb c hc hc'
    rcases hget a n ha with ⟨n₀, ha₀, _, _, hcs⟩
    rcases hget b m hb with ⟨m₀, hb₀, _, _, hcs'⟩
    exact hU a n₀ b m₀ ha₀ hb₀ c (hcs hc) (hcs' hc')
  · intro a n ha e he
    rcases hget a n ha with ⟨n₀, ha₀, hs, _, _⟩
    have := hL a n₀ ha₀ e (hs ▸ he)
    rw [getNode_updNode]
    by_cases hei : e = i
    · subst hei
      rw [if_pos rfl]
      rcases Option.isSome_iff_exists.mp this with ⟨w, hw⟩
      simp [hw]
    · rw [if_neg hei]
      exact this
  · intro pe hpe
    rcases hE pe hpe with ⟨e1, e2, e3⟩
    refine ⟨?_, ?_, e3⟩
    · unfold depsOf at e1 ⊢
      rw [getNode_updNode]
      by_cases hj : pe.1 = i
      · rw [if_pos hj]
        cases hgn : getNode st i with
        | none => simp
        | some m =>
          rw [hj, hgn] at e1
          simp only [Option.map_some', Option.getD_some] at e1 ⊢
          rw [hdep m, e1]
      · rw [if_neg hj]
        exact e1
    · unfold childrenOf at e2 ⊢
      rw [getNode_updNode]
      by_cases hj : pe.1 = i
      · rw [if_pos hj]
        cases hgn : getNode st i with
        | none => simp
        | some m =>
          rw [hj, hgn] at e2
          simp only [Option.map_some', Option.getD_some] at e2 ⊢
          exact List.subset_nil.mp (e2 ▸ hch m)
      · rw [if_neg hj]
        exact e2

theorem assocFind_cons {β : Type} (k : Nat) (v : β) (l : List (Nat × β)) (j : Nat) :
    assocFind ((k, v) :: l) j = if k = j then some v else assocFind l j := rfl

theorem assocFind_none_of_ne {β : Type} {l : List (Nat × β)} {x : Nat}
    (hx : ∀ pe ∈ l, pe.1 ≠ x) : assocFind l x = none := by
  apply assocFind_eq_none
  intro hmem
  rcases List.mem_map.mp hmem with ⟨p, hp, he⟩
  exact hx p hp he

@[simp] theorem keysOf_pushLog (e : Ev) (st : St) : keysOf (pushLog e st) = keysOf st := rfl

/-- Taking a node's children/cleanups/dependencies turns the invariant
into one with a fresh exception row `(x, dp)` on top. -/
theorem invl_takeNode {st : St} {exs : List (Nat × List Nat)} {x : Nat}
    {ch cl dp : List Nat} {st1 : St}
    (h : InvL st exs) (hx : ∀ pe ∈ exs, pe.1 ≠ x)
    (ht : takeNode st x = some ((ch, cl, dp), st1)) :
    InvL st1 ((x, dp) :: exs) ∧ (∀ c ∈ ch, x < c) ∧
      ch = childrenOf st x ∧ dp = depsOf st x ∧ cl = cleanupsOf st x := by
  unfold takeNode at ht
  cases hgn : getNode st x with
  | none => rw [hgn] at ht; exact absurd ht (by simp)
  | some n =>
    rw [hgn] at ht
    have hch : ch = n.children := by cases ht; rfl
    have hcl : cl = n.cleanups := by cases ht; rfl
    have hdp : dp = n.dependencies := by cases ht; rfl
    have hst1 : st1 = pushLog (Ev.clean x)
        (updNode st x (fun m => { m with children := [], cleanups := [], dependencies := [] })) := by
      cases ht; rfl
    rw [invl_iff_invG] at h
    obtain ⟨hK, hB, hO, hS, hN, hG, hU, hL, hE⟩ := h
    have hfindx : assocFind exs x = none := assocFind_none_of_ne hx
    have hget1 : ∀ j, getNode st1 j =
        if j = x then some { n with children := [], cleanups := [], dependencies := [] }
        else getNode st j := by
      intro j
      rw [hst1]
      simp only [getNode_pushLog, getNode_updNode, hgn]
      by_cases hj : j = x <;> simp [hj]
    have hnid : st1.nextId = st.nextId := by rw [hst1]; simp
    have hown : st1.currentOwner = st.currentOwner := by rw [hst1]; simp
    refine ⟨?_, ?_, (by unfold childrenOf; rw [hgn]; simpa using hch),
            (by unfold depsOf; rw [hgn]; simpa using hdp),
            (by unfold cleanupsOf; rw [hgn]; simpa using hcl)⟩
    · rw [invl_iff_invG]
      refine ⟨?_, ?_, ?_, ?_, ?_, ?_, ?_, ?_, ?_⟩
      · rw [hst1, keysOf_pushLog, keysOf_updNode]
        exact hK
      · intro j m hm
        rw [hget1 j] at hm
        rw [hnid]
        by_cases hj : j = x
        · rw [if_pos hj] at hm
          cases hm
          rcases hB x n hgn with ⟨b1, b2, _, _⟩
          subst hj
          exact ⟨b1, b2, by simp, by simp⟩
        · rw [if_neg hj] at hm
          exact hB j m hm
      · rw [hown, hnid]
        exact hO
      · intro a na b m ha hb
        rw [hget1 a] at ha
        rw [hget1 b] at hb
        rw [assocFind_cons]
        by_cases hbx : b = x
        · rw [if_pos hbx] at hb
          rw [if_pos hbx.symm]
          simp only [Option.getD_some]
          by_cases hax : a = x
          · rw [if_pos hax] at ha
            have hna : na.subscribers = n.subscribers := by cases ha; rfl
            have := hS x n x n hgn hgn
            rw [hfindx] at this
            simp only [Option.getD_none] at this
            rw [hna, hbx, hax, hdp]
            exact this
          · rw [if_neg hax] at ha
            have := hS a na x n ha hgn
            rw [hfindx] at this
            simp only [Option.getD_none] at this
            rw [hbx, hdp]
            exact this
        · rw [if_neg hbx] at hb
          rw [if_neg (fun he => hbx he.symm)]
          by_cases hax : a = x
          · rw [if_pos hax] at ha
            have hna : na.subscribers = n.subscribers := by cases ha; rfl
            have := hS x n b m hgn hb
            rw [hna, hax]
            exact this
          · rw [if_neg hax] at ha
            exact hS a na b m ha hb
      · intro a na ha
        rw [hget1 a] at ha
        by_cases hax : a = x
        · rw [if_pos hax] at ha
          cases ha
          rcases hN x n hgn with ⟨n1, _⟩
          exact ⟨n1, by simp⟩
        · rw [if_neg hax] at ha
          exact hN a na ha
      · intro a na ha c hc
        rw [hget1 a] at ha
        by_cases hax : a = x
        · rw [if_pos hax] at ha
          cases ha
          simp at hc
        · rw [if_neg hax] at ha
          exact hG a na ha c hc
      · intro a na b m ha hb c hc hc'
        rw [hget1 a] at ha
        rw [hget1 b] at hb
        by_cases hax : a = x
        · rw [if_pos hax] at ha
          cases ha
          simp at hc
        · rw [if_neg hax] at ha
          by_cases hbx : b = x
          · rw [if_pos hbx] at hb
            cases hb
            simp at hc'
          · rw [if_neg hbx] at hb
            exact hU a na b m ha hb c hc hc'
      · intro a na ha e he
        rw [hget1 e]
        by_cases hex : e = x
        · simp [hex]
        · rw [if_neg hex]
          by_cases hax : a = x
          · rw [hget1 a, if_pos hax] at ha
            have hna : na.subscribers = n.subscribers := by cases ha; rfl
            rw [hna] at he
            exact hL x n hgn e he
          · rw [hget1 a, if_neg hax] at ha
            exact hL a na ha e he
      · intro pe hpe
        rcases List.mem_cons.mp hpe with hpe | hpe
        · subst hpe
          refine ⟨?_, ?_, (by rw [hdp]; exact (hN x n hgn).2)⟩
          · unfold depsOf
            rw [hget1 x, if_pos rfl]
            rfl
          · unfold childrenOf
            rw [hget1 x, if_pos rfl]
            rfl
        · rcases hE pe hpe with ⟨e1, e2, e3⟩
          have hne : pe.1 ≠ x := hx pe hpe
          refine ⟨?_, ?_, e3⟩
          · unfold depsOf at e1 ⊢
            rw [hget1 pe.1, if_neg hne]
            exact e1
          · unfold childrenOf at e2 ⊢
            rw [hget1 pe.1, if_neg hne]
            exact e2
    · intro c hc
      exact hG x n hgn c (hch ▸ hc)

/-- One step of `run_cleanups`'s unsubscription loop: removing `x` from
the subscriber list of the next taken dependency `d`. -/
theorem invl_unsub_step {st : St} {exs : List (Nat × List Nat)} {x d : Nat} {rest : List Nat}
    (h : InvL st ((x, d :: rest) :: exs)) (hd : d ∉ rest) :
    InvL (updNode st d (fun n => { n with subscribers := removeFirst x n.subscribers }))
      ((x, rest) :: exs) := by
  rw [invl_iff_invG] at h ⊢
  obtain ⟨hK, hB, hO, hS, hN, hG, hU, hL, hE⟩ := h
  have hget1 : ∀ j, getNode (updNode st d
      (fun n => { n with subscribers := removeFirst x n.subscribers })) j =
      if j = d then (getNode st d).map
        (fun n => { n with subscribers := removeFirst x n.subscribers })
      else getNode st j := fun j => getNode_updNode st d _ j
  have hafact : ∀ {a : Nat} {na : Node}, (if a = d then (getNode st d).map
      (fun n => { n with subscribers := removeFirst x n.subscribers })
      else getNode st a) = some na →
      ∃ na₀, getNode st a = some na₀ ∧ na.dependencies = na₀.dependencies ∧
        na.children = na₀.children ∧
        ((¬ a = d ∧ na.subscribers = na₀.subscribers) ∨
          (a = d ∧ na.subscribers = removeFirst x na₀.subscribers)) := by
    intro a na ha
    by_cases had : a = d
    · rw [if_pos had] at ha
      rcases Option.map_eq_some'.mp ha with ⟨na₀, h₀, rfl⟩
      exact ⟨na₀, had ▸ h₀, rfl, rfl, Or.inr ⟨had, rfl⟩⟩
    · rw [if_neg had] at ha
      exact ⟨na, ha, rfl, rfl, Or.inl ⟨had, rfl⟩⟩
  refine ⟨?_, ?_, ?_, ?_, ?_, ?_, ?_, ?_, ?_⟩
  · rw [keysOf_updNode]
    exact hK
  · intro j m hm
    rw [hget1 j] at hm
    rcases hafact hm with ⟨m₀, h₀, hdep, hch, hcase⟩
    rcases hB j m₀ h₀ with ⟨b1, b2, b3, b4⟩
    simp only [updNode_nextId]
    refine ⟨b1, ?_, hdep ▸ b3, hch ▸ b4⟩
    rcases hcase with ⟨_, hs⟩ | ⟨_, hs⟩
    · exact hs ▸ b2
    · rw [hs]
      exact fun y hy => b2 y (removeFirst_subset hy)
  · simpa using hO
  · intro a na b m ha hb
    rw [hget1 a] at ha
    rw [hget1 b] at hb
    rcases hafact ha with ⟨na₀, ha₀, _, _, hcase⟩
    rcases hafact hb with ⟨m₀, hb₀, hdep, _, _⟩
    have hold := hS a na₀ b m₀ ha₀ hb₀
    rw [assocFind_cons] at hold
    rw [assocFind_cons, hdep]
    have hnd : na₀.subscribers.Nodup := (hN a na₀ ha₀).1
    by_cases hxb : x = b
    · rw [if_pos hxb] at hold ⊢
      simp only [Option.getD_some] at hold ⊢
      rcases hcase with ⟨hne, hs⟩ | ⟨had, hs⟩
      · rw [hs, hold]
        simp only [List.mem_cons]
        constructor
        · rintro (h1 | h1)
          · exact absurd h1 hne
          · exact h1
        · exact fun h1 => Or.inr h1
      · rw [hs, removeFirst_mem_iff hnd, hold]
        subst had
        constructor
        · rintro ⟨_, h2⟩
          exact absurd hxb.symm h2
        · intro h1
          exact absurd h1 hd
    · rw [if_neg hxb] at hold ⊢
      rcases hcase with ⟨_, hs⟩ | ⟨_, hs⟩
      · rw [hs]
        exact hold
      · rw [hs, removeFirst_mem_iff hnd]
        constructor
        · rintro ⟨h1, _⟩
          exact hold.mp h1
        · intro h1
          exact ⟨hold.mpr h1, fun he => hxb he.symm⟩
  · intro a na ha
    rw [hget1 a] at ha
    rcases hafact ha with ⟨na₀, ha₀, hdep, _, hcase⟩
    rcases hN a na₀ ha₀ with ⟨n1, n2⟩
    refine ⟨?_, hdep ▸ n2⟩
    rcases hcase with ⟨_, hs⟩ | ⟨_, hs⟩
    · exact hs ▸ n1
    · rw [hs]
      exact removeFirst_nodup n1
  · intro a na ha c hc
    rw [hget1 a] at ha
    rcases hafact ha with ⟨na₀, ha₀, _, hch, _⟩
    exact hG a na₀ ha₀ c (hch ▸ hc)
  · intro a na b m ha hb c hc hc'
    rw [hget1 a] at ha
    rw [hget1 b] at hb
    rcases hafact ha with ⟨na₀, ha₀, _, hch, _⟩
    rcases hafact hb with ⟨m₀, hb₀, _, hch', _⟩
    exact hU a na₀ b m₀ ha₀ hb₀ c (hch ▸ hc) (hch' ▸ hc')
  · intro a na ha e he
    rw [hget1 a] at ha
    rcases hafact ha with ⟨na₀, ha₀, _, _, hcase⟩
    have hemem : e ∈ na₀.subscribers := by
      rcases hcase with ⟨_, hs⟩ | ⟨_, hs⟩
      · exact hs ▸ he
      · exact removeFirst_subset (hs ▸ he)
    have := hL a na₀ ha₀ e hemem
    rw [hget1 e]
    by_cases hed : e = d
    · rw [if_pos hed]
      rw [hed] at this
      rcases Option.isSome_iff_exists.mp this with ⟨w, hw⟩
      simp [hw]
    · rw [if_neg hed]
      exact this
  · intro pe hpe
    rcases List.mem_cons.mp hpe with hpe | hpe
    · subst hpe
      rcases hE (x, d :: rest) (List.mem_cons_self _ _) with ⟨e1, e2, e3⟩
      refine ⟨?_, ?_, (List.nodup_cons.mp e3).2⟩
      · unfold depsOf at e1 ⊢
        rw [hget1 x]
        by_cases hxd : x = d
        · rw [if_pos hxd]
          simp only at e1 ⊢
          rw [hxd] at e1
          cases hgd : getNode st d with
          | none => simp
          | some w =>
            rw [hgd] at e1
            simpa using e1
        · rw [if_neg hxd]
          exact e1
      · unfold childrenOf at e2 ⊢
        rw [hget1 x]
        by_cases hxd : x = d
        · rw [if_pos hxd]
          simp only at e2 ⊢
          rw [hxd] at e2
          cases hgd : getNode st d with
          | none => simp
          | some w =>
            rw [hgd] at e2
            simpa using e2
        · rw [if_neg hxd]
          exact e2
    · rcases hE pe (List.mem_cons_of_mem _ hpe) with ⟨e1, e2, e3⟩
      refine ⟨?_, ?_, e3⟩
      · unfold depsOf at e1 ⊢
        rw [hget1 pe.1]
        by_cases hpd : pe.1 = d
        · rw [if_pos hpd]
          rw [hpd] at e1
          cases hgd : getNode st d with
          | none => simp
          | some w =>
            rw [hgd] at e1
            simpa using e1
        · rw [if_neg hpd]
          exact e1
      · unfold childrenOf at e2 ⊢
        rw [hget1 pe.1]
        by_cases hpd : pe.1 = d
        · rw [if_pos hpd]
          rw [hpd] at e2
          cases hgd : getNode st d with
          | none => simp
          | some w =>
            rw [hgd] at e2
            simpa using e2
        · rw [if_neg hpd]
          exact e2

/-- Step 3 of `run_cleanups` in full: after the loop, the disposed /
re-run node `x` is in no subscriber list at all. -/
theorem invl_unsub {x : Nat} {dp : List Nat} {st : St} {exs : List (Nat × List Nat)}
    (h : InvL st ((x, dp) :: exs)) :
    InvL (unsubscribeSelf x dp st) ((x, []) :: exs) := by
  induction dp generalizing st with
  | nil => exact h
  | cons d rest ih =>
    have hnd : (d :: rest).Nodup :=
      (h.2.2.2.2.2.2.2.2 (x, d :: rest) (List.mem_cons_self _ _)).2.2
    have hd : d ∉ rest := (List.nodup_cons.mp hnd).1
    exact ih (invl_unsub_step h hd)

/-- An exception row `(x, [])` for a node whose dependency list is empty
is no exception at all. -/
theorem invl_resolve {st : St} {exs : List (Nat × List Nat)} {x : Nat}
    (h : InvL st ((x, []) :: exs)) (hx : ∀ pe ∈ exs, pe.1 ≠ x) : InvL st exs := by
  have hdeps : depsOf st x = [] := (h.2.2.2.2.2.2.2.2 (x, []) (List.mem_cons_self _ _)).1
  rw [invl_iff_invG] at h ⊢
  obtain ⟨hK, hB, hO, hS, hN, hG, hU, hL, hE⟩ := h
  refine ⟨hK, hB, hO, ?_, hN, hG, hU, hL, ?_⟩
  · intro a na b m ha hb
    have hold := hS a na b m ha hb
    rw [assocFind_cons] at hold
    by_cases hxb : x = b
    · rw [if_pos hxb] at hold
      simp only [Option.getD_some] at hold
      rw [assocFind_none_of_ne (fun pe hpe => hxb ▸ hx pe hpe)]
      simp only [Option.getD_none]
      have hm : m.dependencies = [] := by
        unfold depsOf at hdeps
        rw [← hxb] at hb
        rw [hb] at hdeps
        simpa using hdeps
      rw [hm]
      exact hold
    · rw [if_neg hxb] at hold
      exact hold
  · intro pe hpe
    exact hE pe (List.mem_cons_of_mem _ hpe)

/-- Removing a node that is in no subscriber list, has no dependencies
and no children (the state at the end of `dispose_node`). -/
theorem invl_removeNode {st : St} {exs : List (Nat × List Nat)} {x : Nat}
    (h : InvL st ((x, []) :: exs)) (hx : ∀ pe ∈ exs, pe.1 ≠ x) :
    InvL (removeNode st x) exs := by
  rw [invl_iff_invG] at h
  obtain ⟨hK, hB, hO, hS, hN, hG, hU, hL, hE⟩ := h
  rw [invl_iff_invG]
  have hget1 : ∀ j, getNode (removeNode st x) j = if j = x then none else getNode st j :=
    fun j => getNode_removeNode st x j
  have hgetne : ∀ {j : Nat} {m : Node}, getNode (removeNode st x) j = some m →
      (¬ j = x) ∧ getNode st j = some m := by
    intro j m hj
    rw [hget1 j] at hj
    by_cases hjx : j = x
    · rw [if_pos hjx] at hj
      exact absurd hj (by simp)
    · rw [if_neg hjx] at hj
      exact ⟨hjx, hj⟩
  refine ⟨?_, ?_, ?_, ?_, ?_, ?_, ?_, ?_, ?_⟩
  · exact hK.sublist (keysOf_removeNode_sublist st x)
  · intro j m hm
    rcases hgetne hm with ⟨_, hj⟩
    simpa using hB j m hj
  · simpa using hO
  · intro a na b m ha hb
    rcases hgetne ha with ⟨_, ha₀⟩
    rcases hgetne hb with ⟨hbx, hb₀⟩
    have hold := hS a na b m ha₀ hb₀
    rw [assocFind_cons, if_neg (fun he => hbx he.symm)] at hold
    exact hold
  · intro a na ha
    exact hN a na (hgetne ha).2
  · intro a na ha
    exact hG a na (hgetne ha).2
  · intro a na b m ha hb
    exact hU a na b m (hgetne ha).2 (hgetne hb).2
  · intro a na ha e he
    rcases hgetne ha with ⟨_, ha₀⟩
    have hin := hL a na ha₀ e he
    have hex : ¬ e = x := by
      intro hex
      subst hex
      rcases Option.isSome_iff_exists.mp hin with ⟨m, hm⟩
      have := hS a na e m ha₀ hm
      rw [assocFind_cons, if_pos rfl] at this
      simp only [Option.getD_some] at this
      exact (List.not_mem_nil a) (this.mp he)
    rw [hget1 e, if_neg hex]
    exact hin
  · intro pe hpe
    rcases hE pe (List.mem_cons_of_mem _ hpe) with ⟨e1, e2, e3⟩
    have hne : pe.1 ≠ x := hx pe hpe
    refine ⟨?_, ?_, e3⟩
    · unfold depsOf at e1 ⊢
      rw [hget1 pe.1, if_neg hne]
      exact e1
    · unfold childrenOf at e2 ⊢
      rw [hget1 pe.1, if_neg hne]
      exact e2

/-- `removeNode` is the identity on an absent key. -/
theorem removeNode_absent {st : St} {x : Nat} (h : getNode st x = none) :
    removeNode st x = st := by
  unfold removeNode
  have : st.nodes.filter (fun p => p.1 ≠ x) = st.nodes := by
    rw [List.filter_eq_self]
    intro p hp
    simp only [ne_eq, decide_eq_true_eq]
    intro hpx
    have := assocFind_isSome_of_mem (hpx ▸ hp : (x, p.2) ∈ st.nodes)
    rw [show assocFind st.nodes x = getNode st x from rfl, h] at this
    simp at this
  rw [this]

/-- `dispose_node` preserves the graph invariant (with any exception
stack whose nodes all lie strictly below the disposed node, which holds
for the ancestors being disposed / re-run around it). -/
theorem invl_disposeNode : ∀ (fuel x : Nat) (b : Bool) (st : St) (exs : List (Nat × List Nat)),
    InvL st exs → (∀ pe ∈ exs, pe.1 < x) → InvL (disposeNode fuel x b st) exs := by
  intro fuel
  induction fuel with
  | zero =>
    intro x b st exs h _
    exact h
  | succ fuel ih =>
    intro x b st exs h hlt
    have hfold : ∀ (l : List Nat) (s : St) (exs' : List (Nat × List Nat)),
        InvL s exs' → (∀ c ∈ l, ∀ pe ∈ exs', pe.1 < c) →
        InvL (l.foldl (fun s c => disposeNode fuel c false s) s) exs' := by
      intro l
      induction l with
      | nil =>
        intro s exs' hs _
        exact hs
      | cons c cs ihl =>
        intro s exs' hs hc
        exact ihl _ _ (ih c false s exs' hs (hc c (List.mem_cons_self _ _)))
          (fun c' hc' pe hpe => hc c' (List.mem_cons_of_mem _ hc') pe hpe)
    have hx : ∀ pe ∈ exs, pe.1 ≠ x := fun pe hpe => Nat.ne_of_lt (hlt pe hpe)
    show InvL (disposeNode (fuel + 1) x b st) exs
    rw [disposeNode]
    cases ht : takeNode st x with
    | none =>
      have hg : getNode st x = none := by
        unfold takeNode at ht
        cases hgn : getNode st x with
        | none => rfl
        | some n =>
          rw [hgn] at ht
          exact absurd ht (by simp)
      simp only [removeNode_absent hg]
      exact h
    | some res =>
      obtain ⟨⟨ch, cl, dp⟩, st1⟩ := res
      rcases invl_takeNode h hx ht with ⟨h1, hgt, _, _, _⟩
      have hcond : ∀ c ∈ ch, ∀ pe ∈ (x, dp) :: exs, pe.1 < c := by
        intro c hc pe hpe
        rcases List.mem_cons.mp hpe with hpe | hpe
        · rw [hpe]
          exact hgt c hc
        · exact Nat.lt_trans (hlt pe hpe) (hgt c hc)
      have h2 := hfold ch st1 _ h1 hcond
      have h3 := invl_runCleanupTokens cl h2
      have h4 := invl_unsub h3
      simp only
      cases b with
      | false =>
        exact invl_removeNode h4 hx
      | true =>
        simp only [if_true]
        cases hp : (getNode (unsubscribeSelf x dp
            (runCleanupTokens cl (ch.foldl (fun s c => disposeNode fuel c false s) st1))) x).bind
            Node.parent with
        | none =>
          simp only [hp]
          exact invl_removeNode h4 hx
        | some p =>
          simp only [hp]
          refine invl_removeNode (invl_updNode_mono ?_ ?_ ?_ h4) hx
          · intro n
            rfl
          · intro n
            rfl
          · intro n
            exact removeFirst_subset

/-- `dispose` preserves the quiescent invariant. -/
theorem inv_disposeNode (fuel x : Nat) (b : Bool) (st : St) (h : Inv st) :
    Inv (disposeNode fuel x b st) :=
  invl_disposeNode fuel x b st [] h (by simp)

/-- Under the invariant the next identifier is fresh. -/
theorem inv_fresh {st : St} {exs : List (Nat × List Nat)} (h : InvL st exs) :
    getNode st st.nextId = none := by
  cases hg : getNode st st.nextId with
  | none => rfl
  | some n =>
    have := h.2.1 (st.nextId, n) (mem_of_getNode hg)
    exact absurd this.1 (lt_irrefl _)

theorem nextId_runCleanupTokens (cl : List Nat) (st : St) :
    (runCleanupTokens cl st).nextId = st.nextId := by
  induction cl generalizing st with
  | nil => rfl
  | cons t ts ih => exact ih _

theorem owner_runCleanupTokens (cl : List Nat) (st : St) :
    (runCleanupTokens cl st).currentOwner = st.currentOwner := by
  induction cl generalizing st with
  | nil => rfl
  | cons t ts ih => exact ih _

theorem nextId_unsubscribeSelf (x : Nat) (dp : List Nat) (st : St) :
    (unsubscribeSelf x dp st).nextId = st.nextId := by
  induction dp generalizing st with
  | nil => rfl
  | cons d rest ih => exact ih _

theorem owner_unsubscribeSelf (x : Nat) (dp : List Nat) (st : St) :
    (unsubscribeSelf x dp st).currentOwner = st.currentOwner := by
  induction dp generalizing st with
  | nil => rfl
  | cons d rest ih => exact ih _

theorem nextId_disposeNode : ∀ (fuel x : Nat) (b : Bool) (st : St),
    (disposeNode fuel x b st).nextId = st.nextId := by
  intro fuel
  induction fuel with
  | zero => intro x b st; rfl
  | succ fuel ih =>
    intro x b st
    have hfold : ∀ (l : List Nat) (s : St),
        (l.foldl (fun s c => disposeNode fuel c false s) s).nextId = s.nextId := by
      intro l
      induction l with
      | nil => intro s; rfl
      | cons c cs ihl =>
        intro s
        rw [List.foldl_cons, ihl, ih]
    rw [disposeNode]
    cases ht : takeNode st x with
    | none => simp
    | some res =>
      obtain ⟨⟨ch, cl, dp⟩, st1⟩ := res
      have h1 : st1.nextId = st.nextId := by
        unfold takeNode at ht
        cases hgn : getNode st x with
        | none => rw [hgn] at ht; exact absurd ht (by simp)
        | some n =>
          rw [hgn] at ht
          cases ht
          simp
      simp only
      cases b with
      | false =>
        rw [if_neg Bool.false_ne_true]
        simp only [removeNode_nextId, nextId_unsubscribeSelf, nextId_runCleanupTokens, hfold, h1]
      | true =>
        simp only [if_true]
        cases (getNode (unsubscribeSelf x dp
            (runCleanupTokens cl (ch.foldl (fun s c => disposeNode fuel c false s) st1))) x).bind
            Node.parent with
        | none =>
          simp only [removeNode_nextId, nextId_unsubscribeSelf, nextId_runCleanupTokens, hfold, h1]
        | some p =>
          simp only [removeNode_nextId, updNode_nextId, nextId_unsubscribeSelf,
            nextId_runCleanupTokens, hfold, h1]

theorem owner_disposeNode : ∀ (fuel x : Nat) (b : Bool) (st : St),
    (disposeNode fuel x b st).currentOwner = st.currentOwner := by
  intro fuel
  induction fuel with
  | zero => intro x b st; rfl
  | succ fuel ih =>
    intro x b st
    have hfold : ∀ (l : List Nat) (s : St),
        (l.foldl (fun s c => disposeNode fuel c false s) s).currentOwner = s.currentOwner := by
      intro l
      induction l with
      | nil => intro s; rfl
      | cons c cs ihl =>
        intro s
        rw [List.foldl_cons, ihl, ih]
    rw [disposeNode]
    cases ht : takeNode st x with
    | none => simp
    | some res =>
      obtain ⟨⟨ch, cl, dp⟩, st1⟩ := res
      have h1 : st1.currentOwner = st.currentOwner := by
        unfold takeNode at ht
        cases hgn : getNode st x with
        | none => rw [hgn] at ht; exact absurd ht (by simp)
        | some n =>
          rw [hgn] at ht
          cases ht
          simp
      simp only
      cases b with
      | false =>
        rw [if_neg Bool.false_ne_true]
        simp only [removeNode_owner, owner_unsubscribeSelf, owner_runCleanupTokens, hfold, h1]
      | true =>
        simp only [if_true]
        cases (getNode (unsubscribeSelf x dp
            (runCleanupTokens cl (ch.foldl (fun s c => disposeNode fuel c false s) st1))) x).bind
            Node.parent with
        | none =>
          simp only [removeNode_owner, owner_unsubscribeSelf, owner_runCleanupTokens, hfold, h1]
        | some p =>
          simp only [removeNode_owner, updNode_owner, owner_unsubscribeSelf,
            owner_runCleanupTokens, hfold, h1]

/-- Changing the current owner to a bounded (or absent) one preserves
the invariant. -/
theorem invl_setOwner {st : St} {exs : List (Nat × List Nat)} {ow : Option Nat}
    (h : InvL st exs) (ho : ∀ o, ow = some o → o < st.nextId) :
    InvL { st with currentOwner := ow } exs := by
  obtain ⟨hK, hB, hO, hrest⟩ := h
  refine ⟨hK, hB, ?_, hrest⟩
  cases ow with
  | none => trivial
  | some o => exact ho o rfl

set_option maxHeartbeats 1000000 in
/-- `track_dependency` preserves the quiescent invariant: the dependency
edge and the subscriber edge are added together (or both already
present). -/
theorem inv_trackDependency (sig : Nat) {st : St} (h : Inv st) :
    Inv (trackDependency sig st) := by
  cases how : st.currentOwner with
  | none =>
    simp only [trackDependency, how]
    exact h
  | some o =>
    by_cases hos : o = sig
    · simp only [trackDependency, how, if_pos hos]
      exact h
    · cases hgo : getNode st o with
      | none =>
        simp only [trackDependency, how, if_neg hos, hgo]
        exact h
      | some ow =>
        cases hgs : getNode st sig with
        | none =>
          simp only [trackDependency, how, if_neg hos, hgo, hgs]
          exact h
        | some sn =>
          by_cases hk : ow.kind = NodeType.effect
          · simp only [trackDependency, how, if_neg hos, hgo, hgs, if_pos hk]
            unfold Inv at h ⊢
            rw [invl_iff_invG] at h
            obtain ⟨hK, hB, hO, hS, hN, hG, hU, hL, hE⟩ := h
            refine invl_pushLog _ ?_
            rw [invl_iff_invG]
            set g1 : Node → Node := fun n =>
              if sig ∈ n.dependencies then n
              else { n with dependencies := n.dependencies ++ [sig] } with hg1
            set g2 : Node → Node := fun n =>
              if o ∈ n.subscribers then n
              else { n with subscribers := n.subscribers ++ [o] } with hg2
            have hget2 : ∀ j, getNode (updNode (updNode st o g1) sig g2) j =
                if j = sig then some (g2 sn)
                else if j = o then some (g1 ow)
                else getNode st j := by
              intro j
              simp only [getNode_updNode]
              by_cases hjs : j = sig
              · rw [if_pos hjs, if_pos hjs]
                rw [if_neg (fun he => hos he.symm), hgs]
                rfl
              · rw [if_neg hjs, if_neg hjs]
                by_cases hjo : j = o
                · rw [if_pos hjo, if_pos hjo, hgo]
                  rfl
                · rw [if_neg hjo, if_neg hjo]
            have hg1deps : ∀ a', a' ∈ (g1 ow).dependencies ↔
                (a' ∈ ow.dependencies ∨ a' = sig) := by
              intro a'
              simp only [hg1]
              by_cases hmem : sig ∈ ow.dependencies
              · rw [if_pos hmem]
                constructor
                · exact fun hx => Or.inl hx
                · rintro (hx | rfl)
                  · exact hx
                  · exact hmem
              · rw [if_neg hmem]
                simp [List.mem_append]
            have hg1subs : (g1 ow).subscribers = ow.subscribers := by
              simp only [hg1]
              by_cases hmem : sig ∈ ow.dependencies
              · rw [if_pos hmem]
              · rw [if_neg hmem]
            have hg1ch : (g1 ow).children = ow.children := by
              simp only [hg1]
              by_cases hmem : sig ∈ ow.dependencies
              · rw [if_pos hmem]
              · rw [if_neg hmem]
            have hg2subs : ∀ b', b' ∈ (g2 sn).subscribers ↔
                (b' ∈ sn.subscribers ∨ b' = o) := by
              intro b'
              simp only [hg2]
              by_cases hmem : o ∈ sn.subscribers
              · rw [if_pos hmem]
                constructor
                · exact fun hx => Or.inl hx
                · rintro (hx | rfl)
                  · exact hx
                  · exact hmem
              · rw [if_neg hmem]
                simp [List.mem_append]
            have hg2deps : (g2 sn).dependencies = sn.dependencies := by
              simp only [hg2]
              by_cases hmem : o ∈ sn.subscribers
              · rw [if_pos hmem]
              · rw [if_neg hmem]
            have hg2ch : (g2 sn).children = sn.children := by
              simp only [hg2]
              by_cases hmem : o ∈ sn.subscribers
              · rw [if_pos hmem]
              · rw [if_neg hmem]
            have hg2nodup : sn.subscribers.Nodup → (g2 sn).subscribers.Nodup := by
              intro hnd
              simp only [hg2]
              by_cases hmem : o ∈ sn.subscribers
              · rw [if_pos hmem]
                exact hnd
              · rw [if_neg hmem]
                exact (List.perm_append_singleton o sn.subscribers).nodup_iff.mpr
                  (List.nodup_cons.mpr ⟨hmem, hnd⟩)
            have hg1nodup : ow.dependencies.Nodup → (g1 ow).dependencies.Nodup := by
              intro hnd
              simp only [hg1]
              by_cases hmem : sig ∈ ow.dependencies
              · rw [if_pos hmem]
                exact hnd
              · rw [if_neg hmem]
                exact (List.perm_append_singleton sig ow.dependencies).nodup_iff.mpr
                  (List.nodup_cons.mpr ⟨hmem, hnd⟩)
            have hg1subsnd : ow.subscribers.Nodup → (g1 ow).subscribers.Nodup := by
              intro hnd
              rw [hg1subs]
              exact hnd
            have hg2depsnd : sn.dependencies.Nodup → (g2 sn).dependencies.Nodup := by
              intro hnd
              rw [hg2deps]
              exact hnd
            have hafact : ∀ {a : Nat} {na : Node},
                (if a = sig then some (g2 sn) else if a = o then some (g1 ow)
                  else getNode st a) = some na →
                ∃ na₀, getNode st a = some na₀ ∧ na.children = na₀.children ∧
                  (∀ b', b' ∈ na.subscribers ↔
                    (b' ∈ na₀.subscribers ∨ (a = sig ∧ b' = o))) ∧
                  (∀ b', b' ∈ na.dependencies ↔
                    (b' ∈ na₀.dependencies ∨ (a = o ∧ b' = sig))) ∧
                  (na₀.subscribers.Nodup → na.subscribers.Nodup) ∧
                  (na₀.dependencies.Nodup → na.dependencies.Nodup) := by
              intro a na ha
              by_cases has : a = sig
              · rw [if_pos has] at ha
                cases ha
                refine ⟨sn, has ▸ hgs, hg2ch, ?_, ?_, hg2nodup, hg2depsnd⟩
                · intro b'
                  rw [hg2subs b']
                  simp [has]
                · intro b'
                  rw [hg2deps]
                  have hne : ¬ a = o := fun he => hos (he ▸ has.symm ▸ rfl : o = sig)
                  simp [hne]
              · rw [if_neg has] at ha
                by_cases hao : a = o
                · rw [if_pos hao] at ha
                  cases ha
                  refine ⟨ow, hao ▸ hgo, hg1ch, ?_, ?_, hg1subsnd, hg1nodup⟩
                  · intro b'
                    rw [hg1subs]
                    simp [has]
                  · intro b'
                    rw [hg1deps b']
                    simp [hao]
                · rw [if_neg hao] at ha
                  refine ⟨na, ha, rfl, ?_, ?_, id, id⟩
                  · intro b'
                    simp [has]
                  · intro b'
                    simp [hao]
            have hbound_o : o < st.nextId := (hB o ow hgo).1
            have hbound_s : sig < st.nextId := (hB sig sn hgs).1
            refine ⟨?_, ?_, ?_, ?_, ?_, ?_, ?_, ?_, ?_⟩
            · rw [keysOf_updNode, keysOf_updNode]
              exact hK
            · intro j m hm
              rw [hget2 j] at hm
              rcases hafact hm with ⟨m₀, h₀, hch, hsu, hde, _, _⟩
              rcases hB j m₀ h₀ with ⟨b1, b2, b3, b4⟩
              simp only [updNode_nextId]
              refine ⟨b1, ?_, ?_, hch ▸ b4⟩
              · intro y hy
                rcases (hsu y).mp hy with hy | ⟨_, rfl⟩
                · exact b2 y hy
                · exact hbound_o
              · intro y hy
                rcases (hde y).mp hy with hy | ⟨_, rfl⟩
                · exact b3 y hy
                · exact hbound_s
            · simpa using hO
            · intro a na b m ha hb
              rw [hget2 a] at ha
              rw [hget2 b] at hb
              rcases hafact ha with ⟨na₀, ha₀, _, hsu, _, _, _⟩
              rcases hafact hb with ⟨m₀, hb₀, _, _, hde, _, _⟩
              have hold := hS a na₀ b m₀ ha₀ hb₀
              simp only [assocFind, Option.getD_none] at hold ⊢
              rw [hsu b, hde a, hold]
              constructor
              · rintro (hx | ⟨h1, h2⟩)
                · exact Or.inl hx
                · exact Or.inr ⟨h2, h1⟩
              · rintro (hx | ⟨h1, h2⟩)
                · exact Or.inl hx
                · exact Or.inr ⟨h2, h1⟩
            · intro a na ha
              rw [hget2 a] at ha
              rcases hafact ha with ⟨na₀, ha₀, _, _, _, hnd1, hnd2⟩
              rcases hN a na₀ ha₀ with ⟨n1, n2⟩
              exact ⟨hnd1 n1, hnd2 n2⟩
            · intro a na ha c hc
              rw [hget2 a] at ha
              rcases hafact ha with ⟨na₀, ha₀, hch, _, _, _, _⟩
              exact hG a na₀ ha₀ c (hch ▸ hc)
            · intro a na b m ha hb c hc hc'
              rw [hget2 a] at ha
              rw [hget2 b] at hb
              rcases hafact ha with ⟨na₀, ha₀, hch, _, _, _, _⟩
              rcases hafact hb with ⟨m₀, hb₀, hch', _, _, _, _⟩
              exact hU a na₀ b m₀ ha₀ hb₀ c (hch ▸ hc) (hch' ▸ hc')
            · intro a na ha e he
              rw [hget2 a] at ha
              rcases hafact ha with ⟨na₀, ha₀, _, hsu, _, _, _⟩
              have hpres : (getNode st e).isSome := by
                rcases (hsu e).mp he with hy | ⟨_, rfl⟩
                · exact hL a na₀ ha₀ e hy
                · rw [hgo]
                  rfl
              rw [hget2 e]
              by_cases hes : e = sig
              · rw [if_pos hes]
                rfl
              · rw [if_neg hes]
                by_cases heo : e = o
                · rw [if_pos heo]
                  rfl
                · rw [if_neg heo]
                  exact hpres
            · intro pe hpe
              simp at hpe
          · simp only [trackDependency, how, if_neg hos, hgo, hgs, if_neg hk]
            exact h

theorem registerNode_fst (st : St) (k : NodeType) : (registerNode st k).1 = st.nextId := by
  unfold registerNode
  cases st.currentOwner <;> rfl

theorem nextId_registerNode (st : St) (k : NodeType) :
    (registerNode st k).2.nextId = st.nextId + 1 := by
  unfold registerNode
  cases st.currentOwner <;> rfl

theorem owner_registerNode (st : St) (k : NodeType) :
    (registerNode st k).2.currentOwner = st.currentOwner := by
  unfold registerNode
  cases st.currentOwner <;> rfl

theorem log_registerNode (st : St) (k : NodeType) :
    (registerNode st k).2.log = st.log := by
  unfold registerNode
  cases st.currentOwner <;> rfl

theorem getNode_append_fresh (st : St) (node : Node) (j : Nat)
    (hfresh : getNode st st.nextId = none) :
    assocFind (st.nodes ++ [(st.nextId, node)]) j =
      if j = st.nextId then some node else getNode st j := by
  rw [assocFind_append]
  by_cases hj : j = st.nextId
  · subst hj
    have hnone : assocFind st.nodes st.nextId = none := hfresh
    simp only [hnone]
    simp [assocFind]
  · rw [if_neg hj]
    cases hg : assocFind st.nodes j with
    | none =>
      simp only [hg]
      have hone : assocFind [(st.nextId, node)] j = none := by
        show (if st.nextId = j then some node else assocFind ([] : List (Nat × Node)) j) = none
        rw [if_neg (fun he => hj he.symm)]
        rfl
      rw [hone]
      exact ((show getNode st j = assocFind st.nodes j from rfl).trans hg).symm
    | some v =>
      simp only [hg]
      exact ((show getNode st j = assocFind st.nodes j from rfl).trans hg).symm

/-- `getNode` after `register_node` with no current owner. -/
theorem getNode_registerNode_none {st : St} {k : NodeType} (j : Nat)
    (how : st.currentOwner = none) (hfresh : getNode st st.nextId = none) :
    getNode (registerNode st k).2 j =
      if j = st.nextId then some { kind := k, parent := none }
      else getNode st j := by
  simp only [registerNode, how]
  exact getNode_append_fresh st _ j hfresh

/-- `getNode` after `register_node` with a current owner `p`. -/
theorem getNode_registerNode_some {st : St} {k : NodeType} {p : Nat} (j : Nat)
    (how : st.currentOwner = some p) (hp : ¬ p = st.nextId)
    (hfresh : getNode st st.nextId = none) :
    getNode (registerNode st k).2 j =
      if j = st.nextId then some { kind := k, parent := some p }
      else if j = p then
        (getNode st j).map (fun n => { n with children := n.children ++ [st.nextId] })
      else getNode st j := by
  simp only [registerNode, how]
  rw [getNode_updNode]
  have hbase : ∀ i, getNode (St.mk
      (st.nodes ++ [(st.nextId, ({ kind := k, parent := some p } : Node))])
      (st.nextId + 1) (some p) st.log) i =
      if i = st.nextId then some { kind := k, parent := some p }
      else getNode st i := by
    intro i
    exact getNode_append_fresh st _ i hfresh
  by_cases hj : j = p
  · rw [if_pos hj, if_neg (fun he : j = st.nextId => hp (hj ▸ he))]
    rw [if_pos hj, hbase p, if_neg hp, hj]
  · rw [if_neg hj]
    by_cases hjn : j = st.nextId
    · rw [hbase j, if_pos hjn, if_pos hjn]
    · rw [hbase j, if_neg hjn, if_neg hjn, if_neg hj]

theorem keysOf_registerNode (st : St) (k : NodeType) :
    keysOf (registerNode st k).2 = keysOf st ++ [st.nextId] := by
  unfold registerNode
  cases st.currentOwner with
  | none =>
    simp only [keysOf]
    simp
  | some p =>
    simp only
    rw [show ∀ (s : St) g, keysOf (updNode s p g) = keysOf s from fun s g => keysOf_updNode s p g]
    simp only [keysOf]
    simp

/-- `register_node` preserves the quiescent invariant. -/
theorem inv_registerNode (st : St) (k : NodeType) (h : Inv st) :
    Inv (registerNode st k).2 := by
  have hfresh := inv_fresh h
  unfold Inv at h ⊢
  rw [invl_iff_invG] at h ⊢
  obtain ⟨hK, hB, hO, hS, hN, hG, hU, hL, hE⟩ := h
  have hKnotin : st.nextId ∉ keysOf st := by
    intro hmem
    rcases Option.isSome_iff_exists.mp (mem_keysOf_iff.mp hmem) with ⟨n, hn⟩
    rw [hfresh] at hn
    exact absurd hn (by simp)
  have hkeys : (keysOf (registerNode st k).2).Nodup := by
    rw [keysOf_registerNode]
    exact (List.perm_append_singleton _ _).nodup_iff.mpr (List.nodup_cons.mpr ⟨hKnotin, hK⟩)
  have hnid := nextId_registerNode st k
  have hown := owner_registerNode st k
  cases how : st.currentOwner with
  | none =>
    have hget : ∀ j, getNode (registerNode st k).2 j =
        if j = st.nextId then some { kind := k, parent := none }
        else getNode st j := fun j => getNode_registerNode_none j how hfresh
    have hafact : ∀ {j : Nat} {m : Node}, getNode (registerNode st k).2 j = some m →
        (j = st.nextId ∧ m = { kind := k, parent := none }) ∨
        (¬ j = st.nextId ∧ getNode st j = some m) := by
      intro j m hm
      rw [hget j] at hm
      by_cases hj : j = st.nextId
      · rw [if_pos hj] at hm
        exact Or.inl ⟨hj, (Option.some.inj hm).symm⟩
      · rw [if_neg hj] at hm
        exact Or.inr ⟨hj, hm⟩
    refine ⟨hkeys, ?_, ?_, ?_, ?_, ?_, ?_, ?_, ?_⟩
    · intro j m hm
      rw [hnid]
      rcases hafact hm with ⟨rfl, rfl⟩ | ⟨_, hm₀⟩
      · refine ⟨by omega, ?_, ?_, ?_⟩ <;> intro y hy <;> simp at hy
      · rcases hB j m hm₀ with ⟨b1, b2, b3, b4⟩
        exact ⟨by omega, fun y hy => by have := b2 y hy; omega,
          fun y hy => by have := b3 y hy; omega,
          fun y hy => by have := b4 y hy; omega⟩
    · rw [hown, how]
      trivial
    · intro a na b m ha hb
      simp only [assocFind, Option.getD_none]
      rcases hafact ha with ⟨rfl, rfl⟩ | ⟨hane, ha₀⟩
      · rcases hafact hb with ⟨rfl, rfl⟩ | ⟨hbne, hb₀⟩
        · simp
        · constructor
          · intro hmem
            simp at hmem
          · intro hmem
            have := (hB b m hb₀).2.2.1 _ hmem
            omega
      · rcases hafact hb with ⟨rfl, rfl⟩ | ⟨hbne, hb₀⟩
        · constructor
          · intro hmem
            have := (hB a na ha₀).2.1 _ hmem
            omega
          · intro hmem
            simp at hmem
        · have := hS a na b m ha₀ hb₀
          simp only [assocFind, Option.getD_none] at this
          exact this
    · intro a na ha
      rcases hafact ha with ⟨rfl, rfl⟩ | ⟨_, ha₀⟩
      · constructor <;> simp
      · exact hN a na ha₀
    · intro a na ha c hc
      rcases hafact ha with ⟨rfl, rfl⟩ | ⟨_, ha₀⟩
      · simp at hc
      · exact hG a na ha₀ c hc
    · intro a na b m ha hb c hc hc'
      rcases hafact ha with ⟨rfl, rfl⟩ | ⟨_, ha₀⟩
      · simp at hc
      · rcases hafact hb with ⟨rfl, rfl⟩ | ⟨_, hb₀⟩
        · simp at hc'
        · exact hU a na b m ha₀ hb₀ c hc hc'
    · intro a na ha e he
      rcases hafact ha with ⟨rfl, rfl⟩ | ⟨_, ha₀⟩
      · simp at he
      · have := hL a na ha₀ e he
        rw [hget e]
        by_cases hee : e = st.nextId
        · rw [if_pos hee]
          rfl
        · rw [if_neg hee]
          exact this
    · intro pe hpe
      simp at hpe
  | some p =>
    have hplt : p < st.nextId := by
      have := hO
      rw [how] at this
      exact this
    have hget : ∀ j, getNode (registerNode st k).2 j =
        if j = st.nextId then some { kind := k, parent := some p }
        else if j = p then
          (getNode st j).map (fun n => { n with children := n.children ++ [st.nextId] })
        else getNode st j := fun j => getNode_registerNode_some j how (by omega) hfresh
    have hafact : ∀ {j : Nat} {m : Node}, getNode (registerNode st k).2 j = some m →
        (j = st.nextId ∧ m = { kind := k, parent := some p }) ∨
        (¬ j = st.nextId ∧ ∃ m₀, getNode st j = some m₀ ∧
          m.subscribers = m₀.subscribers ∧ m.dependencies = m₀.dependencies ∧
          (∀ c, c ∈ m.children ↔ (c ∈ m₀.children ∨ (j = p ∧ c = st.nextId)))) := by
      intro j m hm
      rw [hget j] at hm
      by_cases hj : j = st.nextId
      · rw [if_pos hj] at hm
        exact Or.inl ⟨hj, (Option.some.inj hm).symm⟩
      · rw [if_neg hj] at hm
        by_cases hjp : j = p
        · rw [if_pos hjp] at hm
          rcases Option.map_eq_some'.mp hm with ⟨m₀, hm₀, rfl⟩
          refine Or.inr ⟨hj, m₀, hm₀, rfl, rfl, ?_⟩
          intro c
          simp [hjp, List.mem_append]
        · rw [if_neg hjp] at hm
          refine Or.inr ⟨hj, m, hm, rfl, rfl, ?_⟩
          intro c
          simp [hjp]
    refine ⟨hkeys, ?_, ?_, ?_, ?_, ?_, ?_, ?_, ?_⟩
    · intro j m hm
      rw [hnid]
      rcases hafact hm with ⟨rfl, rfl⟩ | ⟨_, m₀, hm₀, hs, hd, hc⟩
      · refine ⟨by omega, ?_, ?_, ?_⟩ <;> intro y hy <;> simp at hy
      · rcases hB j m₀ hm₀ with ⟨b1, b2, b3, b4⟩
        refine ⟨by omega, fun y hy => by rw [hs] at hy; have := b2 y hy; omega,
          fun y hy => by rw [hd] at hy; have := b3 y hy; omega, ?_⟩
        intro y hy
        rcases (hc y).mp hy with hy | ⟨_, rfl⟩
        · have := b4 y hy
          omega
        · omega
    · rw [hown, how, hnid]
      omega
    · intro a na b m ha hb
      simp only [assocFind, Option.getD_none]
      rcases hafact ha with ⟨rfl, rfl⟩ | ⟨hane, na₀, ha₀, hsa, hda, hca⟩
      · rcases hafact hb with ⟨rfl, rfl⟩ | ⟨hbne, m₀, hb₀, hsb, hdb, hcb⟩
        · simp
        · constructor
          · intro hmem
            simp at hmem
          · intro hmem
            rw [hdb] at hmem
            have := (hB b m₀ hb₀).2.2.1 _ hmem
            omega
      · rcases hafact hb with ⟨rfl, rfl⟩ | ⟨hbne, m₀, hb₀, hsb, hdb, hcb⟩
        · constructor
          · intro hmem
            rw [hsa] at hmem
            have := (hB a na₀ ha₀).2.1 _ hmem
            omega
          · intro hmem
            simp at hmem
        · rw [hsa, hdb]
          have := hS a na₀ b m₀ ha₀ hb₀
          simp only [assocFind, Option.getD_none] at this
          exact this
    · intro a na ha
      rcases hafact ha with ⟨rfl, rfl⟩ | ⟨_, na₀, ha₀, hsa, hda, _⟩
      · constructor <;> simp
      · rw [hsa, hda]
        exact hN a na₀ ha₀
    · intro a na ha c hc
      rcases hafact ha with ⟨rfl, rfl⟩ | ⟨_, na₀, ha₀, _, _, hca⟩
      · simp at hc
      · rcases (hca c).mp hc with hc | ⟨rfl, rfl⟩
        · exact hG a na₀ ha₀ c hc
        · exact hplt
    · intro a na b m ha hb c hc hc'
      rcases hafact ha with ⟨rfl, rfl⟩ | ⟨hane, na₀, ha₀, _, _, hca⟩
      · simp at hc
      · rcases hafact hb with ⟨rfl, rfl⟩ | ⟨hbne, m₀, hb₀, _, _, hcb⟩
        · simp at hc'
        · rcases (hca c).mp hc with hc1 | ⟨rfl, rfl⟩
          · rcases (hcb c).mp hc' with hc2 | ⟨rfl, hcn⟩
            · exact hU a na₀ b m₀ ha₀ hb₀ c hc1 hc2
            · exfalso
              have := (hB a na₀ ha₀).2.2.2 _ hc1
              omega
          · rcases (hcb st.nextId).mp hc' with hc2 | ⟨hbp, _⟩
            · exfalso
              have := (hB b m₀ hb₀).2.2.2 _ hc2
              omega
            · rw [hbp]
    · intro a na ha e he
      rcases hafact ha with ⟨rfl, rfl⟩ | ⟨_, na₀, ha₀, hsa, _, _⟩
      · simp at he
      · rw [hsa] at he
        have := hL a na₀ ha₀ e he
        rw [hget e]
        by_cases hee : e = st.nextId
        · rw [if_pos hee]
          rfl
        · rw [if_neg hee]
          by_cases hep : e = p
          · rw [if_pos hep]
            rcases Option.isSome_iff_exists.mp this with ⟨w, hw⟩
            simp [hw]
          · rw [if_neg hep]
            exact this
    · intro pe hpe
      simp at hpe

/-- `register_signal` / the registration part of `create_effect`
preserve the invariant (they only additionally set the value or the
computation, which the invariant does not mention). -/
theorem inv_registerSignal (st : St) (ty v : Nat) (h : Inv st) :
    Inv (registerSignal st ty v).2 := by
  unfold registerSignal
  exact invl_updNode_mono (fun n => rfl) (fun n => rfl) (fun n _ hx => hx)
    (inv_registerNode st NodeType.signal h)

theorem inv_registerEffect (st : St) (body : Cmd) (h : Inv st) :
    Inv (registerEffect st body).2 := by
  unfold registerEffect
  exact invl_updNode_mono (fun n => rfl) (fun n => rfl) (fun n _ hx => hx)
    (inv_registerNode st NodeType.effect h)

/-! ### Unfolding equations for `step` (the `WriteSignal::update` and
`run_effect` entry points). -/

theorem step_write_none {st : St} {sig : Nat} (fuel ty : Nat) (g : Nat → Nat)
    (hgn : getNode st sig = none) :
    step (fuel + 1) (Act.write sig ty g) st = st := by
  simp only [step, hgn]

theorem step_write_noval {st : St} {sig : Nat} {n : Node} (fuel ty : Nat) (g : Nat → Nat)
    (hgn : getNode st sig = some n) (hv : n.value = none) :
    step (fuel + 1) (Act.write sig ty g) st = st := by
  simp only [step, hgn, hv]

theorem step_write_mismatch {st : St} {sig ty ty' v : Nat} {n : Node} (fuel : Nat)
    (g : Nat → Nat) (hgn : getNode st sig = some n) (hv : n.value = some (ty', v))
    (hty : ¬ ty' = ty) :
    step (fuel + 1) (Act.write sig ty g) st = st := by
  simp only [step, hgn, hv, if_neg hty]

theorem step_write_ok {st : St} {sig ty ty' v : Nat} {n : Node} (fuel : Nat)
    (g : Nat → Nat) (hgn : getNode st sig = some n) (hv : n.value = some (ty', v))
    (hty : ty' = ty) :
    step (fuel + 1) (Act.write sig ty g) st =
      (getDependents (updNode st sig (fun m => { m with value := some (ty, g v) })) sig).foldl
        (fun s e => step fuel (Act.runEff e) s)
        (pushLog (Ev.notify sig (getDependents (updNode st sig
          (fun m => { m with value := some (ty, g v) })) sig))
          (updNode st sig (fun m => { m with value := some (ty, g v) }))) := by
  simp only [step, hgn, hv, if_pos hty]

theorem step_runEff_none {st : St} {e : Nat} (fuel : Nat) (ht : takeNode st e = none) :
    step (fuel + 1) (Act.runEff e) st = st := by
  simp only [step, ht]

theorem step_runEff_eq {st st1 : St} {e : Nat} {ch cl dp : List Nat} (fuel : Nat)
    (ht : takeNode st e = some ((ch, cl, dp), st1)) :
    step (fuel + 1) (Act.runEff e) st =
      (match ((getNode st e).map Node.computation).getD none with
       | none => unsubscribeSelf e dp (runCleanupTokens cl
           (ch.foldl (fun s c => disposeNode fuel c false s) st1))
       | some body =>
         { step fuel (Act.cmd body) (pushLog (Ev.runEv e)
             { unsubscribeSelf e dp (runCleanupTokens cl
                 (ch.foldl (fun s c => disposeNode fuel c false s) st1)) with
               currentOwner := some e }) with
           currentOwner := (unsubscribeSelf e dp (runCleanupTokens cl
             (ch.foldl (fun s c => disposeNode fuel c false s) st1))).currentOwner }) := by
  simp only [step, ht]

theorem step_newEffect_eq (fuel : Nat) (body : Cmd) (st : St) :
    step (fuel + 1) (Act.cmd (Cmd.newEffect body)) st =
      step fuel (Act.runEff (registerEffect st body).1) (registerEffect st body).2 := by
  rcases hre : registerEffect st body with ⟨id, st1⟩
  simp only [step, hre]

theorem step_newScope_eq (fuel : Nat) (body : Cmd) (st : St) :
    step (fuel + 1) (Act.cmd (Cmd.newScope body)) st =
      { step fuel (Act.cmd body)
          { (registerNode st NodeType.scope).2 with
            currentOwner := some (registerNode st NodeType.scope).1 } with
        currentOwner := (registerNode st NodeType.scope).2.currentOwner } := by
  rcases hrn : registerNode st NodeType.scope with ⟨id, st1⟩
  simp only [step, hrn]

/-- Case characterization of `track_dependency`: it either leaves the
state unchanged (untracked read) or adds the symmetric edge pair for the
current effect owner and logs the `track` event. -/
theorem trackDependency_cases (sig : Nat) (st : St) :
    trackDependency sig st = st ∨
    ∃ o ow sn, st.currentOwner = some o ∧ ¬ o = sig ∧ getNode st o = some ow ∧
      getNode st sig = some sn ∧ ow.kind = NodeType.effect ∧
      trackDependency sig st = pushLog (Ev.track o sig)
        (updNode (updNode st o (fun n =>
          if sig ∈ n.dependencies then n
          else { n with dependencies := n.dependencies ++ [sig] })) sig (fun n =>
          if o ∈ n.subscribers then n
          else { n with subscribers := n.subscribers ++ [o] })) := by
  cases how : st.currentOwner with
  | none =>
    left
    simp only [trackDependency, how]
  | some o =>
    by_cases hos : o = sig
    · left
      simp only [trackDependency, how, if_pos hos]
    · cases hgo : getNode st o with
      | none =>
        left
        simp only [trackDependency, how, if_neg hos, hgo]
      | some ow =>
        cases hgs : getNode st sig with
        | none =>
          left
          simp only [trackDependency, how, if_neg hos, hgo, hgs]
        | some sn =>
          by_cases hk : ow.kind = NodeType.effect
          · right
            refine ⟨o, ow, sn, rfl, hos, hgo, rfl, hk, ?_⟩
            simp only [trackDependency, how, if_neg hos, hgo, hgs, if_pos hk]
          · left
            simp only [trackDependency, how, if_neg hos, hgo, hgs, if_neg hk]

theorem nextId_trackDependency (sig : Nat) (st : St) :
    (trackDependency sig st).nextId = st.nextId := by
  rcases trackDependency_cases sig st with h | ⟨o, ow, sn, _, _, _, _, _, h⟩
  · rw [h]
  · rw [h]
    rfl

theorem owner_trackDependency (sig : Nat) (st : St) :
    (trackDependency sig st).currentOwner = st.currentOwner := by
  rcases trackDependency_cases sig st with h | ⟨o, ow, sn, _, _, _, _, _, h⟩
  · rw [h]
  · rw [h]
    rfl

theorem inv_trackFold (l : List (Nat × Nat)) (st : St) (h : Inv st) :
    Inv (l.foldl (fun s p => trackDependency p.1 s) st) := by
  induction l generalizing st with
  | nil => exact h
  | cons p ps ih => exact ih _ (inv_trackDependency p.1 h)

theorem nextId_trackFold (l : List (Nat × Nat)) (st : St) :
    (l.foldl (fun s p => trackDependency p.1 s) st).nextId = st.nextId := by
  induction l generalizing st with
  | nil => rfl
  | cons p ps ih => rw [List.foldl_cons, ih, nextId_trackDependency]

theorem invl_disposeFold (fuel : Nat) (l : List Nat) (st : St)
    (exs : List (Nat × List Nat)) (h : InvL st exs)
    (hc : ∀ c ∈ l, ∀ pe ∈ exs, pe.1 < c) :
    InvL (l.foldl (fun s c => disposeNode fuel c false s) st) exs := by
  induction l generalizing st with
  | nil => exact h
  | cons c cs ih =>
    exact ih _ (invl_disposeNode fuel c false st exs h (hc c (List.mem_cons_self _ _)))
      (fun c' hc' pe hpe => hc c' (List.mem_cons_of_mem _ hc') pe hpe)

theorem nextId_disposeFold (fuel : Nat) (l : List Nat) (st : St) :
    (l.foldl (fun s c => disposeNode fuel c false s) st).nextId = st.nextId := by
  induction l generalizing st with
  | nil => rfl
  | cons c cs ih => rw [List.foldl_cons, ih, nextId_disposeNode]

theorem owner_disposeFold (fuel : Nat) (l : List Nat) (st : St) :
    (l.foldl (fun s c => disposeNode fuel c false s) st).currentOwner = st.currentOwner := by
  induction l generalizing st with
  | nil => rfl
  | cons c cs ih => rw [List.foldl_cons, ih, owner_disposeNode]

theorem nextId_registerSignal (st : St) (ty v : Nat) :
    (registerSignal st ty v).2.nextId = st.nextId + 1 := by
  unfold registerSignal
  rw [show ((registerNode st NodeType.signal).1,
    updNode (registerNode st NodeType.signal).2 (registerNode st NodeType.signal).1
      (fun n => { n with value := some (ty, v) })).2.nextId
    = (registerNode st NodeType.signal).2.nextId from rfl]
  exact nextId_registerNode st _

theorem nextId_registerEffect (st : St) (body : Cmd) :
    (registerEffect st body).2.nextId = st.nextId + 1 := by
  unfold registerEffect
  rw [show ((registerNode st NodeType.effect).1,
    updNode (registerNode st NodeType.effect).2 (registerNode st NodeType.effect).1
      (fun n => { n with computation := some body })).2.nextId
    = (registerNode st NodeType.effect).2.nextId from rfl]
  exact nextId_registerNode st _

/-- `step` never lowers `nextId` (identifiers are never reused). -/
theorem nextId_le_step : ∀ (fuel : Nat) (a : Act) (st : St),
    st.nextId ≤ (step fuel a st).nextId := by
  intro fuel
  induction fuel with
  | zero => intro a st; exact le_refl _
  | succ fuel ih =>
    intro a st
    cases a with
    | cmd c =>
      cases c with
      | skip => exact le_refl _
      | seq a b =>
        calc st.nextId ≤ (step fuel (Act.cmd a) st).nextId := ih _ _
          _ ≤ _ := ih _ _
      | read sig =>
        rw [show step (fuel+1) (Act.cmd (Cmd.read sig)) st = trackDependency sig st from rfl]
        rw [nextId_trackDependency]
      | write sig ty g => exact ih _ _
      | newSignal ty v =>
        rw [show step (fuel+1) (Act.cmd (Cmd.newSignal ty v)) st
          = (registerSignal st ty v).2 from rfl]
        rw [nextId_registerSignal]
        omega
      | newEffect body =>
        rcases hre : registerEffect st body with ⟨id, st1⟩
        have h1 : st1.nextId = st.nextId + 1 := by
          have := nextId_registerEffect st body
          rw [hre] at this
          exact this
        simp only [step, hre]
        calc st.nextId ≤ st1.nextId := by omega
          _ ≤ _ := ih _ _
      | newScope body =>
        rw [step_newScope_eq]
        have h1 := nextId_registerNode st NodeType.scope
        have h2 := ih (Act.cmd body)
          { (registerNode st NodeType.scope).2 with
            currentOwner := some (registerNode st NodeType.scope).1 }
        calc st.nextId
            ≤ (registerNode st NodeType.scope).2.nextId := by omega
          _ = ({ (registerNode st NodeType.scope).2 with
              currentOwner := some (registerNode st NodeType.scope).1 } : St).nextId := rfl
          _ ≤ _ := h2
      | iteS sig v t e =>
        simp only [step]
        split
        · exact ih _ _
        · exact ih _ _
      | memoStep srcs g ty backing =>
        simp only [step]
        split
        · split
          · rw [nextId_trackFold]
          · calc st.nextId
              = (srcs.foldl (fun s p => trackDependency p.1 s) st).nextId :=
                (nextId_trackFold srcs st).symm
              _ ≤ _ := ih _ _
        · rw [nextId_trackFold]
    | runEff e =>
      cases ht : takeNode st e with
      | none =>
        rw [step_runEff_none fuel ht]
      | some res =>
        obtain ⟨⟨ch, cl, dp⟩, st1⟩ := res
        have h1 : st1.nextId = st.nextId := by
          unfold takeNode at ht
          cases hgn : getNode st e with
          | none =>
            rw [hgn] at ht
            exact absurd ht (by simp)
          | some n =>
            rw [hgn] at ht
            cases ht
            simp
        rw [step_runEff_eq fuel ht]
        cases hcomp : ((getNode st e).map Node.computation).getD none with
        | none =>
          simp only [hcomp]
          rw [nextId_unsubscribeSelf, nextId_runCleanupTokens, nextId_disposeFold, h1]
        | some body =>
          simp only [hcomp]
          have h2 := ih (Act.cmd body)
            (pushLog (Ev.runEv e) { unsubscribeSelf e dp (runCleanupTokens cl
              (ch.foldl (fun s c => disposeNode fuel c false s) st1)) with
              currentOwner := some e })
          calc st.nextId
              = (pushLog (Ev.runEv e) { unsubscribeSelf e dp (runCleanupTokens cl
                  (ch.foldl (fun s c => disposeNode fuel c false s) st1)) with
                  currentOwner := some e }).nextId := by
                simp only [pushLog_nextId]
                rw [show ∀ s : St, ({ s with currentOwner := some e } : St).nextId
                  = s.nextId from fun _ => rfl]
                rw [nextId_unsubscribeSelf, nextId_runCleanupTokens, nextId_disposeFold, h1]
            _ ≤ _ := h2
    | write sig ty g =>
      cases hgn : getNode st sig with
      | none =>
        rw [step_write_none fuel ty g hgn]
      | some n =>
        cases hv : n.value with
        | none =>
          rw [step_write_noval fuel ty g hgn hv]
        | some tv =>
          obtain ⟨ty', v⟩ := tv
          by_cases hty : ty' = ty
          · rw [step_write_ok fuel g hgn hv hty]
            have hfold : ∀ (l : List Nat) (s : St),
                s.nextId ≤ (l.foldl (fun s e => step fuel (Act.runEff e) s) s).nextId := by
              intro l
              induction l with
              | nil => intro s; exact le_refl _
              | cons e es ihl =>
                intro s
                rw [List.foldl_cons]
                calc s.nextId ≤ (step fuel (Act.runEff e) s).nextId := ih _ _
                  _ ≤ _ := ihl _
            calc st.nextId
                = (pushLog (Ev.notify sig (getDependents
                    (updNode st sig (fun m => { m with value := some (ty, g v) })) sig))
                    (updNode st sig (fun m => { m with value := some (ty, g v) }))).nextId := by
                  simp
              _ ≤ _ := hfold _ _
          · rw [step_write_mismatch fuel g hgn hv hty]

/-- Owner-bound extraction from the invariant. -/
theorem inv_ownerBound {st : St} (h : Inv st) :
    ∀ o, st.currentOwner = some o → o < st.nextId := by
  intro o ho
  have := h.2.2.1
  rw [ho] at this
  exact this

/-- The interpreter preserves the quiescent invariant: executing any
effect body, `run_effect`, or `WriteSignal::update` keeps the
dependency/subscriber edges symmetric and the arena well-formed. -/
theorem inv_step : ∀ (fuel : Nat) (a : Act) (st : St), Inv st → Inv (step fuel a st) := by
  intro fuel
  induction fuel with
  | zero =>
    intro a st h
    exact h
  | succ fuel ih =>
    intro a st h
    cases a with
    | cmd c =>
      cases c with
      | skip => exact h
      | seq a b => exact ih _ _ (ih _ _ h)
      | read sig => exact inv_trackDependency sig h
      | write sig ty g => exact ih _ _ h
      | newSignal ty v => exact inv_registerSignal st ty v h
      | newEffect body =>
        rw [step_newEffect_eq]
        exact ih _ _ (inv_registerEffect st body h)
      | newScope body =>
        rw [step_newScope_eq]
        have h1 : Inv (registerNode st NodeType.scope).2 := inv_registerNode st _ h
        have hid : (registerNode st NodeType.scope).1 < (registerNode st NodeType.scope).2.nextId := by
          rw [registerNode_fst, nextId_registerNode]
          omega
        have h2 : Inv { (registerNode st NodeType.scope).2 with
            currentOwner := some (registerNode st NodeType.scope).1 } := by
          refine invl_setOwner h1 ?_
          intro o ho
          cases ho
          exact hid
        have h3 := ih (Act.cmd body) _ h2
        refine invl_setOwner h3 ?_
        intro o ho
        have hb := inv_ownerBound h1 o ho
        calc o < (registerNode st NodeType.scope).2.nextId := hb
          _ = ({ (registerNode st NodeType.scope).2 with
              currentOwner := some (registerNode st NodeType.scope).1 } : St).nextId := rfl
          _ ≤ _ := nextId_le_step fuel (Act.cmd body) _
      | iteS sig v t e =>
        simp only [step]
        split
        · exact ih _ _ h
        · exact ih _ _ h
      | memoStep srcs g ty backing =>
        simp only [step]
        have h1 := inv_trackFold srcs st h
        split
        · split
          · exact h1
          · exact ih _ _ h1
        · exact h1
    | runEff e =>
      cases ht : takeNode st e with
      | none =>
        rw [step_runEff_none fuel ht]
        exact h
      | some res =>
        obtain ⟨⟨ch, cl, dp⟩, st1⟩ := res
        rcases invl_takeNode h (by simp) ht with ⟨h1, hgt, _, _, _⟩
        rw [step_runEff_eq fuel ht]
        have h2 : InvL (ch.foldl (fun s c => disposeNode fuel c false s) st1) [(e, dp)] := by
          refine invl_disposeFold fuel ch st1 _ h1 ?_
          intro c hc pe hpe
          rcases List.mem_cons.mp hpe with hpe | hpe
          · rw [hpe]
            exact hgt c hc
          · simp at hpe
        have h3 := invl_runCleanupTokens cl h2
        have h4 := invl_unsub h3
        have h5 : Inv (unsubscribeSelf e dp (runCleanupTokens cl
            (ch.foldl (fun s c => disposeNode fuel c false s) st1))) :=
          invl_resolve h4 (by simp)
        have helt : e < st.nextId := by
          unfold takeNode at ht
          cases hgn : getNode st e with
          | none =>
            rw [hgn] at ht
            exact absurd ht (by simp)
          | some n =>
            rw [hgn] at ht
            exact (h.2.1 (e, n) (mem_of_getNode hgn)).1
        have hst4nid : (unsubscribeSelf e dp (runCleanupTokens cl
            (ch.foldl (fun s c => disposeNode fuel c false s) st1))).nextId = st.nextId := by
          rw [nextId_unsubscribeSelf, nextId_runCleanupTokens, nextId_disposeFold]
          unfold takeNode at ht
          cases hgn : getNode st e with
          | none =>
            rw [hgn] at ht
            exact absurd ht (by simp)
          | some n =>
            rw [hgn] at ht
            cases ht
            simp
        cases hcomp : ((getNode st e).map Node.computation).getD none with
        | none =>
          simp only [hcomp]
          exact h5
        | some body =>
          simp only [hcomp]
          have h6 : Inv (pushLog (Ev.runEv e) { unsubscribeSelf e dp (runCleanupTokens cl
              (ch.foldl (fun s c => disposeNode fuel c false s) st1)) with
              currentOwner := some e }) := by
            refine invl_pushLog _ (invl_setOwner h5 ?_)
            intro o ho
            cases ho
            rw [hst4nid]
            exact helt
          have h7 := ih (Act.cmd body) _ h6
          refine invl_setOwner h7 ?_
          intro o ho
          have hb := inv_ownerBound h5 o ho
          calc o < (unsubscribeSelf e dp (runCleanupTokens cl
                (ch.foldl (fun s c => disposeNode fuel c false s) st1))).nextId := hb
            _ = (pushLog (Ev.runEv e) { unsubscribeSelf e dp (runCleanupTokens cl
                (ch.foldl (fun s c => disposeNode fuel c false s) st1)) with
                currentOwner := some e }).nextId := rfl
            _ ≤ _ := nextId_le_step fuel (Act.cmd body) _
    | write sig ty g =>
      cases hgn : getNode st sig with
      | none =>
        rw [step_write_none fuel ty g hgn]
        exact h
      | some n =>
        cases hv : n.value with
        | none =>
          rw [step_write_noval fuel ty g hgn hv]
          exact h
        | some tv =>
          obtain ⟨ty', v⟩ := tv
          by_cases hty : ty' = ty
          · rw [step_write_ok fuel g hgn hv hty]
            have hfold : ∀ (l : List Nat) (s : St), Inv s →
                Inv (l.foldl (fun s e => step fuel (Act.runEff e) s) s) := by
              intro l
              induction l with
              | nil =>
                intro s hs
                exact hs
              | cons e es ihl =>
                intro s hs
                rw [List.foldl_cons]
                exact ihl _ (ih _ _ hs)
            refine hfold _ _ (invl_pushLog _ ?_)
            exact invl_updNode_mono (fun m => rfl) (fun m => rfl) (fun m _ hx => hx) h
          · rw [step_write_mismatch fuel g hgn hv hty]
            exact h

/-! ### Event windows

`evWin st st'` is the list of events an operation taking `st` to `st'`
appended to the log; every operation only appends (`log_prefix` facts),
so windows compose by concatenation. -/

def evWin (st st' : St) : List Ev := st'.log.drop st.log.length

theorem log_runCleanupTokens (cl : List Nat) (st : St) :
    (runCleanupTokens cl st).log = st.log ++ cl.map Ev.cleanupRun := by
  induction cl generalizing st with
  | nil => simp [runCleanupTokens]
  | cons t ts ih =>
    show (runCleanupTokens ts (pushLog (Ev.cleanupRun t) st)).log = _
    rw [ih]
    simp

theorem log_unsubscribeSelf (x : Nat) (dp : List Nat) (st : St) :
    (unsubscribeSelf x dp st).log = st.log := by
  induction dp generalizing st with
  | nil => rfl
  | cons d rest ih => exact ih _

theorem log_prefix_disposeNode : ∀ (fuel x : Nat) (b : Bool) (st : St),
    st.log <+: (disposeNode fuel x b st).log := by
  intro fuel
  induction fuel with
  | zero =>
    intro x b st
    exact List.prefix_refl _
  | succ fuel ih =>
    intro x b st
    have hfold : ∀ (l : List Nat) (s : St),
        s.log <+: (l.foldl (fun s c => disposeNode fuel c false s) s).log := by
      intro l
      induction l with
      | nil =>
        intro s
        exact List.prefix_refl _
      | cons c cs ihl =>
        intro s
        exact (ih c false s).trans (ihl _)
    rw [disposeNode]
    cases ht : takeNode st x with
    | none => exact List.prefix_refl _
    | some res =>
      obtain ⟨⟨ch, cl, dp⟩, st1⟩ := res
      have h1 : st1.log = st.log ++ [Ev.clean x] := by
        unfold takeNode at ht
        cases hgn : getNode st x with
        | none =>
          rw [hgn] at ht
          exact absurd ht (by simp)
        | some n =>
          rw [hgn] at ht
          cases ht
          simp
      have h2 : ∀ (s5 : St), s5.log = (unsubscribeSelf x dp (runCleanupTokens cl
          (ch.foldl (fun s c => disposeNode fuel c false s) st1))).log →
          st.log <+: s5.log := by
        intro s5 h5
        rw [h5, log_unsubscribeSelf, log_runCleanupTokens]
        have := hfold ch st1
        rcases this with ⟨Δ, hΔ⟩
        rw [← hΔ, h1]
        exact ⟨[Ev.clean x] ++ Δ ++ cl.map Ev.cleanupRun, by simp⟩
      simp only
      cases b with
      | false =>
        rw [if_neg Bool.false_ne_true]
        exact h2 _ rfl
      | true =>
        rw [if_pos rfl]
        cases (getNode (unsubscribeSelf x dp
            (runCleanupTokens cl (ch.foldl (fun s c => disposeNode fuel c false s) st1))) x).bind
            Node.parent with
        | none => exact h2 _ rfl
        | some p => exact h2 _ rfl

theorem log_prefix_trackDependency (sig : Nat) (st : St) :
    st.log <+: (trackDependency sig st).log := by
  rcases trackDependency_cases sig st with h | ⟨o, ow, sn, _, _, _, _, _, h⟩
  · rw [h]
  · rw [h]
    exact ⟨[Ev.track o sig], by simp⟩

theorem log_prefix_trackFold (l : List (Nat × Nat)) (st : St) :
    st.log <+: (l.foldl (fun s p => trackDependency p.1 s) st).log := by
  induction l generalizing st with
  | nil => exact List.prefix_refl _
  | cons p ps ih => exact (log_prefix_trackDependency p.1 st).trans (ih _)

theorem log_prefix_step : ∀ (fuel : Nat) (a : Act) (st : St),
    st.log <+: (step fuel a st).log := by
  intro fuel
  induction fuel with
  | zero =>
    intro a st
    exact List.prefix_refl _
  | succ fuel ih =>
    intro a st
    cases a with
    | cmd c =>
      cases c with
      | skip => exact List.prefix_refl _
      | seq a b => exact (ih (Act.cmd a) st).trans (ih (Act.cmd b) _)
      | read sig => exact log_prefix_trackDependency sig st
      | write sig ty g => exact ih _ _
      | newSignal ty v =>
        show st.log <+: (registerSignal st ty v).2.log
        have : (registerSignal st ty v).2.log = st.log := by
          unfold registerSignal
          rw [show ((registerNode st NodeType.signal).1,
            updNode (registerNode st NodeType.signal).2 (registerNode st NodeType.signal).1
              (fun n => { n with value := some (ty, v) })).2.log
            = (registerNode st NodeType.signal).2.log from rfl]
          exact log_registerNode st _
        rw [this]
      | newEffect body =>
        rw [step_newEffect_eq]
        have h1 : (registerEffect st body).2.log = st.log := by
          unfold registerEffect
          rw [show ((registerNode st NodeType.effect).1,
            updNode (registerNode st NodeType.effect).2 (registerNode st NodeType.effect).1
              (fun n => { n with computation := some body })).2.log
            = (registerNode st NodeType.effect).2.log from rfl]
          exact log_registerNode st _
        rw [show st.log = (registerEffect st body).2.log from h1.symm]
        exact ih _ _
      | newScope body =>
        rw [step_newScope_eq]
        have h1 : (registerNode st NodeType.scope).2.log = st.log := log_registerNode st _
        show st.log <+: (step fuel (Act.cmd body) _).log
        rw [show st.log = ({ (registerNode st NodeType.scope).2 with
          currentOwner := some (registerNode st NodeType.scope).1 } : St).log from h1.symm]
        exact ih _ _
      | iteS sig v t e =>
        simp only [step]
        split
        · exact ih _ _
        · exact ih _ _
      | memoStep srcs g ty backing =>
        simp only [step]
        split
        · split
          · exact log_prefix_trackFold srcs st
          · exact (log_prefix_trackFold srcs st).trans (ih _ _)
        · exact log_prefix_trackFold srcs st
    | runEff e =>
      cases ht : takeNode st e with
      | none =>
        rw [step_runEff_none fuel ht]
      | some res =>
        obtain ⟨⟨ch, cl, dp⟩, st1⟩ := res
        rw [step_runEff_eq fuel ht]
        have h1 : st1.log = st.log ++ [Ev.clean e] := by
          unfold takeNode at ht
          cases hgn : getNode st e with
          | none =>
            rw [hgn] at ht
            exact absurd ht (by simp)
          | some n =>
            rw [hgn] at ht
            cases ht
            simp
        have hfold : ∀ (l : List Nat) (s : St),
            s.log <+: (l.foldl (fun s c => disposeNode fuel c false s) s).log := by
          intro l
          induction l with
          | nil =>
            intro s
            exact List.prefix_refl _
          | cons c cs ihl =>
            intro s
            exact (log_prefix_disposeNode fuel c false s).trans (ihl _)
        have h4 : st.log <+: (unsubscribeSelf e dp (runCleanupTokens cl
            (ch.foldl (fun s c => disposeNode fuel c false s) st1))).log := by
          rw [log_unsubscribeSelf, log_runCleanupTokens]
          rcases hfold ch st1 with ⟨Δ, hΔ⟩
          rw [← hΔ, h1]
          exact ⟨[Ev.clean e] ++ Δ ++ cl.map Ev.cleanupRun, by simp⟩
        cases hcomp : ((getNode st e).map Node.computation).getD none with
        | none =>
          simp only [hcomp]
          exact h4
        | some body =>
          simp only [hcomp]
          refine h4.trans ?_
          have h5 := ih (Act.cmd body) (pushLog (Ev.runEv e)
            { unsubscribeSelf e dp (runCleanupTokens cl
              (ch.foldl (fun s c => disposeNode fuel c false s) st1)) with
              currentOwner := some e })
          refine List.IsPrefix.trans ⟨[Ev.runEv e], rfl⟩ ?_
          exact h5
    | write sig ty g =>
      cases hgn : getNode st sig with
      | none =>
        rw [step_write_none fuel ty g hgn]
      | some n =>
        cases hv : n.value with
        | none =>
          rw [step_write_noval fuel ty g hgn hv]
        | some tv =>
          obtain ⟨ty', v⟩ := tv
          by_cases hty : ty' = ty
          · rw [step_write_ok fuel g hgn hv hty]
            have hfold : ∀ (l : List Nat) (s : St),
                s.log <+: (l.foldl (fun s e => step fuel (Act.runEff e) s) s).log := by
              intro l
              induction l with
              | nil =>
                intro s
                exact List.prefix_refl _
              | cons e es ihl =>
                intro s
                exact (ih (Act.runEff e) s).trans (ihl _)
            refine List.IsPrefix.trans ?_ (hfold _ _)
            exact ⟨[Ev.notify sig (getDependents (updNode st sig
              (fun m => { m with value := some (ty, g v) })) sig)], by simp⟩
          · rw [step_write_mismatch fuel g hgn hv hty]

theorem evWin_append {st0 st1 st2 : St} (h01 : st0.log <+: st1.log)
    (h12 : st1.log <+: st2.log) : evWin st0 st2 = evWin st0 st1 ++ evWin st1 st2 := by
  rcases h01 with ⟨a, ha⟩
  rcases h12 with ⟨b, hb⟩
  unfold evWin
  rw [← hb, List.drop_left, ← ha, List.append_assoc, List.drop_left, List.drop_left]

theorem mem_evWin_left {st0 st1 st2 : St} (h01 : st0.log <+: st1.log)
    (h12 : st1.log <+: st2.log) {e : Ev} (he : e ∈ evWin st0 st1) : e ∈ evWin st0 st2 := by
  rw [evWin_append h01 h12]
  exact List.mem_append_left _ he

theorem mem_evWin_right {st0 st1 st2 : St} (h01 : st0.log <+: st1.log)
    (h12 : st1.log <+: st2.log) {e : Ev} (he : e ∈ evWin st1 st2) : e ∈ evWin st0 st2 := by
  rw [evWin_append h01 h12]
  exact List.mem_append_right _ he

theorem not_mem_evWin_left {st0 st1 st2 : St} (h01 : st0.log <+: st1.log)
    (h12 : st1.log <+: st2.log) {e : Ev} (he : e ∉ evWin st0 st2) : e ∉ evWin st0 st1 :=
  fun hx => he (mem_evWin_left h01 h12 hx)

theorem not_mem_evWin_right {st0 st1 st2 : St} (h01 : st0.log <+: st1.log)
    (h12 : st1.log <+: st2.log) {e : Ev} (he : e ∉ evWin st0 st2) : e ∉ evWin st1 st2 :=
  fun hx => he (mem_evWin_right h01 h12 hx)

theorem evWin_refl (st : St) : evWin st st = [] := by
  unfold evWin
  simp

theorem evWin_pushLog (e : Ev) (st : St) : evWin st (pushLog e st) = [e] := by
  unfold evWin
  simp only [pushLog_log]
  rw [List.drop_left]

theorem evWin_of_log_eq {st st' : St} {Δ : List Ev} (h : st'.log = st.log ++ Δ) :
    evWin st st' = Δ := by
  unfold evWin
  rw [h, List.drop_left]

theorem nodes_runCleanupTokens (cl : List Nat) (st : St) :
    (runCleanupTokens cl st).nodes = st.nodes := by
  induction cl generalizing st with
  | nil => rfl
  | cons t ts ih => exact ih _

theorem getNode_runCleanupTokens (cl : List Nat) (st : St) (j : Nat) :
    getNode (runCleanupTokens cl st) j = getNode st j := by
  unfold getNode
  rw [nodes_runCleanupTokens]

theorem subsOf_congr_nodes {st st' : St} (h : st'.nodes = st.nodes) (S : Nat) :
    subsOf st' S = subsOf st S := by
  unfold subsOf getNode
  rw [h]

theorem depsOf_congr_nodes {st st' : St} (h : st'.nodes = st.nodes) (E : Nat) :
    depsOf st' E = depsOf st E := by
  unfold depsOf getNode
  rw [h]

theorem depsOf_updNode_keep {st : St} {i : Nat} {g : Node → Node}
    (hg : ∀ n, (g n).dependencies = n.dependencies) (E : Nat) :
    depsOf (updNode st i g) E = depsOf st E := by
  unfold depsOf
  rw [getNode_updNode]
  by_cases hE : E = i
  · rw [if_pos hE, hE]
    cases hgn : getNode st i with
    | none => simp
    | some n => simp [hg n]
  · rw [if_neg hE]

theorem subsOf_updNode_keep {st : St} {i : Nat} {g : Node → Node}
    (hg : ∀ n, (g n).subscribers = n.subscribers) (S : Nat) :
    subsOf (updNode st i g) S = subsOf st S := by
  unfold subsOf
  rw [getNode_updNode]
  by_cases hS : S = i
  · rw [if_pos hS, hS]
    cases hgn : getNode st i with
    | none => simp
    | some n => simp [hg n]
  · rw [if_neg hS]

theorem valueOf_updNode_keep {st : St} {i : Nat} {g : Node → Node}
    (hg : ∀ n, (g n).value = n.value) (j : Nat) :
    valueOf (updNode st i g) j = valueOf st j := by
  unfold valueOf
  rw [getNode_updNode]
  by_cases hj : j = i
  · rw [if_pos hj, hj]
    cases hgn : getNode st i with
    | none => simp
    | some n => simp [hg n]
  · rw [if_neg hj]

theorem subsOf_takeNode {st st1 : St} {x : Nat} {ch cl dp : List Nat}
    (ht : takeNode st x = some ((ch, cl, dp), st1)) (S : Nat) :
    subsOf st1 S = subsOf st S := by
  unfold takeNode at ht
  cases hgn : getNode st x with
  | none =>
    rw [hgn] at ht
    exact absurd ht (by simp)
  | some n =>
    rw [hgn] at ht
    cases ht
    have h0 : ∀ T, subsOf (pushLog (Ev.clean x) T) S = subsOf T S := fun T => rfl
    rw [h0]
    refine subsOf_updNode_keep ?_ S
    intro m
    rfl

theorem depsOf_takeNode_ne {st st1 : St} {x : Nat} {ch cl dp : List Nat}
    (ht : takeNode st x = some ((ch, cl, dp), st1)) {E : Nat} (hE : ¬ E = x) :
    depsOf st1 E = depsOf st E := by
  unfold takeNode at ht
  cases hgn : getNode st x with
  | none =>
    rw [hgn] at ht
    exact absurd ht (by simp)
  | some n =>
    rw [hgn] at ht
    cases ht
    have h0 : ∀ T, depsOf (pushLog (Ev.clean x) T) E = depsOf T E := fun T => rfl
    rw [h0]
    unfold depsOf
    rw [getNode_updNode, if_neg hE]

theorem valueOf_takeNode {st st1 : St} {x : Nat} {ch cl dp : List Nat}
    (ht : takeNode st x = some ((ch, cl, dp), st1)) (j : Nat) :
    valueOf st1 j = valueOf st j := by
  unfold takeNode at ht
  cases hgn : getNode st x with
  | none =>
    rw [hgn] at ht
    exact absurd ht (by simp)
  | some n =>
    rw [hgn] at ht
    cases ht
    have h0 : ∀ T, valueOf (pushLog (Ev.clean x) T) j = valueOf T j := fun T => rfl
    rw [h0]
    refine valueOf_updNode_keep ?_ j
    intro m
    rfl

theorem log_takeNode {st st1 : St} {x : Nat} {ch cl dp : List Nat}
    (ht : takeNode st x = some ((ch, cl, dp), st1)) :
    st1.log = st.log ++ [Ev.clean x] := by
  unfold takeNode at ht
  cases hgn : getNode st x with
  | none =>
    rw [hgn] at ht
    exact absurd ht (by simp)
  | some n =>
    rw [hgn] at ht
    cases ht
    simp

theorem subsOf_unsubscribeSelf_subset (x : Nat) (dp : List Nat) (st : St) (S E : Nat)
    (h : E ∈ subsOf (unsubscribeSelf x dp st) S) : E ∈ subsOf st S := by
  induction dp generalizing st with
  | nil => exact h
  | cons d rest ih =>
    have h1 := ih _ h
    unfold subsOf at h1 ⊢
    rw [getNode_updNode] at h1
    by_cases hS : S = d
    · rw [if_pos hS] at h1
      cases hgn : getNode st d with
      | none =>
        rw [hgn] at h1
        simp at h1
      | some n =>
        rw [hgn] at h1
        simp only [Option.map_some', Option.getD_some] at h1
        rw [hS, hgn]
        simp only [Option.map_some', Option.getD_some]
        exact removeFirst_subset h1
    · rw [if_neg hS] at h1
      exact h1

theorem depsOf_unsubscribeSelf (x : Nat) (dp : List Nat) (st : St) (E : Nat) :
    depsOf (unsubscribeSelf x dp st) E = depsOf st E := by
  induction dp generalizing st with
  | nil => rfl
  | cons d rest ih =>
    rw [show unsubscribeSelf x (d :: rest) st = unsubscribeSelf x rest
      (updNode st d (fun n => { n with subscribers := removeFirst x n.subscribers })) from rfl]
    rw [ih]
    refine depsOf_updNode_keep ?_ E
    intro n
    rfl

theorem valueOf_unsubscribeSelf (x : Nat) (dp : List Nat) (st : St) (j : Nat) :
    valueOf (unsubscribeSelf x dp st) j = valueOf st j := by
  induction dp generalizing st with
  | nil => rfl
  | cons d rest ih =>
    rw [show unsubscribeSelf x (d :: rest) st = unsubscribeSelf x rest
      (updNode st d (fun n => { n with subscribers := removeFirst x n.subscribers })) from rfl]
    rw [ih]
    refine valueOf_updNode_keep ?_ j
    intro n
    rfl

/-- Disposal emits only `clean` and `cleanupRun` events (no dependency
tracking and no write notifications happen while a subtree is torn
down — cleanup callbacks are opaque to the reactive graph). -/
theorem dispose_log_events : ∀ (fuel x : Nat) (b : Bool) (st : St),
    ∃ Δ, (disposeNode fuel x b st).log = st.log ++ Δ ∧
      ∀ ev ∈ Δ, (∃ n, ev = Ev.clean n) ∨ (∃ t, ev = Ev.cleanupRun t) := by
  intro fuel
  induction fuel with
  | zero =>
    intro x b st
    exact ⟨[], by simp [disposeNode], by simp⟩
  | succ fuel ih =>
    intro x b st
    have hfold : ∀ (l : List Nat) (s : St),
        ∃ Δ, (l.foldl (fun s c => disposeNode fuel c false s) s).log = s.log ++ Δ ∧
          ∀ ev ∈ Δ, (∃ n, ev = Ev.clean n) ∨ (∃ t, ev = Ev.cleanupRun t) := by
      intro l
      induction l with
      | nil =>
        intro s
        exact ⟨[], by simp, by simp⟩
      | cons c cs ihl =>
        intro s
        rcases ih c false s with ⟨Δ1, h1, hp1⟩
        rcases ihl (disposeNode fuel c false s) with ⟨Δ2, h2, hp2⟩
        refine ⟨Δ1 ++ Δ2, ?_, ?_⟩
        · rw [List.foldl_cons, h2, h1, List.append_assoc]
        · intro ev hev
          rcases List.mem_append.mp hev with hev | hev
          · exact hp1 ev hev
          · exact hp2 ev hev
    rw [disposeNode]
    cases ht : takeNode st x with
    | none =>
      exact ⟨[], by simp, by simp⟩
    | some res =>
      obtain ⟨⟨ch, cl, dp⟩, st1⟩ := res
      rcases hfold ch st1 with ⟨Δf, hf, hpf⟩
      have h1 := log_takeNode ht
      have hlog : ∀ (s5 : St), s5.log = (unsubscribeSelf x dp (runCleanupTokens cl
          (ch.foldl (fun s c => disposeNode fuel c false s) st1))).log →
          s5.log = st.log ++ ([Ev.clean x] ++ Δf ++ cl.map Ev.cleanupRun) := by
        intro s5 h5
        rw [h5, log_unsubscribeSelf, log_runCleanupTokens, hf, h1]
        simp
      have hpred : ∀ ev ∈ [Ev.clean x] ++ Δf ++ cl.map Ev.cleanupRun,
          (∃ n, ev = Ev.clean n) ∨ (∃ t, ev = Ev.cleanupRun t) := by
        intro ev hev
        rcases List.mem_append.mp hev with hev | hev
        · rcases List.mem_append.mp hev with hev | hev
          · exact Or.inl ⟨x, by simpa using hev⟩
          · exact hpf ev hev
        · rcases List.mem_map.mp hev with ⟨t, _, rfl⟩
          exact Or.inr ⟨t, rfl⟩
      simp only
      cases b with
      | false =>
        rw [if_neg Bool.false_ne_true]
        exact ⟨_, hlog _ rfl, hpred⟩
      | true =>
        rw [if_pos rfl]
        cases (getNode (unsubscribeSelf x dp
            (runCleanupTokens cl (ch.foldl (fun s c => disposeNode fuel c false s) st1))) x).bind
            Node.parent with
        | none => exact ⟨_, hlog _ rfl, hpred⟩
        | some p => exact ⟨_, hlog _ rfl, hpred⟩

theorem dispose_no_track (fuel x : Nat) (b : Bool) (st : St) (e s : Nat) :
    Ev.track e s ∉ evWin st (disposeNode fuel x b st) := by
  rcases dispose_log_events fuel x b st with ⟨Δ, hΔ, hp⟩
  rw [evWin_of_log_eq hΔ]
  intro hmem
  rcases hp _ hmem with ⟨n, hn⟩ | ⟨t, hn⟩ <;> exact absurd hn (by simp)

/-- Disposal never adds a subscriber. -/
theorem subsOf_dispose_subset : ∀ (fuel x : Nat) (b : Bool) (st : St) (S E : Nat),
    E ∈ subsOf (disposeNode fuel x b st) S → E ∈ subsOf st S := by
  intro fuel
  induction fuel with
  | zero =>
    intro x b st S E h
    exact h
  | succ fuel ih =>
    intro x b st S E h
    rw [disposeNode] at h
    cases ht : takeNode st x with
    | none =>
      rw [ht] at h
      cases hgn : getNode st x with
      | some n =>
        unfold takeNode at ht
        rw [hgn] at ht
        exact absurd ht (by simp)
      | none =>
        rw [removeNode_absent hgn] at h
        exact h
    | some res =>
      obtain ⟨⟨ch, cl, dp⟩, st1⟩ := res
      rw [ht] at h
      simp only at h
      have hfold : ∀ (l : List Nat) (s : St) (S E : Nat),
          E ∈ subsOf (l.foldl (fun s c => disposeNode fuel c false s) s) S →
          E ∈ subsOf s S := by
        intro l
        induction l with
        | nil =>
          intro s S E h
          exact h
        | cons c cs ihl =>
          intro s S E h
          exact ih c false s S E (ihl _ S E h)
      have hsub4 : ∀ {S E : Nat}, E ∈ subsOf (unsubscribeSelf x dp (runCleanupTokens cl
          (ch.foldl (fun s c => disposeNode fuel c false s) st1))) S → E ∈ subsOf st S := by
        intro S E hE
        have h3 := subsOf_unsubscribeSelf_subset x dp _ S E hE
        rw [subsOf_congr_nodes (nodes_runCleanupTokens cl _) S] at h3
        have h2 := hfold ch st1 S E h3
        rw [subsOf_takeNode ht S] at h2
        exact h2
      have hrm : ∀ (s5 : St), E ∈ subsOf (removeNode s5 x) S → E ∈ subsOf s5 S := by
        intro s5 hE
        unfold subsOf at hE ⊢
        rw [getNode_removeNode] at hE
        by_cases hS : S = x
        · rw [if_pos hS] at hE
          simp at hE
        · rw [if_neg hS] at hE
          exact hE
      cases b with
      | false =>
        rw [if_neg Bool.false_ne_true] at h
        exact hsub4 (hrm _ h)
      | true =>
        rw [if_pos rfl] at h
        revert h
        cases (getNode (unsubscribeSelf x dp
            (runCleanupTokens cl (ch.foldl (fun s c => disposeNode fuel c false s) st1))) x).bind
            Node.parent with
        | none =>
          intro h
          exact hsub4 (hrm _ h)
        | some p =>
          intro h
          have h5 := hrm _ h
          simp only at h5
          have hkeep : subsOf (updNode (unsubscribeSelf x dp (runCleanupTokens cl
              (ch.foldl (fun s c => disposeNode fuel c false s) st1))) p
              (fun n => { n with children := removeFirst x n.children })) S
              = subsOf (unsubscribeSelf x dp (runCleanupTokens cl
              (ch.foldl (fun s c => disposeNode fuel c false s) st1))) S := by
            refine subsOf_updNode_keep ?_ S
            intro n
            rfl
          rw [hkeep] at h5
          exact hsub4 h5

/-- When a disposal never cleans node `E` (its `clean` event is absent
from the window), `E`'s dependency list is untouched. -/
theorem depsOf_dispose : ∀ (fuel x : Nat) (b : Bool) (st : St) (E : Nat),
    Ev.clean E ∉ evWin st (disposeNode fuel x b st) →
    depsOf (disposeNode fuel x b st) E = depsOf st E := by
  intro fuel
  induction fuel with
  | zero =>
    intro x b st E _
    simp [disposeNode]
  | succ fuel ih =>
    have hpref : ∀ (l : List Nat) (s : St),
        s.log <+: (l.foldl (fun s c => disposeNode fuel c false s) s).log := by
      intro l
      induction l with
      | nil => intro s; exact List.prefix_refl _
      | cons c cs ihl =>
        intro s
        exact (log_prefix_disposeNode fuel c false s).trans (ihl _)
    have hfold : ∀ (l : List Nat) (s : St) (E : Nat),
        Ev.clean E ∉ evWin s (l.foldl (fun s c => disposeNode fuel c false s) s) →
        depsOf (l.foldl (fun s c => disposeNode fuel c false s) s) E = depsOf s E := by
      intro l
      induction l with
      | nil => intro s E _; rfl
      | cons c cs ihl =>
        intro s E hc
        have h01 := log_prefix_disposeNode fuel c false s
        have h12 := hpref cs (disposeNode fuel c false s)
        rw [List.foldl_cons] at hc ⊢
        rw [ihl _ E (not_mem_evWin_right h01 h12 hc)]
        exact ih c false s E (not_mem_evWin_left h01 h12 hc)
    intro x b st E hcl
    rw [disposeNode] at hcl ⊢
    cases ht : takeNode st x with
    | none =>
      simp only at hcl ⊢
      cases hgn : getNode st x with
      | some n =>
        unfold takeNode at ht
        rw [hgn] at ht
        exact absurd ht (by simp)
      | none =>
        rw [removeNode_absent hgn]
    | some res =>
      obtain ⟨⟨ch, cl, dp⟩, st1⟩ := res
      rw [ht] at hcl
      simp only at hcl ⊢
      rcases hpref ch st1 with ⟨Δf, hΔf⟩
      have hwin : ∀ (s5 : St), s5.log = (unsubscribeSelf x dp (runCleanupTokens cl
          (ch.foldl (fun s c => disposeNode fuel c false s) st1))).log →
          evWin st (removeNode s5 x) = [Ev.clean x] ++ Δf ++ cl.map Ev.cleanupRun := by
        intro s5 h5
        apply evWin_of_log_eq
        show s5.log = st.log ++ _
        rw [h5, log_unsubscribeSelf, log_runCleanupTokens, ← hΔf, log_takeNode ht]
        simp
      have hchain : ∀ (s5 : St),
          depsOf s5 E = depsOf (unsubscribeSelf x dp (runCleanupTokens cl
            (ch.foldl (fun s c => disposeNode fuel c false s) st1))) E →
          ¬ E = x →
          Ev.clean E ∉ evWin st1 (ch.foldl (fun s c => disposeNode fuel c false s) st1) →
          depsOf (removeNode s5 x) E = depsOf st E := by
        intro s5 h5 hne hcf
        unfold depsOf
        rw [getNode_removeNode, if_neg hne]
        show depsOf s5 E = depsOf st E
        rw [h5, depsOf_unsubscribeSelf,
          depsOf_congr_nodes (nodes_runCleanupTokens cl _) E,
          hfold ch st1 E hcf, depsOf_takeNode_ne ht hne]
      cases b with
      | false =>
        rw [if_neg Bool.false_ne_true] at hcl ⊢
        rw [hwin _ rfl] at hcl
        simp only [List.mem_append, List.mem_singleton, List.mem_map, not_or] at hcl
        have hne : ¬ E = x := fun he => hcl.1.1 (by rw [he])
        refine hchain _ rfl hne ?_
        rw [evWin_of_log_eq hΔf.symm]
        exact hcl.1.2
      | true =>
        rw [if_pos rfl] at hcl ⊢
        revert hcl
        cases (getNode (unsubscribeSelf x dp
            (runCleanupTokens cl (ch.foldl (fun s c => disposeNode fuel c false s) st1))) x).bind
            Node.parent with
        | none =>
          intro hcl
          rw [hwin _ rfl] at hcl
          simp only [List.mem_append, List.mem_singleton, List.mem_map, not_or] at hcl
          have hne : ¬ E = x := fun he => hcl.1.1 (by rw [he])
          refine hchain _ rfl hne ?_
          rw [evWin_of_log_eq hΔf.symm]
          exact hcl.1.2
        | some p =>
          intro hcl
          simp only at hcl ⊢
          rw [hwin (updNode (unsubscribeSelf x dp (runCleanupTokens cl
              (ch.foldl (fun s c => disposeNode fuel c false s) st1))) p
              (fun n => { n with children := removeFirst x n.children })) rfl] at hcl
          simp only [List.mem_append, List.mem_singleton, List.mem_map, not_or] at hcl
          have hne : ¬ E = x := fun he => hcl.1.1 (by rw [he])
          refine hchain _ ?_ hne ?_
          · refine depsOf_updNode_keep ?_ E
            intro n
            rfl
          · rw [evWin_of_log_eq hΔf.symm]
            exact hcl.1.2

theorem assoc_proj_append (f : Node → List Nat) (l : List (Nat × Node)) (nid : Nat)
    (node : Node) (h : f node = []) (j : Nat) :
    ((assocFind (l ++ [(nid, node)]) j).map f).getD []
      = ((assocFind l j).map f).getD [] := by
  rw [assocFind_append]
  cases hg : assocFind l j with
  | none =>
    simp only [hg]
    show ((assocFind [(nid, node)] j).map f).getD [] = []
    by_cases he : nid = j <;> simp [assocFind, he, h]
  | some n => simp [hg]

/-- Node registration touches no dependency list. -/
theorem depsOf_registerNode (st : St) (k : NodeType) (j : Nat) :
    depsOf (registerNode st k).2 j = depsOf st j := by
  unfold registerNode
  cases how : st.currentOwner with
  | none =>
    exact assoc_proj_append Node.dependencies st.nodes st.nextId _ rfl j
  | some p =>
    simp only
    have h1 : ∀ T : St, depsOf (updNode T p
        (fun n => { n with children := n.children ++ [st.nextId] })) j = depsOf T j := by
      intro T
      refine depsOf_updNode_keep ?_ j
      intro n
      rfl
    rw [h1]
    exact assoc_proj_append Node.dependencies st.nodes st.nextId _ rfl j

/-- Node registration touches no subscriber list. -/
theorem subsOf_registerNode (st : St) (k : NodeType) (j : Nat) :
    subsOf (registerNode st k).2 j = subsOf st j := by
  unfold registerNode
  cases how : st.currentOwner with
  | none =>
    exact assoc_proj_append Node.subscribers st.nodes st.nextId _ rfl j
  | some p =>
    simp only
    have h1 : ∀ T : St, subsOf (updNode T p
        (fun n => { n with children := n.children ++ [st.nextId] })) j = subsOf T j := by
      intro T
      refine subsOf_updNode_keep ?_ j
      intro n
      rfl
    rw [h1]
    exact assoc_proj_append Node.subscribers st.nodes st.nextId _ rfl j

theorem depsOf_registerSignal (st : St) (ty v : Nat) (j : Nat) :
    depsOf (registerSignal st ty v).2 j = depsOf st j := by
  unfold registerSignal
  simp only
  have h1 : ∀ T : St, depsOf (updNode T (registerNode st NodeType.signal).1
      (fun n => { n with value := some (ty, v) })) j = depsOf T j := by
    intro T
    refine depsOf_updNode_keep ?_ j
    intro n
    rfl
  rw [h1, depsOf_registerNode]

theorem subsOf_registerSignal (st : St) (ty v : Nat) (j : Nat) :
    subsOf (registerSignal st ty v).2 j = subsOf st j := by
  unfold registerSignal
  simp only
  have h1 : ∀ T : St, subsOf (updNode T (registerNode st NodeType.signal).1
      (fun n => { n with value := some (ty, v) })) j = subsOf T j := by
    intro T
    refine subsOf_updNode_keep ?_ j
    intro n
    rfl
  rw [h1, subsOf_registerNode]

theorem depsOf_registerEffect (st : St) (body : Cmd) (j : Nat) :
    depsOf (registerEffect st body).2 j = depsOf st j := by
  unfold registerEffect
  simp only
  have h1 : ∀ T : St, depsOf (updNode T (registerNode st NodeType.effect).1
      (fun n => { n with computation := some body })) j = depsOf T j := by
    intro T
    refine depsOf_updNode_keep ?_ j
    intro n
    rfl
  rw [h1, depsOf_registerNode]

theorem subsOf_registerEffect (st : St) (body : Cmd) (j : Nat) :
    subsOf (registerEffect st body).2 j = subsOf st j := by
  unfold registerEffect
  simp only
  have h1 : ∀ T : St, subsOf (updNode T (registerNode st NodeType.effect).1
      (fun n => { n with computation := some body })) j = subsOf T j := by
    intro T
    refine subsOf_updNode_keep ?_ j
    intro n
    rfl
  rw [h1, subsOf_registerNode]

theorem log_registerSignal (st : St) (ty v : Nat) :
    (registerSignal st ty v).2.log = st.log := by
  unfold registerSignal
  simp only
  show (registerNode st NodeType.signal).2.log = st.log
  exact log_registerNode st NodeType.signal

theorem log_registerEffect (st : St) (body : Cmd) :
    (registerEffect st body).2.log = st.log := by
  unfold registerEffect
  simp only
  show (registerNode st NodeType.effect).2.log = st.log
  exact log_registerNode st NodeType.effect

/-- A subscriber present after `track_dependency` was either already
there or the tracking is recorded in the event window. -/
theorem subsOf_track_mem {sig : Nat} {st : St} {S E : Nat}
    (h : E ∈ subsOf (trackDependency sig st) S) :
    E ∈ subsOf st S ∨ Ev.track E S ∈ evWin st (trackDependency sig st) := by
  rcases trackDependency_cases sig st with heq | ⟨o, ow, sn, how, hos, hgo, hgs, hk, heq⟩
  · rw [heq] at h
    exact Or.inl h
  · have hwin : evWin st (trackDependency sig st) = [Ev.track o sig] := by
      rw [heq]
      apply evWin_of_log_eq
      rfl
    rw [heq] at h
    have h2 : E ∈ subsOf (updNode (updNode st o (fun n =>
        if sig ∈ n.dependencies then n
        else { n with dependencies := n.dependencies ++ [sig] })) sig (fun n =>
        if o ∈ n.subscribers then n
        else { n with subscribers := n.subscribers ++ [o] })) S := h
    have hkeep : ∀ (T : St) (j : Nat), subsOf (updNode T o (fun n =>
        if sig ∈ n.dependencies then n
        else { n with dependencies := n.dependencies ++ [sig] })) j = subsOf T j := by
      intro T j
      refine subsOf_updNode_keep ?_ j
      intro n
      by_cases hc : sig ∈ n.dependencies
      · rw [if_pos hc]
      · rw [if_neg hc]
    by_cases hSs : S = sig
    · unfold subsOf at h2
      rw [getNode_updNode, if_pos hSs] at h2
      rw [hSs]
      cases hg1 : getNode (updNode st o (fun n =>
          if sig ∈ n.dependencies then n
          else { n with dependencies := n.dependencies ++ [sig] })) sig with
      | none =>
        rw [hg1] at h2
        simp at h2
      | some m =>
        rw [hg1] at h2
        simp only [Option.map_some', Option.getD_some] at h2
        have hm : E ∈ m.subscribers ∨ E = o := by
          by_cases hc : o ∈ m.subscribers
          · rw [if_pos hc] at h2
            exact Or.inl h2
          · rw [if_neg hc] at h2
            rcases List.mem_append.mp h2 with h3 | h3
            · exact Or.inl h3
            · exact Or.inr (by simpa using h3)
        rcases hm with hm | hm
        · left
          have hthis := hkeep st sig
          have hsub : subsOf (updNode st o (fun n =>
              if sig ∈ n.dependencies then n
              else { n with dependencies := n.dependencies ++ [sig] })) sig = m.subscribers := by
            unfold subsOf
            rw [hg1]
            rfl
          rw [← hthis, hsub]
          exact hm
        · right
          rw [hwin, hm]
          exact List.mem_singleton.mpr rfl
    · left
      unfold subsOf at h2
      rw [getNode_updNode, if_neg hSs] at h2
      have hthis := hkeep st S
      rw [← hthis]
      exact h2

/-- Exact characterisation of a dependency list across `track_dependency`:
an entry is either old or its tracking appears in the window. -/
theorem depsOf_track_iff (sig : Nat) (st : St) (E s : Nat) :
    s ∈ depsOf (trackDependency sig st) E ↔
      s ∈ depsOf st E ∨ Ev.track E s ∈ evWin st (trackDependency sig st) := by
  rcases trackDependency_cases sig st with heq | ⟨o, ow, sn, how, hos, hgo, hgs, hk, heq⟩
  · rw [heq, evWin_refl]
    simp
  · have hwin : evWin st (trackDependency sig st) = [Ev.track o sig] := by
      rw [heq]
      apply evWin_of_log_eq
      rfl
    rw [hwin, heq]
    have hkeep : ∀ T : St, depsOf (updNode T sig (fun n =>
        if o ∈ n.subscribers then n
        else { n with subscribers := n.subscribers ++ [o] })) E = depsOf T E := by
      intro T
      refine depsOf_updNode_keep ?_ E
      intro n
      by_cases hc : o ∈ n.subscribers
      · rw [if_pos hc]
      · rw [if_neg hc]
    have h0 : ∀ T : St, depsOf (pushLog (Ev.track o sig) T) E = depsOf T E := fun T => rfl
    rw [h0, hkeep]
    simp only [List.mem_singleton, Ev.track.injEq]
    by_cases hEo : E = o
    · subst hEo
      have hdo : depsOf st E = ow.dependencies := by
        unfold depsOf
        rw [hgo]
        rfl
      have hlhs : depsOf (updNode st E (fun n =>
          if sig ∈ n.dependencies then n
          else { n with dependencies := n.dependencies ++ [sig] })) E =
          if sig ∈ ow.dependencies then ow.dependencies
          else ow.dependencies ++ [sig] := by
        unfold depsOf
        rw [getNode_updNode, if_pos rfl, hgo]
        by_cases hc : sig ∈ ow.dependencies
        · rw [if_pos hc]
          simp [hc]
        · rw [if_neg hc]
          simp [hc]
      rw [hlhs, hdo]
      by_cases hc : sig ∈ ow.dependencies
      · rw [if_pos hc]
        constructor
        · intro hs
          exact Or.inl hs
        · rintro (hs | ⟨-, rfl⟩)
          · exact hs
          · exact hc
      · rw [if_neg hc]
        simp [List.mem_append]
    · have hlhs : depsOf (updNode st o (fun n =>
          if sig ∈ n.dependencies then n
          else { n with dependencies := n.dependencies ++ [sig] })) E = depsOf st E := by
        unfold depsOf
        rw [getNode_updNode, if_neg hEo]
      rw [hlhs]
      simp [hEo]

theorem step_skip_eq (fuel : Nat) (st : St) :
    step (fuel + 1) (Act.cmd Cmd.skip) st = st := by
  simp only [step]

theorem step_seq_eq (fuel : Nat) (a b : Cmd) (st : St) :
    step (fuel + 1) (Act.cmd (Cmd.seq a b)) st
      = step fuel (Act.cmd b) (step fuel (Act.cmd a) st) := by
  simp only [step]

theorem step_read_eq (fuel : Nat) (sig : Nat) (st : St) :
    step (fuel + 1) (Act.cmd (Cmd.read sig)) st = trackDependency sig st := by
  simp only [step]

theorem step_cmdWrite_eq (fuel : Nat) (sig ty : Nat) (g : Nat → Nat) (st : St) :
    step (fuel + 1) (Act.cmd (Cmd.write sig ty g)) st
      = step fuel (Act.write sig ty g) st := by
  simp only [step]

theorem step_newSignal_eq (fuel : Nat) (ty v : Nat) (st : St) :
    step (fuel + 1) (Act.cmd (Cmd.newSignal ty v)) st = (registerSignal st ty v).2 := by
  simp only [step]

theorem step_iteS_eq (fuel : Nat) (sig v : Nat) (t e : Cmd) (st : St) :
    step (fuel + 1) (Act.cmd (Cmd.iteS sig v t e)) st
      = if (valueOf st sig).map Prod.snd = some v then step fuel (Act.cmd t) st
        else step fuel (Act.cmd e) st := by
  simp only [step]

theorem step_memo_eq (fuel : Nat) (srcs : List (Nat × Nat)) (g : List (Option Nat) → Nat)
    (ty backing : Nat) (st : St) :
    step (fuel + 1) (Act.cmd (Cmd.memoStep srcs g ty backing)) st
      = (match getTyped (srcs.foldl (fun s p => trackDependency p.1 s) st) backing ty with
         | some old =>
           if g (srcs.map (fun p => getTyped
               (srcs.foldl (fun s p => trackDependency p.1 s) st) p.1 p.2)) = old then
             srcs.foldl (fun s p => trackDependency p.1 s) st
           else step fuel (Act.write backing ty (fun _ => g (srcs.map (fun p => getTyped
             (srcs.foldl (fun s p => trackDependency p.1 s) st) p.1 p.2))))
             (srcs.foldl (fun s p => trackDependency p.1 s) st)
         | none => srcs.foldl (fun s p => trackDependency p.1 s) st) := by
  simp only [step]

theorem evWin_congr_left {st st' f : St} (h : st'.log = st.log) :
    evWin st' f = evWin st f := by
  unfold evWin
  rw [h]

theorem evWin_congr_right {st f f' : St} (h : f'.log = f.log) :
    evWin st f' = evWin st f := by
  unfold evWin
  rw [h]

/-- Subscribers only appear through `track_dependency`: any subscriber
edge present after a step was present before it or its `track` event is
in the step's window. -/
theorem subs_step : ∀ (fuel : Nat) (a : Act) (st : St) (S E : Nat),
    E ∈ subsOf (step fuel a st) S →
    E ∈ subsOf st S ∨ Ev.track E S ∈ evWin st (step fuel a st) := by
  intro fuel
  induction fuel with
  | zero =>
    intro a st S E h
    exact Or.inl h
  | succ fuel ih =>
    intro a st S E h
    cases a with
    | cmd c =>
      cases c with
      | skip =>
        rw [step_skip_eq] at h ⊢
        exact Or.inl h
      | seq a b =>
        rw [step_seq_eq] at h ⊢
        have h01 := log_prefix_step fuel (Act.cmd a) st
        have h12 := log_prefix_step fuel (Act.cmd b) (step fuel (Act.cmd a) st)
        rcases ih (Act.cmd b) _ S E h with h2 | h2
        · rcases ih (Act.cmd a) _ S E h2 with h3 | h3
          · exact Or.inl h3
          · exact Or.inr (mem_evWin_left h01 h12 h3)
        · exact Or.inr (mem_evWin_right h01 h12 h2)
      | read sig =>
        rw [step_read_eq] at h ⊢
        exact subsOf_track_mem h
      | write sig ty g =>
        rw [step_cmdWrite_eq] at h ⊢
        exact ih _ _ S E h
      | newSignal ty v =>
        rw [step_newSignal_eq] at h ⊢
        rw [subsOf_registerSignal] at h
        exact Or.inl h
      | newEffect body =>
        rw [step_newEffect_eq] at h ⊢
        rcases ih (Act.runEff (registerEffect st body).1) (registerEffect st body).2 S E h
          with h2 | h2
        · rw [subsOf_registerEffect] at h2
          exact Or.inl h2
        · rw [evWin_congr_left (log_registerEffect st body)] at h2
          exact Or.inr h2
      | newScope body =>
        rw [step_newScope_eq] at h ⊢
        have h' : E ∈ subsOf (step fuel (Act.cmd body)
            { (registerNode st NodeType.scope).2 with
              currentOwner := some (registerNode st NodeType.scope).1 }) S := h
        rcases ih _ _ S E h' with h2 | h2
        · have h3 : E ∈ subsOf (registerNode st NodeType.scope).2 S := h2
          rw [subsOf_registerNode] at h3
          exact Or.inl h3
        · right
          have hl1 : ({ (registerNode st NodeType.scope).2 with
              currentOwner := some (registerNode st NodeType.scope).1 } : St).log = st.log :=
            log_registerNode st NodeType.scope
          rw [evWin_congr_left hl1] at h2
          exact h2
      | iteS sig v t e =>
        rw [step_iteS_eq] at h ⊢
        by_cases hc : (valueOf st sig).map Prod.snd = some v
        · rw [if_pos hc] at h ⊢
          exact ih _ _ S E h
        · rw [if_neg hc] at h ⊢
          exact ih _ _ S E h
      | memoStep srcs g ty backing =>
        rw [step_memo_eq] at h ⊢
        have hfoldTrack : ∀ (l : List (Nat × Nat)) (s : St) (S E : Nat),
            E ∈ subsOf (l.foldl (fun s p => trackDependency p.1 s) s) S →
            E ∈ subsOf s S ∨
              Ev.track E S ∈ evWin s (l.foldl (fun s p => trackDependency p.1 s) s) := by
          intro l
          induction l with
          | nil =>
            intro s S E h
            exact Or.inl h
          | cons p ps ihl =>
            intro s S E h
            rw [List.foldl_cons] at h ⊢
            have h01 := log_prefix_trackDependency p.1 s
            have h12 := log_prefix_trackFold ps (trackDependency p.1 s)
            rcases ihl _ S E h with h2 | h2
            · rcases subsOf_track_mem h2 with h3 | h3
              · exact Or.inl h3
              · exact Or.inr (mem_evWin_left h01 h12 h3)
            · exact Or.inr (mem_evWin_right h01 h12 h2)
        cases hgt : getTyped (srcs.foldl (fun s p => trackDependency p.1 s) st) backing ty with
        | none =>
          simp only [hgt] at h ⊢
          exact hfoldTrack srcs st S E h
        | some old =>
          simp only [hgt] at h ⊢
          by_cases heq : g (srcs.map (fun p => getTyped
              (srcs.foldl (fun s p => trackDependency p.1 s) st) p.1 p.2)) = old
          · rw [if_pos heq] at h ⊢
            exact hfoldTrack srcs st S E h
          · rw [if_neg heq] at h ⊢
            have h01 := log_prefix_trackFold srcs st
            have h12 := log_prefix_step fuel (Act.write backing ty (fun _ => g (srcs.map
              (fun p => getTyped (srcs.foldl (fun s p => trackDependency p.1 s) st) p.1 p.2))))
              (srcs.foldl (fun s p => trackDependency p.1 s) st)
            rcases ih _ _ S E h with h2 | h2
            · rcases hfoldTrack srcs st S E h2 with h3 | h3
              · exact Or.inl h3
              · exact Or.inr (mem_evWin_left h01 h12 h3)
            · exact Or.inr (mem_evWin_right h01 h12 h2)
    | runEff e =>
      cases ht : takeNode st e with
      | none =>
        rw [step_runEff_none fuel ht] at h ⊢
        exact Or.inl h
      | some res =>
        obtain ⟨⟨ch, cl, dp⟩, st1⟩ := res
        rw [step_runEff_eq fuel ht] at h ⊢
        have hpref : ∀ (l : List Nat) (s : St),
            s.log <+: (l.foldl (fun s c => disposeNode fuel c false s) s).log := by
          intro l
          induction l with
          | nil =>
            intro s
            exact List.prefix_refl _
          | cons c cs ihl =>
            intro s
            exact (log_prefix_disposeNode fuel c false s).trans (ihl _)
        have hfoldD : ∀ (l : List Nat) (s : St) (S E : Nat),
            E ∈ subsOf (l.foldl (fun s c => disposeNode fuel c false s) s) S →
            E ∈ subsOf s S := by
          intro l
          induction l with
          | nil =>
            intro s S E h
            exact h
          | cons c cs ihl =>
            intro s S E h
            exact subsOf_dispose_subset fuel c false s S E (ihl _ S E h)
        have hsub4 : ∀ {S E : Nat}, E ∈ subsOf (unsubscribeSelf e dp (runCleanupTokens cl
            (ch.foldl (fun s c => disposeNode fuel c false s) st1))) S → E ∈ subsOf st S := by
          intro S E hE
          have h3 := subsOf_unsubscribeSelf_subset e dp _ S E hE
          rw [subsOf_congr_nodes (nodes_runCleanupTokens cl _) S] at h3
          have h2 := hfoldD ch st1 S E h3
          rw [subsOf_takeNode ht S] at h2
          exact h2
        cases hcomp : ((getNode st e).map Node.computation).getD none with
        | none =>
          simp only [hcomp] at h ⊢
          exact Or.inl (hsub4 h)
        | some body =>
          simp only [hcomp] at h ⊢
          have h' : E ∈ subsOf (step fuel (Act.cmd body) (pushLog (Ev.runEv e)
              { unsubscribeSelf e dp (runCleanupTokens cl
                  (ch.foldl (fun s c => disposeNode fuel c false s) st1)) with
                currentOwner := some e })) S := h
          rcases ih _ _ S E h' with h2 | h2
          · have h3 : E ∈ subsOf (unsubscribeSelf e dp (runCleanupTokens cl
                (ch.foldl (fun s c => disposeNode fuel c false s) st1))) S := h2
            exact Or.inl (hsub4 h3)
          · right
            have hpre : st.log <+: (pushLog (Ev.runEv e)
                { unsubscribeSelf e dp (runCleanupTokens cl
                    (ch.foldl (fun s c => disposeNode fuel c false s) st1)) with
                  currentOwner := some e }).log := by
              rcases hpref ch st1 with ⟨Δ, hΔ⟩
              refine ⟨[Ev.clean e] ++ Δ ++ cl.map Ev.cleanupRun ++ [Ev.runEv e], ?_⟩
              show st.log ++ _ = (unsubscribeSelf e dp (runCleanupTokens cl
                (ch.foldl (fun s c => disposeNode fuel c false s) st1))).log ++ [Ev.runEv e]
              rw [log_unsubscribeSelf, log_runCleanupTokens, ← hΔ, log_takeNode ht]
              simp
            have h12 := log_prefix_step fuel (Act.cmd body) (pushLog (Ev.runEv e)
              { unsubscribeSelf e dp (runCleanupTokens cl
                  (ch.foldl (fun s c => disposeNode fuel c false s) st1)) with
                currentOwner := some e })
            exact mem_evWin_right hpre h12 h2
    | write sig ty g =>
      cases hgn : getNode st sig with
      | none =>
        rw [step_write_none fuel ty g hgn] at h ⊢
        exact Or.inl h
      | some n =>
        cases hv : n.value with
        | none =>
          rw [step_write_noval fuel ty g hgn hv] at h ⊢
          exact Or.inl h
        | some tv =>
          obtain ⟨ty', v⟩ := tv
          by_cases hty : ty' = ty
          · rw [step_write_ok fuel g hgn hv hty] at h ⊢
            have hprefR : ∀ (l : List Nat) (s : St),
                s.log <+: (l.foldl (fun s e2 => step fuel (Act.runEff e2) s) s).log := by
              intro l
              induction l with
              | nil =>
                intro s
                exact List.prefix_refl _
              | cons e2 es ihl =>
                intro s
                exact (log_prefix_step fuel (Act.runEff e2) s).trans (ihl _)
            have hfoldR : ∀ (l : List Nat) (s : St) (S E : Nat),
                E ∈ subsOf (l.foldl (fun s e2 => step fuel (Act.runEff e2) s) s) S →
                E ∈ subsOf s S ∨
                  Ev.track E S ∈ evWin s (l.foldl (fun s e2 => step fuel (Act.runEff e2) s) s) := by
              intro l
              induction l with
              | nil =>
                intro s S E h
                exact Or.inl h
              | cons e2 es ihl =>
                intro s S E h
                rw [List.foldl_cons] at h ⊢
                have h01 := log_prefix_step fuel (Act.runEff e2) s
                have h12 := hprefR es (step fuel (Act.runEff e2) s)
                rcases ihl _ S E h with h2 | h2
                · rcases ih (Act.runEff e2) s S E h2 with h3 | h3
                  · exact Or.inl h3
                  · exact Or.inr (mem_evWin_left h01 h12 h3)
                · exact Or.inr (mem_evWin_right h01 h12 h2)
            rcases hfoldR _ _ S E h with h2 | h2
            · left
              have h3 : E ∈ subsOf (updNode st sig
                  (fun m => { m with value := some (ty, g v) })) S := h2
              have hk : subsOf (updNode st sig
                  (fun m => { m with value := some (ty, g v) })) S = subsOf st S := by
                refine subsOf_updNode_keep ?_ S
                intro m
                rfl
              rw [hk] at h3
              exact h3
            · right
              have hpre2 : st.log <+: (pushLog (Ev.notify sig (getDependents (updNode st sig
                  (fun m => { m with value := some (ty, g v) })) sig))
                  (updNode st sig (fun m => { m with value := some (ty, g v) }))).log := by
                refine ⟨[Ev.notify sig (getDependents (updNode st sig
                  (fun m => { m with value := some (ty, g v) })) sig)], ?_⟩
                rfl
              have h12 := hprefR (getDependents (updNode st sig
                (fun m => { m with value := some (ty, g v) })) sig)
                (pushLog (Ev.notify sig (getDependents (updNode st sig
                  (fun m => { m with value := some (ty, g v) })) sig))
                  (updNode st sig (fun m => { m with value := some (ty, g v) })))
              exact mem_evWin_right hpre2 h12 h2
          · rw [step_write_mismatch fuel g hgn hv hty] at h ⊢
            exact Or.inl h

theorem evWin_nil_of_log_eq {st f : St} (h : f.log = st.log) : evWin st f = [] := by
  unfold evWin
  rw [h, List.drop_length]

theorem log_prefix_disposeFold (fuel : Nat) (l : List Nat) (s : St) :
    s.log <+: (l.foldl (fun s c => disposeNode fuel c false s) s).log := by
  induction l generalizing s with
  | nil => exact List.prefix_refl _
  | cons c cs ihl => exact (log_prefix_disposeNode fuel c false s).trans (ihl _)

theorem log_prefix_runEffFold (fuel : Nat) (l : List Nat) (s : St) :
    s.log <+: (l.foldl (fun s e2 => step fuel (Act.runEff e2) s) s).log := by
  induction l generalizing s with
  | nil => exact List.prefix_refl _
  | cons e2 es ihl => exact (log_prefix_step fuel (Act.runEff e2) s).trans (ihl _)

theorem disposeFold_log_events (fuel : Nat) (l : List Nat) (s : St) :
    ∃ Δ, (l.foldl (fun s c => disposeNode fuel c false s) s).log = s.log ++ Δ ∧
      ∀ ev ∈ Δ, (∃ n, ev = Ev.clean n) ∨ (∃ t, ev = Ev.cleanupRun t) := by
  induction l generalizing s with
  | nil => exact ⟨[], by simp, by simp⟩
  | cons c cs ihl =>
    rcases dispose_log_events fuel c false s with ⟨Δ1, h1, hp1⟩
    rcases ihl (disposeNode fuel c false s) with ⟨Δ2, h2, hp2⟩
    refine ⟨Δ1 ++ Δ2, ?_, ?_⟩
    · rw [List.foldl_cons, h2, h1, List.append_assoc]
    · intro ev hev
      rcases List.mem_append.mp hev with hev | hev
      · exact hp1 ev hev
      · exact hp2 ev hev

/-- Dependency lists across a `track_dependency` fold (the tracked reads
of a memo recomputation): exactly the old entries plus the logged
trackings. -/
theorem depsOf_trackFold_iff (l : List (Nat × Nat)) (s : St) (E x : Nat) :
    x ∈ depsOf (l.foldl (fun s p => trackDependency p.1 s) s) E ↔
      (x ∈ depsOf s E ∨
        Ev.track E x ∈ evWin s (l.foldl (fun s p => trackDependency p.1 s) s)) := by
  induction l generalizing s with
  | nil =>
    rw [List.foldl_nil, evWin_refl]
    simp
  | cons p ps ihl =>
    rw [List.foldl_cons]
    have h01 := log_prefix_trackDependency p.1 s
    have h12 := log_prefix_trackFold ps (trackDependency p.1 s)
    rw [ihl (trackDependency p.1 s), depsOf_track_iff p.1 s E x,
      evWin_append h01 h12]
    simp [List.mem_append, or_assoc]

theorem depsOf_disposeFold (fuel : Nat) (l : List Nat) (s : St) (E : Nat)
    (h : Ev.clean E ∉ evWin s (l.foldl (fun s c => disposeNode fuel c false s) s)) :
    depsOf (l.foldl (fun s c => disposeNode fuel c false s) s) E = depsOf s E := by
  induction l generalizing s with
  | nil => rfl
  | cons c cs ihl =>
    rw [List.foldl_cons] at h ⊢
    have h01 := log_prefix_disposeNode fuel c false s
    have h12 := log_prefix_disposeFold fuel cs (disposeNode fuel c false s)
    rw [ihl _ (not_mem_evWin_right h01 h12 h),
      depsOf_dispose fuel c false s E (not_mem_evWin_left h01 h12 h)]

/-- Dependency lists across one interpreter step: as long as the step
never cleans `E`, `E`'s dependency list afterwards consists of exactly
the old entries plus the reads tracked for `E` in the window. -/
theorem deps_step : ∀ (fuel : Nat) (a : Act) (st : St) (E : Nat),
    Ev.clean E ∉ evWin st (step fuel a st) →
    ∀ x, x ∈ depsOf (step fuel a st) E ↔
      (x ∈ depsOf st E ∨ Ev.track E x ∈ evWin st (step fuel a st)) := by
  intro fuel
  induction fuel with
  | zero =>
    intro a st E _ x
    rw [show step 0 a st = st from rfl, evWin_refl]
    simp
  | succ fuel ih =>
    intro a st E hcl x
    cases a with
    | cmd c =>
      cases c with
      | skip =>
        rw [step_skip_eq] at hcl ⊢
        rw [evWin_refl]
        simp
      | seq a b =>
        rw [step_seq_eq] at hcl ⊢
        have h01 := log_prefix_step fuel (Act.cmd a) st
        have h12 := log_prefix_step fuel (Act.cmd b) (step fuel (Act.cmd a) st)
        rw [evWin_append h01 h12] at hcl ⊢
        simp only [List.mem_append, not_or] at hcl
        rw [ih (Act.cmd b) _ E hcl.2 x, ih (Act.cmd a) _ E hcl.1 x]
        simp [List.mem_append, or_assoc]
      | read sig =>
        rw [step_read_eq] at hcl ⊢
        exact depsOf_track_iff sig st E x
      | write sig ty g =>
        rw [step_cmdWrite_eq] at hcl ⊢
        exact ih _ _ E hcl x
      | newSignal ty v =>
        rw [step_newSignal_eq] at hcl ⊢
        rw [depsOf_registerSignal, evWin_nil_of_log_eq (log_registerSignal st ty v)]
        simp
      | newEffect body =>
        rw [step_newEffect_eq] at hcl ⊢
        rw [← evWin_congr_left (log_registerEffect st body)] at hcl ⊢
        rw [ih _ _ E hcl x, depsOf_registerEffect]
      | newScope body =>
        rw [step_newScope_eq] at hcl ⊢
        have hw : evWin st ({ step fuel (Act.cmd body)
            { (registerNode st NodeType.scope).2 with
              currentOwner := some (registerNode st NodeType.scope).1 } with
            currentOwner := (registerNode st NodeType.scope).2.currentOwner } : St)
            = evWin st (step fuel (Act.cmd body)
              { (registerNode st NodeType.scope).2 with
                currentOwner := some (registerNode st NodeType.scope).1 }) := rfl
        rw [hw] at hcl ⊢
        have hd : depsOf ({ step fuel (Act.cmd body)
            { (registerNode st NodeType.scope).2 with
              currentOwner := some (registerNode st NodeType.scope).1 } with
            currentOwner := (registerNode st NodeType.scope).2.currentOwner } : St) E
            = depsOf (step fuel (Act.cmd body)
              { (registerNode st NodeType.scope).2 with
                currentOwner := some (registerNode st NodeType.scope).1 }) E := rfl
        rw [hd]
        have hl1 : ({ (registerNode st NodeType.scope).2 with
            currentOwner := some (registerNode st NodeType.scope).1 } : St).log = st.log :=
          log_registerNode st NodeType.scope
        rw [← evWin_congr_left hl1] at hcl ⊢
        rw [ih (Act.cmd body) _ E hcl x]
        have hd2 : depsOf ({ (registerNode st NodeType.scope).2 with
            currentOwner := some (registerNode st NodeType.scope).1 } : St) E
            = depsOf st E := by
          show depsOf (registerNode st NodeType.scope).2 E = depsOf st E
          exact depsOf_registerNode st NodeType.scope E
        rw [hd2]
      | iteS sig v t e =>
        rw [step_iteS_eq] at hcl ⊢
        by_cases hc : (valueOf st sig).map Prod.snd = some v
        · rw [if_pos hc] at hcl ⊢
          exact ih _ _ E hcl x
        · rw [if_neg hc] at hcl ⊢
          exact ih _ _ E hcl x
      | memoStep srcs g ty backing =>
        rw [step_memo_eq] at hcl ⊢
        cases hgt : getTyped (srcs.foldl (fun s p => trackDependency p.1 s) st) backing ty with
        | none =>
          simp only [hgt] at hcl ⊢
          exact depsOf_trackFold_iff srcs st E x
        | some old =>
          simp only [hgt] at hcl ⊢
          by_cases heq : g (srcs.map (fun p => getTyped
              (srcs.foldl (fun s p => trackDependency p.1 s) st) p.1 p.2)) = old
          · rw [if_pos heq] at hcl ⊢
            exact depsOf_trackFold_iff srcs st E x
          · rw [if_neg heq] at hcl ⊢
            have h01 := log_prefix_trackFold srcs st
            have h12 := log_prefix_step fuel (Act.write backing ty (fun _ => g (srcs.map
              (fun p => getTyped (srcs.foldl (fun s p => trackDependency p.1 s) st) p.1 p.2))))
              (srcs.foldl (fun s p => trackDependency p.1 s) st)
            rw [evWin_append h01 h12] at hcl ⊢
            simp only [List.mem_append, not_or] at hcl
            rw [ih _ _ E hcl.2 x, depsOf_trackFold_iff srcs st E x]
            simp [List.mem_append, or_assoc]
    | runEff e =>
      cases ht : takeNode st e with
      | none =>
        rw [step_runEff_none fuel ht] at hcl ⊢
        rw [evWin_refl]
        simp
      | some res =>
        obtain ⟨⟨ch, cl, dp⟩, st1⟩ := res
        rw [step_runEff_eq fuel ht] at hcl ⊢
        rcases disposeFold_log_events fuel ch st1 with ⟨Δf, hΔf, hpf⟩
        have hlog4 : (unsubscribeSelf e dp (runCleanupTokens cl
            (ch.foldl (fun s c => disposeNode fuel c false s) st1))).log
            = st.log ++ ([Ev.clean e] ++ Δf ++ cl.map Ev.cleanupRun) := by
          rw [log_unsubscribeSelf, log_runCleanupTokens, hΔf, log_takeNode ht]
          simp
        cases hcomp : ((getNode st e).map Node.computation).getD none with
        | none =>
          simp only [hcomp] at hcl ⊢
          rw [evWin_of_log_eq hlog4] at hcl ⊢
          have hne : ¬ E = e := fun hEe => hcl (by rw [hEe]; simp)
          have hclf : Ev.clean E ∉ evWin st1
              (ch.foldl (fun s c => disposeNode fuel c false s) st1) := by
            intro hm
            rw [evWin_of_log_eq hΔf] at hm
            exact hcl (by simp [List.mem_append, hm])
          have hd4 : depsOf (unsubscribeSelf e dp (runCleanupTokens cl
              (ch.foldl (fun s c => disposeNode fuel c false s) st1))) E = depsOf st E := by
            rw [depsOf_unsubscribeSelf, depsOf_congr_nodes (nodes_runCleanupTokens cl _) E,
              depsOf_disposeFold fuel ch st1 E hclf, depsOf_takeNode_ne ht hne]
          rw [hd4]
          have hnt : Ev.track E x ∉ [Ev.clean e] ++ Δf ++ cl.map Ev.cleanupRun := by
            intro hm
            rcases List.mem_append.mp hm with hm | hm
            · rcases List.mem_append.mp hm with hm | hm
              · simp at hm
              · rcases hpf _ hm with ⟨n, hn⟩ | ⟨t, hn⟩ <;> simp at hn
            · rcases List.mem_map.mp hm with ⟨t, _, hn⟩
              simp at hn
          constructor
          · exact Or.inl
          · rintro (h2 | h2)
            · exact h2
            · exact absurd h2 hnt
        | some body =>
          simp only [hcomp] at hcl ⊢
          have hw : evWin st ({ step fuel (Act.cmd body) (pushLog (Ev.runEv e)
              { unsubscribeSelf e dp (runCleanupTokens cl
                  (ch.foldl (fun s c => disposeNode fuel c false s) st1)) with
                currentOwner := some e }) with
              currentOwner := (unsubscribeSelf e dp (runCleanupTokens cl
                (ch.foldl (fun s c => disposeNode fuel c false s) st1))).currentOwner } : St)
              = evWin st (step fuel (Act.cmd body) (pushLog (Ev.runEv e)
                { unsubscribeSelf e dp (runCleanupTokens cl
                    (ch.foldl (fun s c => disposeNode fuel c false s) st1)) with
                  currentOwner := some e })) := rfl
          rw [hw] at hcl ⊢
          have hd : depsOf ({ step fuel (Act.cmd body) (pushLog (Ev.runEv e)
              { unsubscribeSelf e dp (runCleanupTokens cl
                  (ch.foldl (fun s c => disposeNode fuel c false s) st1)) with
                currentOwner := some e }) with
              currentOwner := (unsubscribeSelf e dp (runCleanupTokens cl
                (ch.foldl (fun s c => disposeNode fuel c false s) st1))).currentOwner } : St) E
              = depsOf (step fuel (Act.cmd body) (pushLog (Ev.runEv e)
                { unsubscribeSelf e dp (runCleanupTokens cl
                    (ch.foldl (fun s c => disposeNode fuel c false s) st1)) with
                  currentOwner := some e })) E := rfl
          rw [hd]
          have hwin5 : evWin st (pushLog (Ev.runEv e)
              { unsubscribeSelf e dp (runCleanupTokens cl
                  (ch.foldl (fun s c => disposeNode fuel c false s) st1)) with
                currentOwner := some e })
              = [Ev.clean e] ++ Δf ++ cl.map Ev.cleanupRun ++ [Ev.runEv e] := by
            apply evWin_of_log_eq
            show (unsubscribeSelf e dp (runCleanupTokens cl
              (ch.foldl (fun s c => disposeNode fuel c false s) st1))).log ++ [Ev.runEv e]
              = st.log ++ ([Ev.clean e] ++ Δf ++ cl.map Ev.cleanupRun ++ [Ev.runEv e])
            rw [hlog4]
            simp
          have hpre5 : st.log <+: (pushLog (Ev.runEv e)
              { unsubscribeSelf e dp (runCleanupTokens cl
                  (ch.foldl (fun s c => disposeNode fuel c false s) st1)) with
                currentOwner := some e }).log := by
            refine ⟨[Ev.clean e] ++ Δf ++ cl.map Ev.cleanupRun ++ [Ev.runEv e], ?_⟩
            show st.log ++ _ = (unsubscribeSelf e dp (runCleanupTokens cl
              (ch.foldl (fun s c => disposeNode fuel c false s) st1))).log ++ [Ev.runEv e]
            rw [hlog4]
            simp
          have h12 := log_prefix_step fuel (Act.cmd body) (pushLog (Ev.runEv e)
            { unsubscribeSelf e dp (runCleanupTokens cl
                (ch.foldl (fun s c => disposeNode fuel c false s) st1)) with
              currentOwner := some e })
          rw [evWin_append hpre5 h12] at hcl ⊢
          simp only [List.mem_append, not_or] at hcl
          have hne : ¬ E = e := fun hEe => hcl.1 (by rw [hwin5, hEe]; simp)
          have hclf : Ev.clean E ∉ evWin st1
              (ch.foldl (fun s c => disposeNode fuel c false s) st1) := by
            intro hm
            rw [evWin_of_log_eq hΔf] at hm
            exact hcl.1 (by rw [hwin5]; simp [List.mem_append, hm])
          have hd5 : depsOf (pushLog (Ev.runEv e)
              { unsubscribeSelf e dp (runCleanupTokens cl
                  (ch.foldl (fun s c => disposeNode fuel c false s) st1)) with
                currentOwner := some e }) E = depsOf st E := by
            show depsOf (unsubscribeSelf e dp (runCleanupTokens cl
              (ch.foldl (fun s c => disposeNode fuel c false s) st1))) E = depsOf st E
            rw [depsOf_unsubscribeSelf, depsOf_congr_nodes (nodes_runCleanupTokens cl _) E,
              depsOf_disposeFold fuel ch st1 E hclf, depsOf_takeNode_ne ht hne]
          rw [ih (Act.cmd body) _ E hcl.2 x, hd5]
          have hnt : Ev.track E x ∉ evWin st (pushLog (Ev.runEv e)
              { unsubscribeSelf e dp (runCleanupTokens cl
                  (ch.foldl (fun s c => disposeNode fuel c false s) st1)) with
                currentOwner := some e }) := by
            rw [hwin5]
            intro hm
            rcases List.mem_append.mp hm with hm | hm
            · rcases List.mem_append.mp hm with hm | hm
              · rcases List.mem_append.mp hm with hm | hm
                · simp at hm
                · rcases hpf _ hm with ⟨n, hn⟩ | ⟨t, hn⟩ <;> simp at hn
              · rcases List.mem_map.mp hm with ⟨t, _, hn⟩
                simp at hn
            · simp at hm
          simp only [List.mem_append]
          constructor
          · rintro (h2 | h2)
            · exact Or.inl h2
            · exact Or.inr (Or.inr h2)
          · rintro (h2 | h2 | h2)
            · exact Or.inl h2
            · exact absurd h2 hnt
            · exact Or.inr h2
    | write sig ty g =>
      cases hgn : getNode st sig with
      | none =>
        rw [step_write_none fuel ty g hgn] at hcl ⊢
        rw [evWin_refl]
        simp
      | some n =>
        cases hv : n.value with
        | none =>
          rw [step_write_noval fuel ty g hgn hv] at hcl ⊢
          rw [evWin_refl]
          simp
        | some tv =>
          obtain ⟨ty', v⟩ := tv
          by_cases hty : ty' = ty
          · rw [step_write_ok fuel g hgn hv hty] at hcl ⊢
            have hfoldRunIff : ∀ (l : List Nat) (s : St),
                Ev.clean E ∉ evWin s (l.foldl (fun s e2 => step fuel (Act.runEff e2) s) s) →
                ∀ x, x ∈ depsOf (l.foldl (fun s e2 => step fuel (Act.runEff e2) s) s) E ↔
                  (x ∈ depsOf s E ∨
                    Ev.track E x ∈ evWin s (l.foldl (fun s e2 => step fuel (Act.runEff e2) s) s)) := by
              intro l
              induction l with
              | nil =>
                intro s _ x
                rw [List.foldl_nil, evWin_refl]
                simp
              | cons e2 es ihl =>
                intro s hcl2 x
                rw [List.foldl_cons] at hcl2 ⊢
                have h01 := log_prefix_step fuel (Act.runEff e2) s
                have h12 := log_prefix_runEffFold fuel es (step fuel (Act.runEff e2) s)
                rw [evWin_append h01 h12] at hcl2 ⊢
                simp only [List.mem_append, not_or] at hcl2
                rw [ihl _ hcl2.2 x, ih (Act.runEff e2) s E hcl2.1 x]
                simp [List.mem_append, or_assoc]
            have hpre2 : st.log <+: (pushLog (Ev.notify sig (getDependents (updNode st sig
                (fun m => { m with value := some (ty, g v) })) sig))
                (updNode st sig (fun m => { m with value := some (ty, g v) }))).log := by
              refine ⟨[Ev.notify sig (getDependents (updNode st sig
                (fun m => { m with value := some (ty, g v) })) sig)], ?_⟩
              rfl
            have h12 := log_prefix_runEffFold fuel (getDependents (updNode st sig
              (fun m => { m with value := some (ty, g v) })) sig)
              (pushLog (Ev.notify sig (getDependents (updNode st sig
                (fun m => { m with value := some (ty, g v) })) sig))
                (updNode st sig (fun m => { m with value := some (ty, g v) })))
            rw [evWin_append hpre2 h12] at hcl ⊢
            simp only [List.mem_append, not_or] at hcl
            rw [hfoldRunIff _ _ hcl.2 x]
            have hd2 : depsOf (pushLog (Ev.notify sig (getDependents (updNode st sig
                (fun m => { m with value := some (ty, g v) })) sig))
                (updNode st sig (fun m => { m with value := some (ty, g v) }))) E
                = depsOf st E := by
              show depsOf (updNode st sig
                (fun m => { m with value := some (ty, g v) })) E = depsOf st E
              refine depsOf_updNode_keep ?_ E
              intro m
              rfl
            rw [hd2]
            have hw2 : evWin st (pushLog (Ev.notify sig (getDependents (updNode st sig
                (fun m => { m with value := some (ty, g v) })) sig))
                (updNode st sig (fun m => { m with value := some (ty, g v) })))
                = [Ev.notify sig (getDependents (updNode st sig
                  (fun m => { m with value := some (ty, g v) })) sig)] := by
              apply evWin_of_log_eq
              rfl
            have hnt : Ev.track E x ∉ evWin st (pushLog (Ev.notify sig (getDependents
                (updNode st sig (fun m => { m with value := some (ty, g v) })) sig))
                (updNode st sig (fun m => { m with value := some (ty, g v) }))) := by
              rw [hw2]
              simp
            simp only [List.mem_append]
            constructor
            · rintro (h2 | h2)
              · exact Or.inl h2
              · exact Or.inr (Or.inr h2)
            · rintro (h2 | h2 | h2)
              · exact Or.inl h2
              · exact absurd h2 hnt
              · exact Or.inr h2
          · rw [step_write_mismatch fuel g hgn hv hty] at hcl ⊢
            rw [evWin_refl]
            simp

theorem getDependents_eq_subsOf (st : St) (sig : Nat) :
    getDependents st sig = subsOf st sig := by
  unfold getDependents subsOf
  cases getNode st sig <;> rfl

theorem depsOf_takeNode_self {st st1 : St} {x : Nat} {ch cl dp : List Nat}
    (ht : takeNode st x = some ((ch, cl, dp), st1)) : depsOf st1 x = [] := by
  unfold takeNode at ht
  cases hgn : getNode st x with
  | none =>
    rw [hgn] at ht
    exact absurd ht (by simp)
  | some n =>
    rw [hgn] at ht
    cases ht
    show depsOf (updNode st x
      (fun m => { m with children := [], cleanups := [], dependencies := [] })) x = []
    unfold depsOf
    rw [getNode_updNode, if_pos rfl, hgn]
    rfl

/-- With the exception row `(e, [])` active (mid `run_effect`, after the
unsubscription loop), `e` is in no subscriber list. -/
theorem not_sub_of_invl_exc {st : St} {e : Nat} (h : InvL st [(e, [])]) (S : Nat) :
    e ∉ subsOf st S := by
  rw [invl_iff_invG] at h
  obtain ⟨hK, hB, hO, hS, hN, hG, hU, hL, hE⟩ := h
  intro hmem
  unfold subsOf at hmem
  cases hgS : getNode st S with
  | none =>
    rw [hgS] at hmem
    simp at hmem
  | some nS =>
    rw [hgS] at hmem
    simp only [Option.map_some', Option.getD_some] at hmem
    have hsome := hL S nS hgS e hmem
    cases hge : getNode st e with
    | none =>
      rw [hge] at hsome
      simp at hsome
    | some ne =>
      have hiff := hS S nS e ne hgS hge
      rw [show assocFind [(e, ([] : List Nat))] e = some [] by simp [assocFind]] at hiff
      simp only [Option.getD_some] at hiff
      exact absurd (hiff.mp hmem) (List.not_mem_nil S)

/-- The state of `run_effect(e)` right after the old dependencies have
been unsubscribed satisfies the invariant with the single exception row
`(e, [])`. -/
theorem runEff_mid_invl {st st1 : St} {e : Nat} {ch cl dp : List Nat} (fuel : Nat)
    (h : Inv st) (ht : takeNode st e = some ((ch, cl, dp), st1)) :
    InvL (unsubscribeSelf e dp (runCleanupTokens cl
      (ch.foldl (fun s c => disposeNode fuel c false s) st1))) [(e, [])] := by
  rcases invl_takeNode h (by simp) ht with ⟨h1, hgt, _, _, _⟩
  have h2 : InvL (ch.foldl (fun s c => disposeNode fuel c false s) st1) [(e, dp)] := by
    refine invl_disposeFold fuel ch st1 _ h1 ?_
    intro c hc pe hpe
    rcases List.mem_cons.mp hpe with hpe | hpe
    · rw [hpe]
      exact hgt c hc
    · simp at hpe
  exact invl_unsub (invl_runCleanupTokens cl h2)

/-- C3: after a single run of effect `E` (`run_effect` on a node with a
computation, cleaning `E` exactly once) during which `E` does not read
`S`, `E`'s dependency list holds exactly the signals whose reads were
tracked for `E` on that run, `E` is absent from `S`'s subscriber list,
and the snapshot a subsequent write to `S` would flush
(`get_dependents`) does not contain `E` — so that write does not re-run
`E`. -/
theorem spec_c3_dynamic_pruning (fuel : Nat) (st : St) (E S : Nat)
    {ch cl dp : List Nat} {st1 : St} {body : Cmd}
    (hInv : Inv st)
    (ht : takeNode st E = some ((ch, cl, dp), st1))
    (hcomp : ((getNode st E).map Node.computation).getD none = some body)
    (honce : (evWin st (step (fuel + 1) (Act.runEff E) st)).count (Ev.clean E) = 1)
    (hnotrack : Ev.track E S ∉ evWin st (step (fuel + 1) (Act.runEff E) st)) :
    (∀ x, x ∈ depsOf (step (fuel + 1) (Act.runEff E) st) E ↔
        Ev.track E x ∈ evWin st (step (fuel + 1) (Act.runEff E) st))
    ∧ E ∉ subsOf (step (fuel + 1) (Act.runEff E) st) S
    ∧ E ∉ getDependents (step (fuel + 1) (Act.runEff E) st) S := by
  have hwO : ∀ (T T2 : St) (o : Option Nat),
      evWin T { T2 with currentOwner := o } = evWin T T2 := fun T T2 o => rfl
  have hdO : ∀ (T : St) (o : Option Nat) (j : Nat),
      depsOf { T with currentOwner := o } j = depsOf T j := fun T o j => rfl
  have hsO : ∀ (T : St) (o : Option Nat) (j : Nat),
      subsOf { T with currentOwner := o } j = subsOf T j := fun T o j => rfl
  have hgO : ∀ (T : St) (o : Option Nat) (j : Nat),
      getDependents { T with currentOwner := o } j = getDependents T j := fun T o j => rfl
  rw [step_runEff_eq fuel ht] at honce hnotrack ⊢
  simp only [hcomp] at honce hnotrack ⊢
  simp only [hwO, hdO, hsO, hgO] at honce hnotrack ⊢
  rcases disposeFold_log_events fuel ch st1 with ⟨Δf, hΔf, hpf⟩
  have hlog4 : (unsubscribeSelf E dp (runCleanupTokens cl
      (ch.foldl (fun s c => disposeNode fuel c false s) st1))).log
      = st.log ++ ([Ev.clean E] ++ Δf ++ cl.map Ev.cleanupRun) := by
    rw [log_unsubscribeSelf, log_runCleanupTokens, hΔf, log_takeNode ht]
    simp
  have hwin5 : evWin st (pushLog (Ev.runEv E)
      { nodes := (unsubscribeSelf E dp (runCleanupTokens cl
          (ch.foldl (fun s c => disposeNode fuel c false s) st1))).nodes, nextId := (unsubscribeSelf E dp (runCleanupTokens cl
          (ch.foldl (fun s c => disposeNode fuel c false s) st1))).nextId,
        currentOwner := some E, log := (unsubscribeSelf E dp (runCleanupTokens cl
          (ch.foldl (fun s c => disposeNode fuel c false s) st1))).log })
      = [Ev.clean E] ++ Δf ++ cl.map Ev.cleanupRun ++ [Ev.runEv E] := by
    apply evWin_of_log_eq
    show (unsubscribeSelf E dp (runCleanupTokens cl
      (ch.foldl (fun s c => disposeNode fuel c false s) st1))).log ++ [Ev.runEv E]
      = st.log ++ ([Ev.clean E] ++ Δf ++ cl.map Ev.cleanupRun ++ [Ev.runEv E])
    rw [hlog4]
    simp
  have hpre5 : st.log <+: (pushLog (Ev.runEv E)
      { nodes := (unsubscribeSelf E dp (runCleanupTokens cl
          (ch.foldl (fun s c => disposeNode fuel c false s) st1))).nodes, nextId := (unsubscribeSelf E dp (runCleanupTokens cl
          (ch.foldl (fun s c => disposeNode fuel c false s) st1))).nextId,
        currentOwner := some E, log := (unsubscribeSelf E dp (runCleanupTokens cl
          (ch.foldl (fun s c => disposeNode fuel c false s) st1))).log }).log := by
    refine ⟨[Ev.clean E] ++ Δf ++ cl.map Ev.cleanupRun ++ [Ev.runEv E], ?_⟩
    show st.log ++ _ = (unsubscribeSelf E dp (runCleanupTokens cl
      (ch.foldl (fun s c => disposeNode fuel c false s) st1))).log ++ [Ev.runEv E]
    rw [hlog4]
    simp
  have h12 := log_prefix_step fuel (Act.cmd body) (pushLog (Ev.runEv E)
      { nodes := (unsubscribeSelf E dp (runCleanupTokens cl
          (ch.foldl (fun s c => disposeNode fuel c false s) st1))).nodes, nextId := (unsubscribeSelf E dp (runCleanupTokens cl
          (ch.foldl (fun s c => disposeNode fuel c false s) st1))).nextId,
        currentOwner := some E, log := (unsubscribeSelf E dp (runCleanupTokens cl
          (ch.foldl (fun s c => disposeNode fuel c false s) st1))).log })
  rw [evWin_append hpre5 h12, hwin5] at honce hnotrack ⊢
  simp only [List.count_append] at honce
  have hc1 : ([Ev.clean E] : List Ev).count (Ev.clean E) = 1 := by simp
  have hmap0 : (cl.map Ev.cleanupRun).count (Ev.clean E) = 0 := by
    rw [List.count_eq_zero]
    intro hm
    rcases List.mem_map.mp hm with ⟨t, _, hn⟩
    simp at hn
  have hrun0 : ([Ev.runEv E] : List Ev).count (Ev.clean E) = 0 := by simp
  rw [hc1, hmap0, hrun0] at honce
  have hΔ0 : Δf.count (Ev.clean E) = 0 := by omega
  have hW20 : (evWin (pushLog (Ev.runEv E)
      { nodes := (unsubscribeSelf E dp (runCleanupTokens cl
          (ch.foldl (fun s c => disposeNode fuel c false s) st1))).nodes, nextId := (unsubscribeSelf E dp (runCleanupTokens cl
          (ch.foldl (fun s c => disposeNode fuel c false s) st1))).nextId,
        currentOwner := some E, log := (unsubscribeSelf E dp (runCleanupTokens cl
          (ch.foldl (fun s c => disposeNode fuel c false s) st1))).log })
      (step fuel (Act.cmd body) (pushLog (Ev.runEv E)
      { nodes := (unsubscribeSelf E dp (runCleanupTokens cl
          (ch.foldl (fun s c => disposeNode fuel c false s) st1))).nodes, nextId := (unsubscribeSelf E dp (runCleanupTokens cl
          (ch.foldl (fun s c => disposeNode fuel c false s) st1))).nextId,
        currentOwner := some E, log := (unsubscribeSelf E dp (runCleanupTokens cl
          (ch.foldl (fun s c => disposeNode fuel c false s) st1))).log }))).count (Ev.clean E) = 0 := by omega
  have hclΔ : Ev.clean E ∉ Δf := List.count_eq_zero.mp hΔ0
  have hcl2 : Ev.clean E ∉ evWin (pushLog (Ev.runEv E)
      { nodes := (unsubscribeSelf E dp (runCleanupTokens cl
          (ch.foldl (fun s c => disposeNode fuel c false s) st1))).nodes, nextId := (unsubscribeSelf E dp (runCleanupTokens cl
          (ch.foldl (fun s c => disposeNode fuel c false s) st1))).nextId,
        currentOwner := some E, log := (unsubscribeSelf E dp (runCleanupTokens cl
          (ch.foldl (fun s c => disposeNode fuel c false s) st1))).log })
      (step fuel (Act.cmd body) (pushLog (Ev.runEv E)
      { nodes := (unsubscribeSelf E dp (runCleanupTokens cl
          (ch.foldl (fun s c => disposeNode fuel c false s) st1))).nodes, nextId := (unsubscribeSelf E dp (runCleanupTokens cl
          (ch.foldl (fun s c => disposeNode fuel c false s) st1))).nextId,
        currentOwner := some E, log := (unsubscribeSelf E dp (runCleanupTokens cl
          (ch.foldl (fun s c => disposeNode fuel c false s) st1))).log })) := List.count_eq_zero.mp hW20
  have hclf : Ev.clean E ∉ evWin st1
      (ch.foldl (fun s c => disposeNode fuel c false s) st1) := by
    rw [evWin_of_log_eq hΔf]
    exact hclΔ
  have hdeps5 : depsOf (pushLog (Ev.runEv E)
      { nodes := (unsubscribeSelf E dp (runCleanupTokens cl
          (ch.foldl (fun s c => disposeNode fuel c false s) st1))).nodes, nextId := (unsubscribeSelf E dp (runCleanupTokens cl
          (ch.foldl (fun s c => disposeNode fuel c false s) st1))).nextId,
        currentOwner := some E, log := (unsubscribeSelf E dp (runCleanupTokens cl
          (ch.foldl (fun s c => disposeNode fuel c false s) st1))).log }) E = [] := by
    show depsOf (unsubscribeSelf E dp (runCleanupTokens cl
      (ch.foldl (fun s c => disposeNode fuel c false s) st1))) E = []
    rw [depsOf_unsubscribeSelf, depsOf_congr_nodes (nodes_runCleanupTokens cl _) E,
      depsOf_disposeFold fuel ch st1 E hclf, depsOf_takeNode_self ht]
  have hmain := deps_step fuel (Act.cmd body) (pushLog (Ev.runEv E)
      { nodes := (unsubscribeSelf E dp (runCleanupTokens cl
          (ch.foldl (fun s c => disposeNode fuel c false s) st1))).nodes, nextId := (unsubscribeSelf E dp (runCleanupTokens cl
          (ch.foldl (fun s c => disposeNode fuel c false s) st1))).nextId,
        currentOwner := some E, log := (unsubscribeSelf E dp (runCleanupTokens cl
          (ch.foldl (fun s c => disposeNode fuel c false s) st1))).log }) E hcl2
  have hsubcore : E ∉ subsOf (step fuel (Act.cmd body) (pushLog (Ev.runEv E)
      { nodes := (unsubscribeSelf E dp (runCleanupTokens cl
          (ch.foldl (fun s c => disposeNode fuel c false s) st1))).nodes, nextId := (unsubscribeSelf E dp (runCleanupTokens cl
          (ch.foldl (fun s c => disposeNode fuel c false s) st1))).nextId,
        currentOwner := some E, log := (unsubscribeSelf E dp (runCleanupTokens cl
          (ch.foldl (fun s c => disposeNode fuel c false s) st1))).log })) S := by
    intro hmem
    rcases subs_step fuel (Act.cmd body) _ S E hmem with h2 | h2
    · exact not_sub_of_invl_exc (runEff_mid_invl fuel hInv ht) S h2
    · exact hnotrack (List.mem_append.mpr (Or.inr h2))
  refine ⟨?_, hsubcore, ?_⟩
  · intro x
    rw [hmain x, hdeps5]
    have hnt1 : Ev.track E x ∉ [Ev.clean E] ++ Δf ++ cl.map Ev.cleanupRun ++ [Ev.runEv E] := by
      intro hm
      rcases List.mem_append.mp hm with hm | hm
      · rcases List.mem_append.mp hm with hm | hm
        · rcases List.mem_append.mp hm with hm | hm
          · simp at hm
          · rcases hpf _ hm with ⟨n, hn⟩ | ⟨t, hn⟩ <;> simp at hn
        · rcases List.mem_map.mp hm with ⟨t, _, hn⟩
          simp at hn
      · simp at hm
    constructor
    · rintro (h2 | h2)
      · simp at h2
      · exact List.mem_append.mpr (Or.inr h2)
    · intro h2
      rcases List.mem_append.mp h2 with h2 | h2
      · exact absurd h2 hnt1
      · exact Or.inr h2
  · rw [getDependents_eq_subsOf]
    exact hsubcore

/-- Reachability along `children` edges: `Desc st x e` holds when `e`
lies in the ownership subtree rooted at `x` as stored in `st`'s arena
(`e` was created under `x`, transitively). -/
inductive Desc (st : St) : Nat → Nat → Prop
  | refl (x : Nat) : Desc st x x
  | step {x y z : Nat} : Desc st x y → z ∈ childrenOf st y → Desc st x z

theorem desc_trans {st : St} {a b c : Nat} (h1 : Desc st a b) (h2 : Desc st b c) :
    Desc st a c := by
  induction h2 with
  | refl => exact h1
  | step h hz ih => exact Desc.step ih hz

theorem childrenOf_mem_getNode {st : St} {y z : Nat} (h : z ∈ childrenOf st y) :
    ∃ n, getNode st y = some n ∧ z ∈ n.children := by
  unfold childrenOf at h
  cases hg : getNode st y with
  | none =>
    rw [hg] at h
    simp at h
  | some n =>
    rw [hg] at h
    exact ⟨n, rfl, by simpa using h⟩

theorem childrenOf_none {st : St} {y : Nat} (h : getNode st y = none) :
    childrenOf st y = [] := by
  unfold childrenOf
  rw [h]
  rfl

theorem desc_head {st : St} {x e : Nat} (h : Desc st x e) :
    e = x ∨ ∃ c ∈ childrenOf st x, Desc st c e := by
  induction h with
  | refl => exact Or.inl rfl
  | step h hz ih =>
    rcases ih with rfl | ⟨c, hc, hd⟩
    · exact Or.inr ⟨_, hz, Desc.refl _⟩
    · exact Or.inr ⟨c, hc, Desc.step hd hz⟩

theorem desc_le {st : St} {exs : List (Nat × List Nat)} (hI : InvL st exs)
    {a b : Nat} (h : Desc st a b) : a ≤ b := by
  induction h with
  | refl => exact Nat.le_refl _
  | step h hz ih =>
    rcases childrenOf_mem_getNode hz with ⟨n, hg, hzn⟩
    have hlt := ((invl_iff_invG st exs).mp hI).2.2.2.2.2.1 _ _ hg _ hzn
    omega

theorem desc_lift {s1 s2 : St} (hsub : ∀ y, childrenOf s2 y ⊆ childrenOf s1 y)
    {a b : Nat} (h : Desc s2 a b) : Desc s1 a b := by
  induction h with
  | refl => exact Desc.refl _
  | step h hz ih => exact Desc.step ih (hsub _ hz)

/-- `childUniq` + `childGt` make the ownership graph a forest: two
ancestors of the same node are comparable. -/
theorem desc_tree {st : St} {exs : List (Nat × List Nat)} (hI : InvL st exs) :
    ∀ j a b, Desc st a j → Desc st b j → Desc st a b ∨ Desc st b a := by
  intro j
  induction j using Nat.strong_induction_on with
  | _ j ih =>
    intro a b ha hb
    cases ha with
    | refl => exact Or.inr hb
    | step hy hz =>
      rename_i y
      cases hb with
      | refl => exact Or.inl (Desc.step hy hz)
      | step hy2 hz2 =>
        rename_i y2
        rcases childrenOf_mem_getNode hz with ⟨n, hg, hzn⟩
        rcases childrenOf_mem_getNode hz2 with ⟨m, hg2, hzm⟩
        obtain ⟨hK, hB, hO, hS, hN, hG, hU, hL, hE⟩ := (invl_iff_invG st exs).mp hI
        have hyy : y = y2 := hU _ _ _ _ hg hg2 j hzn hzm
        subst hyy
        have hylt : y < j := hG _ _ hg _ hzn
        exact ih y hylt a b hy hy2

/-- Subtrees of two distinct children of the same node are disjoint. -/
theorem desc_sibling_disjoint {st : St} {exs : List (Nat × List Nat)} (hI : InvL st exs)
    {x c c' j : Nat} (hne : c ≠ c') (hc : c ∈ childrenOf st x) (hc' : c' ∈ childrenOf st x)
    (hd : Desc st c j) (hd' : Desc st c' j) : False := by
  have key : ∀ u v : Nat, u ≠ v → u ∈ childrenOf st x → v ∈ childrenOf st x →
      Desc st u v → False := by
    intro u v huv hu hv hduv
    cases hduv with
    | refl => exact huv rfl
    | step hy hz =>
      rename_i y
      rcases childrenOf_mem_getNode hz with ⟨n, hg, hzn⟩
      rcases childrenOf_mem_getNode hv with ⟨m, hg2, hvm⟩
      obtain ⟨hK, hB, hO, hS, hN, hG, hU, hL, hE⟩ := (invl_iff_invG st exs).mp hI
      have hyx : y = x := hU _ _ _ _ hg hg2 v hzn hvm
      subst hyx
      have hux : u ≤ y := desc_le hI hy
      rcases childrenOf_mem_getNode hu with ⟨m2, hg3, hum⟩
      have hm2 : m2 = n := by
        have := hg3.symm.trans hg
        exact Option.some.inj this
      subst hm2
      have hyu : y < u := hG _ _ hg _ hum
      omega
  rcases desc_tree hI j c c' hd hd' with h | h
  · exact key c c' hne hc hc' h
  · exact key c' c (Ne.symm hne) hc' hc h

theorem getNode_updNode_none {st : St} {i : Nat} {g : Node → Node} {j : Nat} :
    getNode (updNode st i g) j = none ↔ getNode st j = none := by
  rw [getNode_updNode]
  by_cases hj : j = i
  · rw [if_pos hj, hj]
    cases getNode st i <;> simp
  · rw [if_neg hj]

theorem getNode_takeNode_ne {st st1 : St} {x : Nat} {ch cl dp : List Nat}
    (ht : takeNode st x = some ((ch, cl, dp), st1)) {j : Nat} (hj : ¬ j = x) :
    getNode st1 j = getNode st j := by
  unfold takeNode at ht
  cases hgn : getNode st x with
  | none =>
    rw [hgn] at ht
    exact absurd ht (by simp)
  | some n =>
    rw [hgn] at ht
    cases ht
    rw [getNode_pushLog, getNode_updNode, if_neg hj]

theorem childrenOf_takeNode_ne {st st1 : St} {x : Nat} {ch cl dp : List Nat}
    (ht : takeNode st x = some ((ch, cl, dp), st1)) {j : Nat} (hj : ¬ j = x) :
    childrenOf st1 j = childrenOf st j := by
  unfold childrenOf
  rw [getNode_takeNode_ne ht hj]

theorem cleanupsOf_takeNode_ne {st st1 : St} {x : Nat} {ch cl dp : List Nat}
    (ht : takeNode st x = some ((ch, cl, dp), st1)) {j : Nat} (hj : ¬ j = x) :
    cleanupsOf st1 j = cleanupsOf st j := by
  unfold cleanupsOf
  rw [getNode_takeNode_ne ht hj]

theorem childrenOf_takeNode_self {st st1 : St} {x : Nat} {ch cl dp : List Nat}
    (ht : takeNode st x = some ((ch, cl, dp), st1)) : childrenOf st1 x = [] := by
  unfold takeNode at ht
  cases hgn : getNode st x with
  | none =>
    rw [hgn] at ht
    exact absurd ht (by simp)
  | some n =>
    rw [hgn] at ht
    cases ht
    unfold childrenOf
    rw [getNode_pushLog, getNode_updNode, if_pos rfl, hgn]
    rfl

theorem childrenOf_takeNode_subset {st st1 : St} {x : Nat} {ch cl dp : List Nat}
    (ht : takeNode st x = some ((ch, cl, dp), st1)) (y : Nat) :
    childrenOf st1 y ⊆ childrenOf st y := by
  by_cases hy : y = x
  · subst hy
    rw [childrenOf_takeNode_self ht]
    exact List.nil_subset _
  · rw [childrenOf_takeNode_ne ht hy]
    exact List.Subset.refl _

theorem getNode_takeNode_none_iff {st st1 : St} {x : Nat} {ch cl dp : List Nat}
    (ht : takeNode st x = some ((ch, cl, dp), st1)) (j : Nat) :
    getNode st1 j = none ↔ getNode st j = none := by
  by_cases hj : j = x
  · subst hj
    unfold takeNode at ht
    cases hgn : getNode st j with
    | none =>
      rw [hgn] at ht
      exact absurd ht (by simp)
    | some n =>
      rw [hgn] at ht
      cases ht
      rw [getNode_pushLog, getNode_updNode, if_pos rfl, hgn]
      simp
  · rw [getNode_takeNode_ne ht hj]

theorem childrenOf_unsub (x : Nat) (dp : List Nat) (st : St) (j : Nat) :
    childrenOf (unsubscribeSelf x dp st) j = childrenOf st j := by
  induction dp generalizing st with
  | nil => rfl
  | cons d rest ih =>
    rw [show unsubscribeSelf x (d :: rest) st = unsubscribeSelf x rest
      (updNode st d (fun n => { n with subscribers := removeFirst x n.subscribers })) from rfl]
    rw [ih]
    unfold childrenOf
    rw [getNode_updNode]
    by_cases hj : j = d
    · rw [if_pos hj, hj]
      cases getNode st d <;> rfl
    · rw [if_neg hj]

theorem cleanupsOf_unsub (x : Nat) (dp : List Nat) (st : St) (j : Nat) :
    cleanupsOf (unsubscribeSelf x dp st) j = cleanupsOf st j := by
  induction dp generalizing st with
  | nil => rfl
  | cons d rest ih =>
    rw [show unsubscribeSelf x (d :: rest) st = unsubscribeSelf x rest
      (updNode st d (fun n => { n with subscribers := removeFirst x n.subscribers })) from rfl]
    rw [ih]
    unfold cleanupsOf
    rw [getNode_updNode]
    by_cases hj : j = d
    · rw [if_pos hj, hj]
      cases getNode st d <;> rfl
    · rw [if_neg hj]

theorem getNode_unsub_none (x : Nat) (dp : List Nat) (st : St) (j : Nat) :
    getNode (unsubscribeSelf x dp st) j = none ↔ getNode st j = none := by
  induction dp generalizing st with
  | nil => exact Iff.rfl
  | cons d rest ih =>
    rw [show unsubscribeSelf x (d :: rest) st = unsubscribeSelf x rest
      (updNode st d (fun n => { n with subscribers := removeFirst x n.subscribers })) from rfl]
    rw [ih]
    exact getNode_updNode_none

theorem childrenOf_runCleanupTokens (cl : List Nat) (st : St) (j : Nat) :
    childrenOf (runCleanupTokens cl st) j = childrenOf st j := by
  unfold childrenOf
  rw [getNode_runCleanupTokens]

theorem cleanupsOf_runCleanupTokens (cl : List Nat) (st : St) (j : Nat) :
    cleanupsOf (runCleanupTokens cl st) j = cleanupsOf st j := by
  unfold cleanupsOf
  rw [getNode_runCleanupTokens]

theorem childrenOf_updNode_removeFirst_subset (st : St) (p x j : Nat) :
    childrenOf (updNode st p (fun n => { n with children := removeFirst x n.children })) j
      ⊆ childrenOf st j := by
  intro z hz
  unfold childrenOf at hz ⊢
  rw [getNode_updNode] at hz
  by_cases hj : j = p
  · rw [if_pos hj] at hz
    cases hg : getNode st p with
    | none =>
      rw [hg] at hz
      simp at hz
    | some n =>
      rw [hg] at hz
      simp only [Option.map_some', Option.getD_some] at hz
      rw [hj, hg]
      simp only [Option.map_some', Option.getD_some]
      exact removeFirst_subset hz
  · rw [if_neg hj] at hz
    exact hz

/-- Disposal never inserts arena entries. -/
theorem getNode_dispose_none_mono : ∀ (fuel x : Nat) (b : Bool) (st : St) (j : Nat),
    getNode st j = none → getNode (disposeNode fuel x b st) j = none := by
  intro fuel
  induction fuel with
  | zero =>
    intro x b st j h
    simpa [disposeNode] using h
  | succ fuel ih =>
    intro x b st j h
    rw [disposeNode]
    cases ht : takeNode st x with
    | none =>
      rw [getNode_removeNode]
      by_cases hj : j = x
      · rw [if_pos hj]
      · rw [if_neg hj]
        exact h
    | some res =>
      obtain ⟨⟨ch, cl, dp⟩, st1⟩ := res
      simp only
      have hfold : ∀ (l : List Nat) (s : St) (j : Nat), getNode s j = none →
          getNode (l.foldl (fun s c => disposeNode fuel c false s) s) j = none := by
        intro l
        induction l with
        | nil =>
          intro s j h
          exact h
        | cons c cs ihl =>
          intro s j h
          exact ihl _ j (ih c false s j h)
      have h4 : getNode (unsubscribeSelf x dp (runCleanupTokens cl
          (ch.foldl (fun s c => disposeNode fuel c false s) st1))) j = none := by
        rw [getNode_unsub_none, getNode_runCleanupTokens]
        exact hfold ch st1 j ((getNode_takeNode_none_iff ht j).mpr h)
      cases b with
      | false =>
        rw [if_neg Bool.false_ne_true, getNode_removeNode]
        by_cases hj : j = x
        · rw [if_pos hj]
        · rw [if_neg hj]
          exact h4
      | true =>
        rw [if_pos rfl]
        cases (getNode (unsubscribeSelf x dp
            (runCleanupTokens cl (ch.foldl (fun s c => disposeNode fuel c false s) st1))) x).bind
            Node.parent with
        | none =>
          rw [getNode_removeNode]
          by_cases hj : j = x
          · rw [if_pos hj]
          · rw [if_neg hj]
            exact h4
        | some p =>
          rw [getNode_removeNode]
          by_cases hj : j = x
          · rw [if_pos hj]
          · rw [if_neg hj]
            exact getNode_updNode_none.mpr h4

theorem getNode_disposeFold_none_mono (fuel : Nat) (l : List Nat) (s : St) (j : Nat)
    (h : getNode s j = none) :
    getNode (l.foldl (fun s c => disposeNode fuel c false s) s) j = none := by
  induction l generalizing s with
  | nil => exact h
  | cons c cs ihl => exact ihl _ (getNode_dispose_none_mono fuel c false s j h)

/-- Disposal only shrinks `children` lists. -/
theorem childrenOf_dispose_subset : ∀ (fuel x : Nat) (b : Bool) (st : St) (j : Nat),
    childrenOf (disposeNode fuel x b st) j ⊆ childrenOf st j := by
  intro fuel
  induction fuel with
  | zero =>
    intro x b st j
    rw [show disposeNode 0 x b st = st from rfl]
    exact List.Subset.refl _
  | succ fuel ih =>
    intro x b st j
    rw [disposeNode]
    cases ht : takeNode st x with
    | none =>
      intro z hz
      unfold childrenOf at hz
      rw [getNode_removeNode] at hz
      by_cases hj : j = x
      · rw [if_pos hj] at hz
        simp at hz
      · rw [if_neg hj] at hz
        exact hz
    | some res =>
      obtain ⟨⟨ch, cl, dp⟩, st1⟩ := res
      simp only
      have hfold : ∀ (l : List Nat) (s : St) (j : Nat),
          childrenOf (l.foldl (fun s c => disposeNode fuel c false s) s) j
            ⊆ childrenOf s j := by
        intro l
        induction l with
        | nil =>
          intro s j
          exact List.Subset.refl _
        | cons c cs ihl =>
          intro s j
          exact (ihl _ j).trans (ih c false s j)
      have hstep : ∀ (s5 : St),
          childrenOf s5 j ⊆ childrenOf (unsubscribeSelf x dp (runCleanupTokens cl
            (ch.foldl (fun s c => disposeNode fuel c false s) st1))) j →
          childrenOf (removeNode s5 x) j ⊆ childrenOf st j := by
        intro s5 hs5 z hz
        unfold childrenOf at hz
        rw [getNode_removeNode] at hz
        by_cases hj : j = x
        · rw [if_pos hj] at hz
          simp at hz
        · rw [if_neg hj] at hz
          have hz3 := hs5 hz
          rw [childrenOf_unsub, childrenOf_runCleanupTokens] at hz3
          exact childrenOf_takeNode_subset ht j (hfold ch st1 j hz3)
      cases b with
      | false =>
        rw [if_neg Bool.false_ne_true]
        exact hstep _ (List.Subset.refl _)
      | true =>
        rw [if_pos rfl]
        cases (getNode (unsubscribeSelf x dp
            (runCleanupTokens cl (ch.foldl (fun s c => disposeNode fuel c false s) st1))) x).bind
            Node.parent with
        | none => exact hstep _ (List.Subset.refl _)
        | some p => exact hstep _ (childrenOf_updNode_removeFirst_subset _ p x j)

/-- A node surviving an internal disposal (`remove_from_parent = false`)
keeps its `children` and `cleanups` lists, and was present before. -/
theorem dispose_survivor : ∀ (fuel x : Nat) (st : St) (j : Nat),
    getNode (disposeNode fuel x false st) j ≠ none →
    childrenOf (disposeNode fuel x false st) j = childrenOf st j ∧
    cleanupsOf (disposeNode fuel x false st) j = cleanupsOf st j ∧
    getNode st j ≠ none := by
  intro fuel
  induction fuel with
  | zero =>
    intro x st j h
    exact ⟨rfl, rfl, h⟩
  | succ fuel ih =>
    intro x st j hp
    rw [disposeNode] at hp ⊢
    cases ht : takeNode st x with
    | none =>
      rw [ht] at hp
      simp only at hp
      have hj : ¬ j = x := by
        intro he
        rw [getNode_removeNode, if_pos he] at hp
        exact hp rfl
      rw [getNode_removeNode, if_neg hj] at hp
      constructor
      · unfold childrenOf
        rw [getNode_removeNode, if_neg hj]
      constructor
      · unfold cleanupsOf
        rw [getNode_removeNode, if_neg hj]
      · exact hp
    | some res =>
      obtain ⟨⟨ch, cl, dp⟩, st1⟩ := res
      rw [ht] at hp
      simp only at hp ⊢
      rw [if_neg Bool.false_ne_true] at hp ⊢
      have hfoldS : ∀ (l : List Nat) (s : St) (j : Nat),
          getNode (l.foldl (fun s c => disposeNode fuel c false s) s) j ≠ none →
          childrenOf (l.foldl (fun s c => disposeNode fuel c false s) s) j = childrenOf s j ∧
          cleanupsOf (l.foldl (fun s c => disposeNode fuel c false s) s) j = cleanupsOf s j ∧
          getNode s j ≠ none := by
        intro l
        induction l with
        | nil =>
          intro s j h
          exact ⟨rfl, rfl, h⟩
        | cons c cs ihl =>
          intro s j h
          rw [List.foldl_cons] at h ⊢
          rcases ihl _ j h with ⟨h1, h2, h3⟩
          rcases ih c s j h3 with ⟨h4, h5, h6⟩
          exact ⟨h1.trans h4, h2.trans h5, h6⟩
      have hj : ¬ j = x := by
        intro he
        rw [getNode_removeNode, if_pos he] at hp
        exact hp rfl
      rw [getNode_removeNode, if_neg hj] at hp
      have hp3 : getNode (ch.foldl (fun s c => disposeNode fuel c false s) st1) j ≠ none := by
        rw [ne_eq, getNode_unsub_none, getNode_runCleanupTokens] at hp
        exact hp
      rcases hfoldS ch st1 j hp3 with ⟨hc1, hc2, hc3⟩
      have hrm1 : childrenOf (removeNode (unsubscribeSelf x dp (runCleanupTokens cl
          (ch.foldl (fun s c => disposeNode fuel c false s) st1))) x) j
          = childrenOf (unsubscribeSelf x dp (runCleanupTokens cl
            (ch.foldl (fun s c => disposeNode fuel c false s) st1))) j := by
        unfold childrenOf
        rw [getNode_removeNode, if_neg hj]
      have hrm2 : cleanupsOf (removeNode (unsubscribeSelf x dp (runCleanupTokens cl
          (ch.foldl (fun s c => disposeNode fuel c false s) st1))) x) j
          = cleanupsOf (unsubscribeSelf x dp (runCleanupTokens cl
            (ch.foldl (fun s c => disposeNode fuel c false s) st1))) j := by
        unfold cleanupsOf
        rw [getNode_removeNode, if_neg hj]
      refine ⟨?_, ?_, ?_⟩
      · rw [hrm1, childrenOf_unsub, childrenOf_runCleanupTokens, hc1,
          childrenOf_takeNode_ne ht hj]
      · rw [hrm2, cleanupsOf_unsub, cleanupsOf_runCleanupTokens, hc2,
          cleanupsOf_takeNode_ne ht hj]
      · intro habs
        exact hc3 ((getNode_takeNode_none_iff ht j).mpr habs)

/-- Every node a disposal removes was in the disposed node's subtree. -/
theorem dispose_removed_desc : ∀ (fuel x : Nat) (b : Bool) (st : St) (j : Nat),
    getNode st j ≠ none → getNode (disposeNode fuel x b st) j = none → Desc st x j := by
  intro fuel
  induction fuel with
  | zero =>
    intro x b st j hp ha
    exact absurd ha hp
  | succ fuel ih =>
    intro x b st j hp ha
    rw [disposeNode] at ha
    cases ht : takeNode st x with
    | none =>
      rw [ht] at ha
      simp only at ha
      rw [getNode_removeNode] at ha
      by_cases hj : j = x
      · rw [hj]
        exact Desc.refl x
      · rw [if_neg hj] at ha
        exact absurd ha hp
    | some res =>
      obtain ⟨⟨ch, cl, dp⟩, st1⟩ := res
      rw [ht] at ha
      simp only at ha
      by_cases hj : j = x
      · rw [hj]
        exact Desc.refl x
      · rw [getNode_removeNode, if_neg hj] at ha
        have ha4 : getNode (unsubscribeSelf x dp (runCleanupTokens cl
            (ch.foldl (fun s c => disposeNode fuel c false s) st1))) j = none := by
          revert ha
          cases b with
          | false =>
            rw [if_neg Bool.false_ne_true]
            exact id
          | true =>
            rw [if_pos rfl]
            cases (getNode (unsubscribeSelf x dp
                (runCleanupTokens cl (ch.foldl (fun s c => disposeNode fuel c false s) st1))) x).bind
                Node.parent with
            | none => exact id
            | some p =>
              intro ha
              exact getNode_updNode_none.mp ha
        have haf : getNode (ch.foldl (fun s c => disposeNode fuel c false s) st1) j = none := by
          rw [getNode_unsub_none, getNode_runCleanupTokens] at ha4
          exact ha4
        have hp1 : getNode st1 j ≠ none := by
          intro habs
          exact hp ((getNode_takeNode_none_iff ht j).mp habs)
        have hfold : ∀ (l : List Nat) (s : St) (j : Nat),
            (∀ y, childrenOf s y ⊆ childrenOf st y) →
            getNode s j ≠ none →
            getNode (l.foldl (fun s c => disposeNode fuel c false s) s) j = none →
            ∃ c ∈ l, Desc st c j := by
          intro l
          induction l with
          | nil =>
            intro s j _ hps has
            exact absurd has hps
          | cons c cs ihl =>
            intro s j hsub hps has
            rw [List.foldl_cons] at has
            by_cases hc : getNode (disposeNode fuel c false s) j = none
            · exact ⟨c, List.mem_cons_self _ _,
                desc_lift hsub (ih c false s j hps hc)⟩
            · rcases ihl (disposeNode fuel c false s) j
                (fun y => (childrenOf_dispose_subset fuel c false s y).trans (hsub y))
                hc has with ⟨c2, hc2, hd2⟩
              exact ⟨c2, List.mem_cons_of_mem _ hc2, hd2⟩
        rcases hfold ch st1 j (childrenOf_takeNode_subset ht) hp1 haf with ⟨c, hc, hd⟩
        have hchx : c ∈ childrenOf st x := by
          unfold takeNode at ht
          cases hgn : getNode st x with
          | none =>
            rw [hgn] at ht
            exact absurd ht (by simp)
          | some n =>
            rw [hgn] at ht
            cases ht
            unfold childrenOf
            rw [hgn]
            simpa using hc
        exact desc_trans (Desc.step (Desc.refl x) hchx) hd

/-- Rebuild a subtree path in a later state in which all the path's
nodes survive with unchanged child lists. -/
theorem desc_transfer {st1 s : St} {c : Nat}
    (hsurv : ∀ j, getNode s j ≠ none → childrenOf s j = childrenOf st1 j)
    (hP : ∀ q, Desc st1 c q → getNode st1 q ≠ none → getNode s q ≠ none)
    {e : Nat} (hd : Desc st1 c e) (he : getNode s e ≠ none) : Desc s c e := by
  revert he
  induction hd with
  | refl =>
    intro _
    exact Desc.refl _
  | step hdy hz ih =>
    rename_i y z
    intro _
    rcases childrenOf_mem_getNode hz with ⟨n, hgy, hzn⟩
    have hpy : getNode st1 y ≠ none := by
      rw [hgy]
      simp
    have hpsy : getNode s y ≠ none := hP y hdy hpy
    refine Desc.step (ih hpsy) ?_
    rw [hsurv y hpsy]
    exact hz

/-- `mem::take` on `x` does not disturb subtree paths rooted strictly
above `x`. -/
theorem desc_takeNode {st st1 : St} {x : Nat} {ch cl dp : List Nat}
    {exs : List (Nat × List Nat)}
    (hI : InvL st exs) (ht : takeNode st x = some ((ch, cl, dp), st1))
    {c e : Nat} (hxc : x < c) (hd : Desc st c e) : Desc st1 c e := by
  induction hd with
  | refl => exact Desc.refl _
  | step hdy hz ih =>
    rename_i y z
    have hcy : c ≤ y := desc_le hI hdy
    have hyx : ¬ y = x := by omega
    refine Desc.step ih ?_
    rw [childrenOf_takeNode_ne ht hyx]
    exact hz

/-- Main disposal theorem: disposing `x` removes every node of `x`'s
subtree from the arena and runs (logs) every removed node's cleanup
tokens.  Fuel `st.nextId` suffices because children have strictly larger
identifiers than their parents, all below `nextId`. -/
theorem dispose_removes_desc : ∀ (fuel x : Nat) (b : Bool) (st : St)
    (exs : List (Nat × List Nat)),
    InvL st exs → (∀ pe ∈ exs, pe.1 < x) → st.nextId ≤ fuel + x →
    (∀ j, (childrenOf st j).Nodup) →
    ∀ e, Desc st x e →
      getNode (disposeNode fuel x b st) e = none ∧
      (getNode st e ≠ none → ∀ t ∈ cleanupsOf st e,
        Ev.cleanupRun t ∈ evWin st (disposeNode fuel x b st)) := by
  intro fuel
  induction fuel with
  | zero =>
    intro x b st exs hInv hexlt hbound _ e hdesc
    have hgx : getNode st x = none := by
      cases hgn : getNode st x with
      | none => rfl
      | some n =>
        have := (((invl_iff_invG st exs).mp hInv).2.1 x n hgn).1
        omega
    have hex : e = x := by
      rcases desc_head hdesc with he | ⟨c, hc, _⟩
      · exact he
      · rw [childrenOf_none hgx] at hc
        simp at hc
    subst hex
    refine ⟨?_, ?_⟩
    · exact hgx
    · intro hpre
      exact absurd hgx hpre
  | succ fuel ih =>
    intro x b st exs hInv hexlt hbound hchn e hdesc
    cases ht : takeNode st x with
    | none =>
      have hgx : getNode st x = none := by
        unfold takeNode at ht
        cases hgn : getNode st x with
        | none => rfl
        | some n =>
          rw [hgn] at ht
          exact absurd ht (by simp)
      have hex : e = x := by
        rcases desc_head hdesc with he | ⟨c, hc, _⟩
        · exact he
        · rw [childrenOf_none hgx] at hc
          simp at hc
      subst hex
      have heq : disposeNode (fuel + 1) e b st = removeNode st e := by
        rw [disposeNode, ht]
      rw [heq]
      refine ⟨?_, ?_⟩
      · rw [getNode_removeNode, if_pos rfl]
      · intro hpre
        exact absurd hgx hpre
    | some res =>
      obtain ⟨⟨ch, cl, dp⟩, st1⟩ := res
      have hx0 : ∀ pe ∈ exs, pe.1 ≠ x := fun pe hpe => Nat.ne_of_lt (hexlt pe hpe)
      rcases invl_takeNode hInv hx0 ht with ⟨hInv1, hgtch, hcheq, hdpeq, hcleq⟩
      have hnid1 : st1.nextId = st.nextId := by
        unfold takeNode at ht
        cases hgn : getNode st x with
        | none =>
          rw [hgn] at ht
          exact absurd ht (by simp)
        | some n =>
          rw [hgn] at ht
          cases ht
          rfl
      have hchn1 : ∀ j, (childrenOf st1 j).Nodup := by
        intro j
        by_cases hj : j = x
        · rw [hj, childrenOf_takeNode_self ht]
          exact List.nodup_nil
        · rw [childrenOf_takeNode_ne ht hj]
          exact hchn j
      have hfold : ∀ (l : List Nat) (s : St),
          InvL s ((x, dp) :: exs) →
          s.nextId = st.nextId →
          (∀ y, childrenOf s y ⊆ childrenOf st1 y) →
          (∀ j, getNode s j ≠ none →
            childrenOf s j = childrenOf st1 j ∧ cleanupsOf s j = cleanupsOf st1 j) →
          (∀ j, getNode st1 j = none → getNode s j = none) →
          (∀ c2 ∈ l, ∀ j, Desc st1 c2 j → getNode st1 j ≠ none → getNode s j ≠ none) →
          (∀ j, (childrenOf s j).Nodup) →
          l.Nodup →
          (∀ c2 ∈ l, c2 ∈ childrenOf st x) →
          ∀ c2 ∈ l, ∀ e2, Desc st1 c2 e2 →
            getNode (l.foldl (fun s c => disposeNode fuel c false s) s) e2 = none ∧
            (getNode st1 e2 ≠ none → ∀ t ∈ cleanupsOf st1 e2,
              Ev.cleanupRun t ∈ evWin s (l.foldl (fun s c => disposeNode fuel c false s) s)) := by
        intro l
        induction l with
        | nil =>
          intro s _ _ _ _ _ _ _ _ _ c2 hc2
          simp at hc2
        | cons c cs ihl =>
          intro s hIs hnids hsubs hsurv habs hpres hchnS hlnd hlch c2 hc2 e2 hdesc2
          have hxc : x < c := hgtch c (by rw [hcheq]; exact hlch c (List.mem_cons_self _ _))
          have hIs' : InvL (disposeNode fuel c false s) ((x, dp) :: exs) := by
            refine invl_disposeNode fuel c false s _ hIs ?_
            intro pe hpe
            rcases List.mem_cons.mp hpe with hpe | hpe
            · rw [hpe]
              exact hxc
            · have := hexlt pe hpe
              omega
          rcases List.mem_cons.mp hc2 with hc2eq | hc2tl
          · subst hc2eq
            by_cases hpe2 : getNode st1 e2 = none
            · refine ⟨?_, ?_⟩
              · exact getNode_disposeFold_none_mono fuel (c2 :: cs) s e2 (habs _ hpe2)
              · intro hpre
                exact absurd hpe2 hpre
            · have hps : getNode s e2 ≠ none :=
                hpres c2 (List.mem_cons_self _ _) e2 hdesc2 hpe2
              have hdss : Desc s c2 e2 := by
                refine desc_transfer (fun j hj => (hsurv j hj).1) ?_ hdesc2 hps
                intro q hq hpq
                exact hpres c2 (List.mem_cons_self _ _) q hq hpq
              have hxcb : s.nextId ≤ fuel + c2 := by
                rw [hnids]
                omega
              have hmain := ih c2 false s ((x, dp) :: exs) hIs
                (by
                  intro pe hpe
                  rcases List.mem_cons.mp hpe with hpe | hpe
                  · rw [hpe]
                    exact hxc
                  · have := hexlt pe hpe
                    omega)
                hxcb hchnS e2 hdss
              rcases hmain with ⟨hrem, hclean⟩
              refine ⟨?_, ?_⟩
              · rw [List.foldl_cons]
                exact getNode_disposeFold_none_mono fuel cs _ e2 hrem
              · intro _ t ht2
                have hce := (hsurv e2 hps).2
                have hev := hclean hps t (by rw [hce]; exact ht2)
                rw [List.foldl_cons]
                exact mem_evWin_left (log_prefix_disposeNode fuel c2 false s)
                  (log_prefix_disposeFold fuel cs _) hev
          · have hcne : c ≠ c2 := by
              intro he
              have hnotin := (List.nodup_cons.mp hlnd).1
              rw [he] at hnotin
              exact hnotin hc2tl
            have hres := ihl (disposeNode fuel c false s) hIs'
              (by rw [nextId_disposeNode]; exact hnids)
              (fun y => (childrenOf_dispose_subset fuel c false s y).trans (hsubs y))
              (by
                intro j hj
                rcases dispose_survivor fuel c s j hj with ⟨h1, h2, h3⟩
                rcases hsurv j h3 with ⟨h4, h5⟩
                exact ⟨h1.trans h4, h2.trans h5⟩)
              (fun j hj => getNode_dispose_none_mono fuel c false s j (habs j hj))
              (by
                intro c2' hc2' j hdj hpj
                have hpsj := hpres c2' (List.mem_cons_of_mem _ hc2') j hdj hpj
                intro habsj
                have hdsc : Desc s c j := dispose_removed_desc fuel c false s j hpsj habsj
                have hd1 : Desc st c j :=
                  desc_lift (childrenOf_takeNode_subset ht) (desc_lift hsubs hdsc)
                have hd2 : Desc st c2' j :=
                  desc_lift (childrenOf_takeNode_subset ht) hdj
                have hne2 : c ≠ c2' := by
                  intro he
                  have hnotin := (List.nodup_cons.mp hlnd).1
                  rw [he] at hnotin
                  exact hnotin hc2'
                exact desc_sibling_disjoint hInv hne2
                  (hlch c (List.mem_cons_self _ _))
                  (hlch c2' (List.mem_cons_of_mem _ hc2')) hd1 hd2)
              (by
                intro j
                by_cases hj : getNode (disposeNode fuel c false s) j = none
                · rw [childrenOf_none hj]
                  exact List.nodup_nil
                · rw [(dispose_survivor fuel c s j hj).1]
                  exact hchnS j)
              (List.nodup_cons.mp hlnd).2
              (fun c2' h => hlch c2' (List.mem_cons_of_mem _ h))
              c2 hc2tl e2 hdesc2
            refine ⟨?_, ?_⟩
            · rw [List.foldl_cons]
              exact hres.1
            · intro hpre t ht2
              rw [List.foldl_cons]
              exact mem_evWin_right (log_prefix_disposeNode fuel c false s)
                (log_prefix_disposeFold fuel cs _) (hres.2 hpre t ht2)
      have hlog1 : st1.log = st.log ++ [Ev.clean x] := log_takeNode ht
      rcases log_prefix_disposeFold fuel ch st1 with ⟨Δf, hΔf⟩
      have heqgoal : disposeNode (fuel + 1) x b st =
          removeNode (if b = true then
            match (getNode (unsubscribeSelf x dp (runCleanupTokens cl
                (ch.foldl (fun s c => disposeNode fuel c false s) st1))) x).bind Node.parent with
            | some p => updNode (unsubscribeSelf x dp (runCleanupTokens cl
                (ch.foldl (fun s c => disposeNode fuel c false s) st1))) p
                (fun n => { n with children := removeFirst x n.children })
            | none => unsubscribeSelf x dp (runCleanupTokens cl
                (ch.foldl (fun s c => disposeNode fuel c false s) st1))
          else unsubscribeSelf x dp (runCleanupTokens cl
            (ch.foldl (fun s c => disposeNode fuel c false s) st1))) x := by
        rw [disposeNode, ht]
      have hfin_abs : ∀ (e3 : Nat),
          getNode (ch.foldl (fun s c => disposeNode fuel c false s) st1) e3 = none →
          getNode (disposeNode (fuel + 1) x b st) e3 = none := by
        intro e3 h3
        rw [heqgoal, getNode_removeNode]
        by_cases he3 : e3 = x
        · rw [if_pos he3]
        · rw [if_neg he3]
          cases b with
          | false =>
            rw [if_neg Bool.false_ne_true, getNode_unsub_none, getNode_runCleanupTokens]
            exact h3
          | true =>
            rw [if_pos rfl]
            cases (getNode (unsubscribeSelf x dp (runCleanupTokens cl
                (ch.foldl (fun s c => disposeNode fuel c false s) st1))) x).bind Node.parent with
            | none =>
              rw [getNode_unsub_none, getNode_runCleanupTokens]
              exact h3
            | some p =>
              rw [getNode_updNode_none, getNode_unsub_none, getNode_runCleanupTokens]
              exact h3
      have hfin_log : (disposeNode (fuel + 1) x b st).log =
          (ch.foldl (fun s c => disposeNode fuel c false s) st1).log
            ++ cl.map Ev.cleanupRun := by
        rw [heqgoal]
        have hshow : (unsubscribeSelf x dp (runCleanupTokens cl
            (ch.foldl (fun s c => disposeNode fuel c false s) st1))).log
            = (ch.foldl (fun s c => disposeNode fuel c false s) st1).log
              ++ cl.map Ev.cleanupRun := by
          rw [log_unsubscribeSelf, log_runCleanupTokens]
        cases b with
        | false =>
          rw [if_neg Bool.false_ne_true]
          exact hshow
        | true =>
          rw [if_pos rfl]
          cases (getNode (unsubscribeSelf x dp (runCleanupTokens cl
              (ch.foldl (fun s c => disposeNode fuel c false s) st1))) x).bind Node.parent with
          | none => exact hshow
          | some p => exact hshow
      have hwin_all : evWin st (disposeNode (fuel + 1) x b st)
          = [Ev.clean x] ++ Δf ++ cl.map Ev.cleanupRun := by
        apply evWin_of_log_eq
        rw [hfin_log, ← hΔf, hlog1]
        simp
      rcases desc_head hdesc with hex | ⟨c, hcx, hdc⟩
      · subst hex
        refine ⟨?_, ?_⟩
        · rw [heqgoal, getNode_removeNode, if_pos rfl]
        · intro _ t ht2
          rw [hwin_all]
          have : t ∈ cl := by
            rw [hcleq]
            exact ht2
          refine List.mem_append.mpr (Or.inr ?_)
          exact List.mem_map.mpr ⟨t, this, rfl⟩
      · have hxc : x < c := hgtch c (by rw [hcheq]; exact hcx)
        have hd1 : Desc st1 c e := desc_takeNode hInv ht hxc hdc
        have hres := hfold ch st1 hInv1 hnid1
          (fun y => List.Subset.refl _)
          (fun j _ => ⟨rfl, rfl⟩)
          (fun j h => h)
          (fun c2 _ j _ h => h)
          hchn1
          (by rw [hcheq]; exact hchn x)
          (fun c2 h => by rw [← hcheq]; exact h)
          c (by rw [hcheq]; exact hcx) e hd1
        rcases hres with ⟨hrem, hclean⟩
        refine ⟨hfin_abs e hrem, ?_⟩
        intro hpree t ht2
        have hexx : ¬ e = x := by
          have hce : c ≤ e := desc_le hInv hdc
          omega
        have hpre1 : getNode st1 e ≠ none := by
          intro habs
          exact hpree ((getNode_takeNode_none_iff ht e).mp habs)
        have hcl1 : cleanupsOf st1 e = cleanupsOf st e := cleanupsOf_takeNode_ne ht hexx
        have hev := hclean hpre1 t (by rw [hcl1]; exact ht2)
        have hp01 : st.log <+: st1.log := ⟨[Ev.clean x], hlog1.symm⟩
        have hp12 : st1.log <+:
            (ch.foldl (fun s c => disposeNode fuel c false s) st1).log := ⟨Δf, hΔf⟩
        have hp23 : (ch.foldl (fun s c => disposeNode fuel c false s) st1).log <+:
            (disposeNode (fuel + 1) x b st).log := ⟨cl.map Ev.cleanupRun, hfin_log.symm⟩
        exact mem_evWin_right hp01 (hp12.trans hp23) (mem_evWin_left hp12 hp23 hev)

/-- C4: disposing a scope `X` (the public `dispose`) removes every node
created under `X` — transitively through the ownership tree — from the
arena, leaves its identifier in no surviving signal's subscriber list,
and runs (logs) its cleanup callbacks. -/
theorem spec_c4_leak_free_disposal (st : St) (X e S : Nat)
    (hInv : Inv st)
    (_hkind : (getNode st X).map Node.kind = some NodeType.scope)
    (hchn : ∀ j ∈ keysOf st, (childrenOf st j).Nodup)
    (hdesc : Desc st X e) :
    getNode (disposeOp st X) e = none
    ∧ e ∉ subsOf (disposeOp st X) S
    ∧ (getNode st e ≠ none → ∀ t ∈ cleanupsOf st e,
        Ev.cleanupRun t ∈ evWin st (disposeOp st X)) := by
  have hchn2 : ∀ j, (childrenOf st j).Nodup := by
    intro j
    by_cases hj : (getNode st j).isSome
    · exact hchn j (mem_keysOf_iff.mpr hj)
    · have hnone : getNode st j = none := by
        cases hg : getNode st j with
        | none => rfl
        | some n =>
          rw [hg] at hj
          simp at hj
      rw [childrenOf_none hnone]
      exact List.nodup_nil
  have hmain := dispose_removes_desc st.nextId X true st [] hInv (by simp)
    (Nat.le_add_right _ _) hchn2 e hdesc
  have hInvF : Inv (disposeOp st X) :=
    invl_disposeNode st.nextId X true st [] hInv (by simp)
  have h1 : getNode (disposeOp st X) e = none := hmain.1
  refine ⟨h1, ?_, hmain.2⟩
  intro hmem
  obtain ⟨hK, hB, hO, hS2, hN, hG, hU, hL, hE⟩ :=
    (invl_iff_invG (disposeOp st X) []).mp hInvF
  unfold subsOf at hmem
  cases hgS : getNode (disposeOp st X) S with
  | none =>
    rw [hgS] at hmem
    simp at hmem
  | some nS =>
    rw [hgS] at hmem
    simp only [Option.map_some', Option.getD_some] at hmem
    have hsome := hL S nS hgS e hmem
    rw [h1] at hsome
    simp at hsome

theorem valueOf_trackDependency (sig : Nat) (st : St) (j : Nat) :
    valueOf (trackDependency sig st) j = valueOf st j := by
  rcases trackDependency_cases sig st with heq | ⟨o, ow, sn, how, hos, hgo, hgs, hk, heq⟩
  · rw [heq]
  · rw [heq]
    have h0 : ∀ T : St, valueOf (pushLog (Ev.track o sig) T) j = valueOf T j := fun T => rfl
    rw [h0]
    have h1 : ∀ T : St, valueOf (updNode T sig (fun n =>
        if o ∈ n.subscribers then n
        else { n with subscribers := n.subscribers ++ [o] })) j = valueOf T j := by
      intro T
      refine valueOf_updNode_keep ?_ j
      intro n
      by_cases hc : o ∈ n.subscribers
      · rw [if_pos hc]
      · rw [if_neg hc]
    rw [h1]
    refine valueOf_updNode_keep ?_ j
    intro n
    by_cases hc : sig ∈ n.dependencies
    · rw [if_pos hc]
    · rw [if_neg hc]

theorem valueOf_trackFold (l : List (Nat × Nat)) (st : St) (j : Nat) :
    valueOf (l.foldl (fun s p => trackDependency p.1 s) st) j = valueOf st j := by
  induction l generalizing st with
  | nil => rfl
  | cons p ps ih => rw [List.foldl_cons, ih, valueOf_trackDependency]

theorem trackFold_log_events (l : List (Nat × Nat)) (s : St) :
    ∃ Δ, (l.foldl (fun s p => trackDependency p.1 s) s).log = s.log ++ Δ ∧
      ∀ ev ∈ Δ, ∃ o sig, ev = Ev.track o sig := by
  induction l generalizing s with
  | nil => exact ⟨[], by simp, by simp⟩
  | cons p ps ih =>
    rcases ih (trackDependency p.1 s) with ⟨Δ2, h2, hp2⟩
    rcases trackDependency_cases p.1 s with heq | ⟨o, ow, sn, how, hos, hgo, hgs, hk, heq⟩
    · refine ⟨Δ2, ?_, hp2⟩
      rw [List.foldl_cons, h2, heq]
    · refine ⟨[Ev.track o p.1] ++ Δ2, ?_, ?_⟩
      · rw [List.foldl_cons, h2, heq]
        simp
      · intro ev hev
        rcases List.mem_append.mp hev with hev | hev
        · exact ⟨o, p.1, by simpa using hev⟩
        · exact hp2 ev hev

theorem owner_registerSignal (st : St) (ty v : Nat) :
    (registerSignal st ty v).2.currentOwner = st.currentOwner := by
  unfold registerSignal
  simp only [updNode_owner]
  show (registerNode st NodeType.signal).2.currentOwner = st.currentOwner
  exact owner_registerNode st NodeType.signal

/-- C10: the three error paths of `WriteSignal::update` (and `set`) —
the identifier does not resolve in the arena, the node holds no value,
or the stored type tag differs from the handle's — return with the
entire runtime state unchanged: no value modified, no effect run, no
event logged. -/
theorem spec_c10_write_error_paths (fuel ty sig : Nat) (g : Nat → Nat) (st : St)
    (h : getNode st sig = none
      ∨ (∃ n, getNode st sig = some n ∧ n.value = none)
      ∨ (∃ n ty' v, getNode st sig = some n ∧ n.value = some (ty', v) ∧ ¬ ty' = ty)) :
    writeOp (fuel + 1) sig ty g st = st := by
  unfold writeOp
  rcases h with h | ⟨n, hgn, hv⟩ | ⟨n, ty', v, hgn, hv, hty⟩
  · exact step_write_none fuel ty g h
  · exact step_write_noval fuel ty g hgn hv
  · exact step_write_mismatch fuel g hgn hv hty

/-- C1: a valid write to `sig` clones the subscriber list before running
anything: the clone (`get_dependents`) equals the subscriber list at the
moment of the write, the flush folds `run_effect` exactly over that
snapshot — whose entries are distinct under the invariant, so each
captured effect is invoked exactly once — and an effect not subscribed
at write time is not in the snapshot, hence not notified by this
write. -/
theorem spec_c1_snapshot_notification (fuel sig ty ty' v : Nat) (g : Nat → Nat)
    (st : St) (n : Node)
    (hInv : Inv st) (hgn : getNode st sig = some n) (hv : n.value = some (ty', v))
    (hty : ty' = ty) :
    getDependents (updNode st sig (fun m => { m with value := some (ty, g v) })) sig
        = subsOf st sig
    ∧ writeOp (fuel + 1) sig ty g st =
        (subsOf st sig).foldl (fun s e => step fuel (Act.runEff e) s)
          (pushLog (Ev.notify sig (subsOf st sig))
            (updNode st sig (fun m => { m with value := some (ty, g v) })))
    ∧ (subsOf st sig).Nodup := by
  have hsnap : getDependents (updNode st sig
      (fun m => { m with value := some (ty, g v) })) sig = subsOf st sig := by
    rw [getDependents_eq_subsOf]
    refine subsOf_updNode_keep ?_ sig
    intro m
    rfl
  refine ⟨hsnap, ?_, ?_⟩
  · unfold writeOp
    rw [step_write_ok fuel g hgn hv hty, hsnap]
  · have hsub : subsOf st sig = n.subscribers := by
      unfold subsOf
      rw [hgn]
      rfl
    rw [hsub]
    exact (((invl_iff_invG st []).mp hInv).2.2.2.2.1 sig n hgn).1

/-- C2: the runtime invariant — including symmetry of the
dependency/subscriber edges — holds after every interpreter step and
after every `dispose`, and under it signal `S` lists `E` as subscriber
iff `E` lists `S` as dependency. -/
theorem spec_c2_symmetric_edges (st : St) (hInv : Inv st) :
    (∀ fuel a, Inv (step fuel a st))
    ∧ (∀ x, Inv (disposeOp st x))
    ∧ (∀ st2, Inv st2 → ∀ S E nS nE, getNode st2 S = some nS → getNode st2 E = some nE →
        (E ∈ nS.subscribers ↔ S ∈ nE.dependencies)) := by
  refine ⟨fun fuel a => inv_step fuel a st hInv,
    fun x => invl_disposeNode st.nextId x true st [] hInv (by simp), ?_⟩
  intro st2 h2 S E nS nE hgS hgE
  have hsym := ((invl_iff_invG st2 []).mp h2).2.2.2.1 S nS E nE hgS hgE
  simpa [assocFind] using hsym

/-- C7 (amended): `provide_context` with no current owner returns the
`Err(Reactivity(..))` value to its caller — no unrecoverable
termination, but also no `handle_error` hook invocation and no
empty/default `Ok` result: the state is untouched and nothing is
logged. -/
theorem spec_c7_amended_provide_context (ty v : Nat) (st : St)
    (h : st.currentOwner = none) :
    provideContext ty v st = (st, PCRes.missingOwner)
    ∧ PCRes.missingOwner ≠ PCRes.ok
    ∧ Ev.hookReport ∉ evWin st (provideContext ty v st).1 := by
  have heq : provideContext ty v st = (st, PCRes.missingOwner) := by
    unfold provideContext
    rw [h]
  refine ⟨heq, by simp, ?_⟩
  rw [heq]
  rw [evWin_refl]
  simp

/-- C7 (counterexample to the claim as stated): on a concrete state with
no owner, `provide_context` returns `Err(MissingOwner)` — not the
claimed empty/default (`Ok`) result — and no error ever reaches the
`handle_error` hook (no `hookReport` event is logged). -/
theorem spec_c7_counterexample :
    provideContext 1 2 (St.mk [] 0 none []) = (St.mk [] 0 none [], PCRes.missingOwner)
    ∧ PCRes.missingOwner ≠ PCRes.ok
    ∧ Ev.hookReport ∉ (provideContext 1 2 (St.mk [] 0 none [])).1.log := by
  refine ⟨rfl, by decide, by decide⟩

/-- C6 (the code as it stands): `create_resource` invoked with no
current owner does not fail fast — the returned `SinterResult` is `Ok`
(`is_ok = true`) unconditionally, and the liveness `on_cleanup`
registration is silently dropped (a no-op when no owner exists), hiding
the structural bug the spec wants surfaced. -/
theorem spec_c6_resource_no_owner_ok (fuel : Nat) (srcBody : Cmd) (tok : Nat) (st : St)
    (h : st.currentOwner = none) :
    (createResource fuel srcBody tok st).2 = true
    ∧ onCleanup tok ((registerSignal ((registerSignal ((registerSignal st
        tyResData 0).2) tyResLoading 0).2) tyResTrigger 0).2)
      = ((registerSignal ((registerSignal ((registerSignal st
        tyResData 0).2) tyResLoading 0).2) tyResTrigger 0).2) := by
  constructor
  · rfl
  · unfold onCleanup
    rw [owner_registerSignal, owner_registerSignal, owner_registerSignal, h]

/-- C8: a memo's internal effect (`Cmd.memoStep`) recomputes and
compares with the backing signal's current value.  When the new value
equals the old one the backing signal is not written: its value is
unchanged and the step's window holds no `notify` and no effect run
(`runEv`) — subscribers of the memo's read handle are not re-run.  When
the new value differs, the backing signal is written: its stored value
becomes the new one and the write flushes its subscriber snapshot. -/
theorem spec_c8_memo_filtering (fuel : Nat) (srcs : List (Nat × Nat))
    (g : List (Option Nat) → Nat) (ty backing : Nat) (st : St) (old : Nat)
    (hgt : getTyped (srcs.foldl (fun s p => trackDependency p.1 s) st) backing ty
      = some old) :
    (g (srcs.map (fun p => getTyped (srcs.foldl (fun s p => trackDependency p.1 s) st)
        p.1 p.2)) = old →
      valueOf (step (fuel + 1) (Act.cmd (Cmd.memoStep srcs g ty backing)) st) backing
          = valueOf st backing
      ∧ ∀ ev ∈ evWin st (step (fuel + 1) (Act.cmd (Cmd.memoStep srcs g ty backing)) st),
          (∀ sig effs, ev ≠ Ev.notify sig effs) ∧ ∀ e2, ev ≠ Ev.runEv e2)
    ∧ (¬ g (srcs.map (fun p => getTyped (srcs.foldl (fun s p => trackDependency p.1 s) st)
        p.1 p.2)) = old →
      valueOf (updNode (srcs.foldl (fun s p => trackDependency p.1 s) st) backing
          (fun m => { m with value := some (ty, g (srcs.map (fun p => getTyped
            (srcs.foldl (fun s p => trackDependency p.1 s) st) p.1 p.2))) })) backing
        = some (ty, g (srcs.map (fun p => getTyped
            (srcs.foldl (fun s p => trackDependency p.1 s) st) p.1 p.2)))
      ∧ step (fuel + 1 + 1) (Act.cmd (Cmd.memoStep srcs g ty backing)) st
        = (getDependents (updNode (srcs.foldl (fun s p => trackDependency p.1 s) st)
            backing (fun m => { m with value := some (ty, g (srcs.map (fun p => getTyped
              (srcs.foldl (fun s p => trackDependency p.1 s) st) p.1 p.2))) }))
            backing).foldl
            (fun s e => step fuel (Act.runEff e) s)
            (pushLog (Ev.notify backing (getDependents (updNode
              (srcs.foldl (fun s p => trackDependency p.1 s) st) backing
              (fun m => { m with value := some (ty, g (srcs.map (fun p => getTyped
                (srcs.foldl (fun s p => trackDependency p.1 s) st) p.1 p.2))) }))
                backing))
              (updNode (srcs.foldl (fun s p => trackDependency p.1 s) st) backing
                (fun m => { m with value := some (ty, g (srcs.map (fun p => getTyped
                  (srcs.foldl (fun s p => trackDependency p.1 s) st) p.1 p.2))) })))) := by
  have hval : valueOf (srcs.foldl (fun s p => trackDependency p.1 s) st) backing
      = some (ty, old) := by
    unfold getTyped at hgt
    cases hv : valueOf (srcs.foldl (fun s p => trackDependency p.1 s) st) backing with
    | none =>
      rw [hv] at hgt
      exact absurd hgt (by simp)
    | some p =>
      obtain ⟨t, w⟩ := p
      rw [hv] at hgt
      simp only at hgt
      by_cases htt : t = ty
      · rw [if_pos htt] at hgt
        have hw : w = old := Option.some.inj hgt
        rw [htt, hw]
      · rw [if_neg htt] at hgt
        exact absurd hgt (by simp)
  constructor
  · intro heq
    have hstep : step (fuel + 1) (Act.cmd (Cmd.memoStep srcs g ty backing)) st
        = srcs.foldl (fun s p => trackDependency p.1 s) st := by
      rw [step_memo_eq]
      simp only [hgt]
      rw [if_pos heq]
    constructor
    · rw [hstep]
      exact valueOf_trackFold srcs st backing
    · rcases trackFold_log_events srcs st with ⟨Δ, hΔ, hp⟩
      rw [hstep, evWin_of_log_eq hΔ]
      intro ev hev
      rcases hp ev hev with ⟨o, sig2, rfl⟩
      exact ⟨fun sig effs => by simp, fun e2 => by simp⟩
  · intro hne
    have hstep2 : step (fuel + 1 + 1) (Act.cmd (Cmd.memoStep srcs g ty backing)) st
        = step (fuel + 1) (Act.write backing ty (fun _ => g (srcs.map (fun p => getTyped
            (srcs.foldl (fun s p => trackDependency p.1 s) st) p.1 p.2))))
            (srcs.foldl (fun s p => trackDependency p.1 s) st) := by
      rw [step_memo_eq]
      simp only [hgt]
      rw [if_neg hne]
    have hgn : ∃ n, getNode (srcs.foldl (fun s p => trackDependency p.1 s) st) backing
        = some n ∧ n.value = some (ty, old) := by
      unfold valueOf at hval
      cases hg : getNode (srcs.foldl (fun s p => trackDependency p.1 s) st) backing with
      | none =>
        rw [hg] at hval
        exact absurd hval (by simp)
      | some n =>
        rw [hg] at hval
        exact ⟨n, rfl, hval⟩
    rcases hgn with ⟨n, hg, hnv⟩
    constructor
    · unfold valueOf
      rw [getNode_updNode, if_pos rfl, hg]
      rfl
    · rw [hstep2]
      exact step_write_ok fuel _ hg hnv rfl

theorem assocFind_filter_ne_gen {β : Type} (l : List (Nat × β)) (i j : Nat) :
    assocFind (l.filter (fun p => p.1 ≠ i)) j
      = if j = i then none else assocFind l j := by
  induction l with
  | nil => by_cases hj : j = i <;> simp [assocFind, hj]
  | cons p ps ih =>
    by_cases hp : p.1 = i
    · rw [show (p :: ps).filter (fun p => p.1 ≠ i) = ps.filter (fun p => p.1 ≠ i) from by
        simp [List.filter_cons, hp]]
      rw [ih]
      by_cases hj : j = i
      · rw [if_pos hj, if_pos hj]
      · rw [if_neg hj, if_neg hj]
        rw [show assocFind (p :: ps) j = assocFind ps j from by
          simp [assocFind, show ¬ p.1 = j from fun h => hj (h ▸ hp.symm ▸ rfl)]]
    · rw [show (p :: ps).filter (fun p => p.1 ≠ i) = p :: ps.filter (fun p => p.1 ≠ i) from by
        simp [List.filter_cons, hp]]
      by_cases hpj : p.1 = j
      · rw [show assocFind (p :: ps.filter (fun p => p.1 ≠ i)) j = some p.2 from by
          simp [assocFind, hpj]]
        rw [if_neg (fun h : j = i => hp (hpj ▸ h))]
        simp [assocFind, hpj]
      · rw [show assocFind (p :: ps.filter (fun p => p.1 ≠ i)) j
            = assocFind (ps.filter (fun p => p.1 ≠ i)) j from by simp [assocFind, hpj]]
        rw [ih]
        by_cases hj : j = i
        · rw [if_pos hj, if_pos hj]
        · rw [if_neg hj, if_neg hj]
          simp [assocFind, hpj]

theorem forCollect_found (ks : List Nat) (m : List (Nat × Nat)) :
    ∀ ns, (∀ k ∈ ks, (assocFind m k).isSome) →
    (forCollect m ns ks).2.1 = [] ∧ (forCollect m ns ks).2.2 = ns ∧
    ∀ p ∈ (forCollect m ns ks).1, assocFind m p.1 = some p.2 := by
  induction ks with
  | nil =>
    intro ns _
    exact ⟨rfl, rfl, by simp [forCollect]⟩
  | cons k ks ih =>
    intro ns h
    have hk := h k (List.mem_cons_self _ _)
    cases hf : assocFind m k with
    | none =>
      rw [hf] at hk
      simp at hk
    | some sc =>
      obtain ⟨h1, h2, h3⟩ := ih ns (fun k2 h2 => h k2 (List.mem_cons_of_mem _ h2))
      rcases hfc : forCollect m ns ks with ⟨rest, crs, ns2⟩
      rw [hfc] at h1 h2 h3
      simp only at h1 h2 h3
      have heq : forCollect m ns (k :: ks) = ((k, sc) :: rest, crs, ns2) := by
        simp only [forCollect, hf, hfc]
      rw [heq]
      refine ⟨h1, h2, ?_⟩
      intro p hp
      rcases List.mem_cons.mp hp with hpk | hp
      · rw [hpk]
        exact hf
      · exact h3 p hp

theorem forRetain_all (m : List (Nat × Nat)) (newKeys : List Nat)
    (hcov : ∀ p ∈ m, p.1 ∈ newKeys) :
    forRetain m newKeys = (m, []) := by
  unfold forRetain
  have h1 : m.filter (fun p => decide (p.1 ∈ newKeys)) = m := by
    rw [List.filter_eq_self]
    intro p hp
    exact decide_eq_true (hcov p hp)
  have h2 : m.filter (fun p => decide (p.1 ∉ newKeys)) = [] := by
    rw [List.filter_eq_nil_iff]
    intro p hp
    simp only [decide_eq_true_eq]
    intro hnot
    exact hnot (hcov p hp)
  rw [h1, h2]
  rfl

theorem forInsert_assocFind (order : List (Nat × Nat)) :
    ∀ (m mcur : List (Nat × Nat)),
    (∀ k, assocFind mcur k = assocFind m k) →
    (∀ p ∈ order, assocFind m p.1 = some p.2) →
    ∀ k, assocFind (forInsert mcur order) k = assocFind m k := by
  induction order with
  | nil =>
    intro m mcur hinv _ k
    exact hinv k
  | cons q rest ih =>
    intro m mcur hinv hord k
    obtain ⟨qk, qs⟩ := q
    show assocFind (forInsert ((qk, qs) :: mcur.filter (fun p => p.1 ≠ qk)) rest) k
      = assocFind m k
    refine ih m _ ?_ (fun p hp => hord p (List.mem_cons_of_mem _ hp)) k
    intro k2
    by_cases hk2 : qk = k2
    · rw [show assocFind ((qk, qs) :: mcur.filter (fun p => p.1 ≠ qk)) k2 = some qs from by
        simp [assocFind, hk2]]
      rw [← hk2]
      exact (hord (qk, qs) (List.mem_cons_self _ _)).symm
    · rw [show assocFind ((qk, qs) :: mcur.filter (fun p => p.1 ≠ qk)) k2
          = assocFind (mcur.filter (fun p => p.1 ≠ qk)) k2 from by simp [assocFind, hk2]]
      rw [assocFind_filter_ne_gen]
      rw [if_neg (fun h => hk2 h.symm), hinv k2]

/-- C9: re-running the keyed reconciler (`For::mount`'s driving effect)
over a permutation of the previous keys creates zero new row scopes,
disposes zero row scopes, leaves the scope counter untouched, and keeps
every key bound to the same row scope — row-local state survives. -/
theorem spec_c9_keyed_stability (fs : ForSt) (newKeys : List Nat)
    (_hn : (fs.rowsMap.map Prod.fst).Nodup)
    (hperm : newKeys.Perm (fs.rowsMap.map Prod.fst)) :
    (forStepRun fs newKeys).2.1 = []
    ∧ (forStepRun fs newKeys).2.2 = []
    ∧ (∀ k, assocFind (forStepRun fs newKeys).1.rowsMap k = assocFind fs.rowsMap k)
    ∧ (forStepRun fs newKeys).1.nextScope = fs.nextScope := by
  have hcovK : ∀ k ∈ newKeys, (assocFind fs.rowsMap k).isSome := by
    intro k hk
    have hmem : k ∈ fs.rowsMap.map Prod.fst := hperm.mem_iff.mp hk
    rcases List.mem_map.mp hmem with ⟨p, hp, hpe⟩
    rw [← hpe]
    exact assocFind_isSome_of_mem (show (p.1, p.2) ∈ fs.rowsMap from by simpa using hp)
  obtain ⟨h1, h2, h3⟩ := forCollect_found newKeys fs.rowsMap fs.nextScope hcovK
  have hcovM : ∀ p ∈ fs.rowsMap, p.1 ∈ newKeys := by
    intro p hp
    exact hperm.mem_iff.mpr (List.mem_map.mpr ⟨p, hp, rfl⟩)
  have hret := forRetain_all fs.rowsMap newKeys hcovM
  rcases hfc : forCollect fs.rowsMap fs.nextScope newKeys with ⟨order, created, ns⟩
  rw [hfc] at h1 h2 h3
  simp only at h1 h2 h3
  have heq : forStepRun fs newKeys = (⟨forInsert fs.rowsMap order, ns⟩, created, []) := by
    simp only [forStepRun, hfc, hret]
  rw [heq]
  refine ⟨h1, rfl, ?_, h2⟩
  intro k
  exact forInsert_assocFind order fs.rowsMap fs.rowsMap (fun _ => rfl) h3 k

/-- C5 (amended): when a signal is written, the captured subscribers are
invoked in snapshot order — the order of the signal's subscriber vector
at the moment of the write.  Because unsubscription and disposal remove
entries with `Vec::swap_remove`, that vector is not, in general, in
subscription-registration order (see the counterexample). -/
theorem spec_c5_amended_snapshot_order (fuel sig ty ty' v : Nat) (g : Nat → Nat)
    (st : St) (n : Node)
    (hgn : getNode st sig = some n) (hv : n.value = some (ty', v)) (hty : ty' = ty) :
    writeOp (fuel + 1) sig ty g st =
      (subsOf st sig).foldl (fun s e => step fuel (Act.runEff e) s)
        (pushLog (Ev.notify sig (subsOf st sig))
          (updNode st sig (fun m => { m with value := some (ty, g v) }))) := by
  have hsnap : getDependents (updNode st sig
      (fun m => { m with value := some (ty, g v) })) sig = subsOf st sig := by
    rw [getDependents_eq_subsOf]
    refine subsOf_updNode_keep ?_ sig
    intro m
    rfl
  unfold writeOp
  rw [step_write_ok fuel g hgn hv hty, hsnap]

/-- C5 (counterexample to insertion-order invocation): signal `0` gains
subscribers `1`, `2`, `3` in that registration order; disposing effect
`1` swap-removes it, moving `3` to the front.  The next write then
captures `[3, 2]` and runs effect `3` before effect `2`, although `2`'s
subscription was registered before `3`'s (its `track` event is earlier
in the log). -/
theorem spec_c5_counterexample :
    let st5 := disposeOp ((createEffectOp 9 (Cmd.read 0) ((createEffectOp 9 (Cmd.read 0)
      ((createEffectOp 9 (Cmd.read 0)
        ((createSignalOp (St.mk [] 0 none []) 0 5).2)).2)).2)).2) 1
    subsOf st5 0 = [3, 2]
    ∧ st5.log.indexOf (Ev.track 2 0) < st5.log.indexOf (Ev.track 3 0)
    ∧ evWin st5 (writeOp 9 0 0 (fun x => x + 1) st5)
        = [Ev.notify 0 [3, 2], Ev.clean 3, Ev.runEv 3, Ev.track 3 0,
           Ev.clean 2, Ev.runEv 2, Ev.track 2 0]
    ∧ (evWin st5 (writeOp 9 0 0 (fun x => x + 1) st5)).indexOf (Ev.runEv 3)
        < (evWin st5 (writeOp 9 0 0 (fun x => x + 1) st5)).indexOf (Ev.runEv 2) := by
  decide

theorem spec_c1_witness :
    Inv (St.mk [(0, { kind := NodeType.signal, value := some (0, 5) })] 1 none [])
    ∧ (subsOf (St.mk [(0, { kind := NodeType.signal, value := some (0, 5) })] 1 none [])
        0).Nodup :=
  ⟨by decide, (spec_c1_snapshot_notification 1 0 0 0 5 (fun x => x + 1)
    (St.mk [(0, { kind := NodeType.signal, value := some (0, 5) })] 1 none [])
    { kind := NodeType.signal, value := some (0, 5) } (by decide) rfl rfl rfl).2.2⟩

theorem spec_c2_witness :
    Inv (St.mk [] 0 none []) ∧ Inv (step 1 (Act.cmd Cmd.skip) (St.mk [] 0 none [])) :=
  ⟨by decide, (spec_c2_symmetric_edges (St.mk [] 0 none []) (by decide)).1 1
    (Act.cmd Cmd.skip)⟩

theorem spec_c3_witness :
    Inv (St.mk [(0, { kind := NodeType.signal, value := some (0, 5), subscribers := [2] }),
      (1, { kind := NodeType.signal, value := some (0, 7) }),
      (2, { kind := NodeType.effect, computation := some (Cmd.read 1),
            dependencies := [0] })] 3 none [])
    ∧ 2 ∉ getDependents (step 4 (Act.runEff 2)
        (St.mk [(0, { kind := NodeType.signal, value := some (0, 5), subscribers := [2] }),
          (1, { kind := NodeType.signal, value := some (0, 7) }),
          (2, { kind := NodeType.effect, computation := some (Cmd.read 1),
                dependencies := [0] })] 3 none [])) 0 :=
  ⟨by decide, (spec_c3_dynamic_pruning 3
    (St.mk [(0, { kind := NodeType.signal, value := some (0, 5), subscribers := [2] }),
      (1, { kind := NodeType.signal, value := some (0, 7) }),
      (2, { kind := NodeType.effect, computation := some (Cmd.read 1),
            dependencies := [0] })] 3 none [])
    2 0 (by decide) rfl rfl (by decide) (by decide)).2.2⟩

theorem spec_c4_witness :
    Inv (St.mk [(0, { kind := NodeType.scope, children := [1] }),
      (1, { kind := NodeType.effect, parent := some 0, dependencies := [2],
            cleanups := [7], computation := some Cmd.skip }),
      (2, { kind := NodeType.signal, value := some (0, 5), subscribers := [1] })] 3 none [])
    ∧ getNode (disposeOp
        (St.mk [(0, { kind := NodeType.scope, children := [1] }),
          (1, { kind := NodeType.effect, parent := some 0, dependencies := [2],
                cleanups := [7], computation := some Cmd.skip }),
          (2, { kind := NodeType.signal, value := some (0, 5), subscribers := [1] })]
          3 none []) 0) 1 = none :=
  ⟨by decide, (spec_c4_leak_free_disposal
    (St.mk [(0, { kind := NodeType.scope, children := [1] }),
      (1, { kind := NodeType.effect, parent := some 0, dependencies := [2],
            cleanups := [7], computation := some Cmd.skip }),
      (2, { kind := NodeType.signal, value := some (0, 5), subscribers := [1] })] 3 none [])
    0 1 2 (by decide) rfl (by decide) (Desc.step (Desc.refl 0) (by decide))).1⟩

theorem spec_c5_amended_witness :
    writeOp 1 0 0 (fun x => x + 1)
        (St.mk [(0, { kind := NodeType.signal, value := some (0, 5) })] 1 none [])
      = pushLog (Ev.notify 0 [])
          (updNode (St.mk [(0, { kind := NodeType.signal, value := some (0, 5) })] 1 none [])
            0 (fun m => { m with value := some (0, 6) })) :=
  spec_c5_amended_snapshot_order 0 0 0 0 5 (fun x => x + 1)
    (St.mk [(0, { kind := NodeType.signal, value := some (0, 5) })] 1 none [])
    { kind := NodeType.signal, value := some (0, 5) } rfl rfl rfl

theorem spec_c6_witness :
    (St.mk [] 0 none []).currentOwner = none
    ∧ (createResource 1 Cmd.skip 7 (St.mk [] 0 none [])).2 = true :=
  ⟨rfl, (spec_c6_resource_no_owner_ok 1 Cmd.skip 7 (St.mk [] 0 none []) rfl).1⟩

theorem spec_c7_amended_witness :
    provideContext 1 2 (St.mk [] 0 none []) = (St.mk [] 0 none [], PCRes.missingOwner) :=
  (spec_c7_amended_provide_context 1 2 (St.mk [] 0 none []) rfl).1

theorem spec_c8_witness :
    getTyped ([((0 : Nat), (0 : Nat))].foldl (fun s p => trackDependency p.1 s)
        (St.mk [(0, { kind := NodeType.signal, value := some (0, 5) }),
          (1, { kind := NodeType.signal, value := some (1, 1) })] 2 none [])) 1 1 = some 1
    ∧ valueOf (step 1 (Act.cmd (Cmd.memoStep [(0, 0)] (fun _ => 1) 1 1))
        (St.mk [(0, { kind := NodeType.signal, value := some (0, 5) }),
          (1, { kind := NodeType.signal, value := some (1, 1) })] 2 none [])) 1
      = valueOf (St.mk [(0, { kind := NodeType.signal, value := some (0, 5) }),
          (1, { kind := NodeType.signal, value := some (1, 1) })] 2 none []) 1 :=
  ⟨rfl, ((spec_c8_memo_filtering 0 [(0, 0)] (fun _ => 1) 1 1
    (St.mk [(0, { kind := NodeType.signal, value := some (0, 5) }),
      (1, { kind := NodeType.signal, value := some (1, 1) })] 2 none []) 1 rfl).1 rfl).1⟩

theorem spec_c9_witness :
    (forStepRun ⟨[(10, 0), (11, 1)], 2⟩ [11, 10]).2.1 = []
    ∧ (forStepRun ⟨[(10, 0), (11, 1)], 2⟩ [11, 10]).2.2 = [] :=
  ⟨(spec_c9_keyed_stability ⟨[(10, 0), (11, 1)], 2⟩ [11, 10] (by decide) (by decide)).1,
   (spec_c9_keyed_stability ⟨[(10, 0), (11, 1)], 2⟩ [11, 10] (by decide) (by decide)).2.1⟩

theorem spec_c10_witness :
    getNode (St.mk [] 0 none []) 0 = none
    ∧ writeOp 1 0 0 (fun x => x + 1) (St.mk [] 0 none []) = St.mk [] 0 none [] :=
  ⟨rfl, spec_c10_write_error_paths 0 0 0 (fun x => x + 1) (St.mk [] 0 none [])
    (Or.inl rfl)⟩

end Sinter
